import Mathlib

/-!
# gmp-calculator: lexer, recursive-descent compiler and stack interpreter

A shallow embedding of `calculator.c`.

Conventions of the embedding.

* A C `char` is a `Char`; a `char *` is the list of characters it points to, up to
  (not including) the terminating NUL.  A pointer into the tokenizer's working copy is
  therefore the suffix of that copy which starts at the pointed-to position.
* `NULL` node pointers are the empty list of nodes; dereferencing `NULL`, an access
  outside of the object an array belongs to and using an uninitialised GMP number are
  `Error.Undefined`.
* Every allocation succeeds (the program uses the results of `malloc` unchecked).
* `error(...)` prints and calls `exit(-1)`; it is the `Except.error` of the matching kind.
* `mpz_t` values are `Int`.  `unsigned long` is 64 bits wide (`ULONG_BITS`).
  The `unsigned int` counters (`line`, indices, lengths) are `Nat`: they agree with the
  C values on every input shorter than `2 ^ 32` bytes.
* Recursive functions whose recursion is not structural take a fuel argument; the callers
  supply a fuel computed from the input which is proved sufficient below.
-/

deriving instance DecidableEq for Except

namespace Calculator

/-! ## Errors -/

/-- The ways in which one evaluation cycle can stop without returning. -/
inductive Error where
  /-- `error("TokenizerError", ...)` with the character and the line that are printed. -/
  | TokenizerError (c : Char) (line : Nat)
  /-- `error("ParserError", ...)`. -/
  | ParserError
  /-- `error("InterpreterError", ...)`. -/
  | InterpreterError
  /-- Undefined behaviour of the C program (NULL dereference, out-of-bounds access). -/
  | Undefined
  /-- GMP's intentional division by zero (the process is killed by the signal). -/
  | DivideByZero
  /-- GMP stops the process with `abort()` (`gmp: overflow in mpz type`): the number to
  be stored does not fit an `mpz_t`. -/
  | Abort
  /-- The call of `mpz_pow_ui` is neither below the bound up to which the power is
  returned on every installation nor above the capacity of an `mpz_t`: whether it returns
  the power or aborts depends on the size estimate of the library version and on the
  memory of the machine, which the source does not determine. -/
  | Unspecified
  /-- The embedding ran out of fuel (never happens with the fuel the callers supply). -/
  | OutOfFuel
  deriving DecidableEq, Repr

/-! ## Tokenizer -/

/-- The enumeration `TokenIdentifier`. -/
inductive TokenIdentifier where
  | END
  | INTEGER
  | PLUS
  | MINUS
  | STAR
  | FORWARD_SLASH
  | PERCENT
  | CARET
  | LPAREN
  | RPAREN
  deriving DecidableEq, Repr

open TokenIdentifier

/-- The structure `Token`.  `string` is `none` for the NULL pointer, and otherwise the
characters of the working copy from the pointed-to position on. -/
structure Token where
  type : TokenIdentifier
  str_length : Nat
  string : Option (List Char)
  deriving DecidableEq, Repr

/-- The linked list `TokenList`, as the list of its nodes from `head` to `end`. -/
abbrev TokenList := List Token

/-- The NUL character which terminates a C string. -/
def NUL : Char := Char.ofNat 0

/-- The library function `strdup` (and `strlen`): the characters before the first NUL. -/
def strdup (string : List Char) : List Char :=
  string.takeWhile (fun c => c != NUL)

/-- The library function `strndup`: at most `n` characters, stopping at a NUL. -/
def strndup (string : List Char) (n : Nat) : List Char :=
  (strdup string).take n

/-- The function `add_token`: append one node at the end of the list. -/
def add_token (list : TokenList) (string : Option (List Char)) (type : TokenIdentifier)
    (length : Nat) : TokenList :=
  list ++ [{ type := type, str_length := length, string := string }]

/-- The test `string[length] >= '0' && string[length] <= '9'`. -/
def is_digit (c : Char) : Bool :=
  decide ('0' ≤ c) && decide (c ≤ '9')

/-- The `while` loop of `tokenize_number`: the number of leading decimal digits. -/
def digit_run : List Char → Nat
  | [] => 0
  | c :: cs => if is_digit c then digit_run cs + 1 else 0

/-- The function `tokenize_number`: returns the list with one more `INTEGER` token and the
amount by which `*index` was advanced. -/
def tokenize_number (list : TokenList) (string : List Char) : TokenList × Nat :=
  let length := digit_run string
  (add_token list (some string) INTEGER length, length)

/-- The `while (string_index <= string_length)` loop of `tokenize`.  `string` is
`&string[string_index]`; the empty list is the position of the terminating NUL, whose
iteration increments the index past `string_length` and so ends the loop.  (`row` is
written but never read and is left out.) -/
def tokenize_loop : Nat → List Char → Nat → TokenList → Except Error TokenList
  | 0, _, _, _ => .error .OutOfFuel
  | fuel + 1, string, line, list =>
    match string with
    | [] => .ok list
    | c :: rest =>
      if c = '\n' then tokenize_loop fuel rest (line + 1) list
      else if c = ' ' ∨ c = '\t' ∨ c = '\r' ∨ c = NUL then tokenize_loop fuel rest line list
      else if is_digit c then
        let r := tokenize_number list string
        tokenize_loop fuel (string.drop r.2) line r.1
      else if c = '+' then tokenize_loop fuel rest line (add_token list (some string) PLUS 1)
      else if c = '-' then tokenize_loop fuel rest line (add_token list (some string) MINUS 1)
      else if c = '*' then tokenize_loop fuel rest line (add_token list (some string) STAR 1)
      else if c = '/' then
        tokenize_loop fuel rest line (add_token list (some string) FORWARD_SLASH 1)
      else if c = '%' then tokenize_loop fuel rest line (add_token list (some string) PERCENT 1)
      else if c = '^' then tokenize_loop fuel rest line (add_token list (some string) CARET 1)
      else if c = '(' then tokenize_loop fuel rest line (add_token list (some string) LPAREN 1)
      else if c = ')' then tokenize_loop fuel rest line (add_token list (some string) RPAREN 1)
      else .error (.TokenizerError c line)

/-- The function `tokenize`.  Every iteration of the loop advances `string_index`, so
`string_length + 1` iterations are enough. -/
def tokenize (string : List Char) : Except Error TokenList :=
  let copy := strdup string
  match tokenize_loop (copy.length + 1) copy 0 [] with
  | .error e => .error e
  | .ok list => .ok (add_token list none END 0)

/-! ## Parser -/

/-- The constant `MAX_LITERALS`. -/
def MAX_LITERALS : Nat := 128

/-- The enumeration `OpcodeIdentifier`. -/
inductive OpcodeIdentifier where
  | OP_ADD
  | OP_SUB
  | OP_MUL
  | OP_DIV
  | OP_MOD
  | OP_POW
  | OP_PUSH_INTEGER
  deriving DecidableEq, Repr

open OpcodeIdentifier

/-- The numeric value of an enumerator of `OpcodeIdentifier`. -/
def OpcodeIdentifier.value : OpcodeIdentifier → Nat
  | OP_ADD => 0
  | OP_SUB => 1
  | OP_MUL => 2
  | OP_DIV => 3
  | OP_MOD => 4
  | OP_POW => 5
  | OP_PUSH_INTEGER => 6

/-- The enumerator of `OpcodeIdentifier` with a given numeric value, if there is one. -/
def OpcodeIdentifier.of_value : Nat → Option OpcodeIdentifier
  | 0 => some OP_ADD
  | 1 => some OP_SUB
  | 2 => some OP_MUL
  | 3 => some OP_DIV
  | 4 => some OP_MOD
  | 5 => some OP_POW
  | 6 => some OP_PUSH_INTEGER
  | _ => none

/-- The structure `Opcode`: one cell of the instruction sequence, a union which was written
either through `as.opcode` or through `as.literal`. -/
inductive Opcode where
  | opcode (o : OpcodeIdentifier)
  | literal (n : Nat)
  deriving DecidableEq, Repr

/-- Reading a cell through `as.opcode`; `none` is a value outside of the enumeration. -/
def Opcode.as_opcode : Opcode → Option OpcodeIdentifier
  | .opcode o => some o
  | .literal n => OpcodeIdentifier.of_value n

/-- Reading a cell through `as.literal`. -/
def Opcode.as_literal : Opcode → Nat
  | .opcode o => o.value
  | .literal n => n

/-- The structure `OpcodeList`.  `literals` holds the initialised entries
`literals[0 .. literals_top)` of the constant pool and `code` the linked list of cells from
`head` to `end`; `literals_top` and `length` are the lengths of the two lists.  An entry
with the index `MAX_LITERALS` is the one which was written over the members `head` and
`end` (see `push_literal_int_opcode`). -/
structure OpcodeList where
  literals : List Int
  code : List Opcode
  deriving DecidableEq, Repr

/-- The field `literals_top`. -/
def OpcodeList.literals_top (list : OpcodeList) : Nat := list.literals.length

/-- The field `length`. -/
def OpcodeList.length (list : OpcodeList) : Nat := list.code.length

/-- A `TokenListNode *`: the nodes from the pointed-to node to the end of the list; the
empty list is `NULL`. -/
abbrev Cursor := List Token

/-- The function `peek_add_op`. -/
def peek_add_op : Cursor → Bool
  | [] => false
  | [_] => false
  | _ :: next_node :: _ => next_node.type = PLUS || next_node.type = MINUS

/-- The function `peek_mul_op`. -/
def peek_mul_op : Cursor → Bool
  | [] => false
  | [_] => false
  | _ :: next_node :: _ =>
    next_node.type = STAR || next_node.type = FORWARD_SLASH || next_node.type = PERCENT

/-- The function `peek_pow_op`. -/
def peek_pow_op : Cursor → Bool
  | [] => false
  | [_] => false
  | _ :: next_node :: _ => next_node.type = CARET

/-- The function `expect`.  With a NULL node the arguments of the `error` call
dereference NULL. -/
def expect (current_node : Cursor) (token : TokenIdentifier) : Except Error Unit :=
  match current_node with
  | [] => .error .Undefined
  | t :: _ => if t.type ≠ token then .error .ParserError else .ok ()

/-- The expression `(*current_node)->token`. -/
def node_token : Cursor → Except Error Token
  | [] => .error .Undefined
  | t :: _ => .ok t

/-- The function `is_number`. -/
def is_number (current_node : Cursor) : Except Error Bool :=
  match node_token current_node with
  | .error e => .error e
  | .ok t => .ok (t.type = INTEGER)

/-- The function `is_open_paren`. -/
def is_open_paren (current_node : Cursor) : Except Error Bool :=
  match node_token current_node with
  | .error e => .error e
  | .ok t => .ok (t.type = LPAREN)

/-- The macro `ADVANCE`: `*node = (*node)->next`. -/
def ADVANCE : Cursor → Except Error Cursor
  | [] => .error .Undefined
  | _ :: next => .ok next

/-- The function `push_opcode`. -/
def push_opcode (list : OpcodeList) (opcode : OpcodeIdentifier) : OpcodeList :=
  { list with code := list.code ++ [.opcode opcode] }

/-- The value of one decimal digit character. -/
def digit_value (c : Char) : Nat := c.toNat - '0'.toNat

/-- The library call `mpz_set_str(x, str, 10)` on a freshly initialised `x`, for a
string of decimal digits (the only strings which the tokens of `tokenize` span): the
number written in base 10, and `0` for the empty string (the call fails and leaves `x`
as `mpz_init` made it). -/
def mpz_set_str (str : List Char) : Int :=
  ((str.foldl (fun acc c => acc * 10 + digit_value c) 0 : Nat) : Int)

/-- The function `push_literal_int_opcode`.  The array `literals` is the first member of
the structure and has `MAX_LITERALS` entries of 40 bytes (a 32 byte union and the `type`),
so the `mpz_t` of `literals[MAX_LITERALS]` is the 16 bytes of the members `head` and `end`
which follow the array.  With `literals_top == MAX_LITERALS` the calls `mpz_init` and
`mpz_set_str` therefore overwrite `head` and `end`; `list->end->next = node` then writes
into the limbs which `end` now points to, `list->end = node` makes `end` the new node
again, and `head` stays overwritten (within `parse` the cell `OP_PUSH_INTEGER` was
appended just before, so `length` is not `0` and `head` is not assigned).  The function
returns, and the list keeps growing at `end`: the model keeps the cells in `code`, and
`literals_top == MAX_LITERALS + 1` records that `head` is lost (see `parse`).  With
`literals_top > MAX_LITERALS` the entry lies outside of the structure. -/
def push_literal_int_opcode (list : OpcodeList) (num_string : List Char) :
    Except Error OpcodeList :=
  if list.literals_top ≤ MAX_LITERALS then
    .ok { literals := list.literals ++ [mpz_set_str num_string],
          code := list.code ++ [.literal list.literals_top] }
  else .error .Undefined

/-- The function `push_opcode_from_token`.  In the `default` case of the `switch` the
cell that is appended is never written. -/
def push_opcode_from_token (list : OpcodeList) (token : Token) : Except Error OpcodeList :=
  match token.type with
  | INTEGER =>
    match token.string with
    | none => .error .Undefined
    | some string => push_literal_int_opcode list (strndup string token.str_length)
  | PLUS => .ok (push_opcode list OP_ADD)
  | MINUS => .ok (push_opcode list OP_SUB)
  | STAR => .ok (push_opcode list OP_MUL)
  | FORWARD_SLASH => .ok (push_opcode list OP_DIV)
  | PERCENT => .ok (push_opcode list OP_MOD)
  | CARET => .ok (push_opcode list OP_POW)
  | _ => .error .Undefined

mutual

/-- The function `expr`. -/
def expr : Nat → OpcodeList → Cursor → Except Error (OpcodeList × Cursor)
  | 0, _, _ => .error .OutOfFuel
  | fuel + 1, opcodes, current_node => do
    let (opcodes, current_node) ← term fuel opcodes current_node
    if peek_add_op current_node then
      let current_node ← ADVANCE current_node
      let op ← node_token current_node
      let current_node ← ADVANCE current_node
      let (opcodes, current_node) ← expr fuel opcodes current_node
      let opcodes ← push_opcode_from_token opcodes op
      pure (opcodes, current_node)
    else pure (opcodes, current_node)

/-- The function `term`. -/
def term : Nat → OpcodeList → Cursor → Except Error (OpcodeList × Cursor)
  | 0, _, _ => .error .OutOfFuel
  | fuel + 1, opcodes, current_node => do
    let (opcodes, current_node) ← factor fuel opcodes current_node
    if peek_mul_op current_node then
      let current_node ← ADVANCE current_node
      let op ← node_token current_node
      let current_node ← ADVANCE current_node
      let (opcodes, current_node) ← term fuel opcodes current_node
      let opcodes ← push_opcode_from_token opcodes op
      pure (opcodes, current_node)
    else pure (opcodes, current_node)

/-- The function `factor`. -/
def factor : Nat → OpcodeList → Cursor → Except Error (OpcodeList × Cursor)
  | 0, _, _ => .error .OutOfFuel
  | fuel + 1, opcodes, current_node => do
    let (opcodes, current_node) ← atom fuel opcodes current_node
    if peek_pow_op current_node then
      let current_node ← ADVANCE current_node
      let op ← node_token current_node
      let current_node ← ADVANCE current_node
      let (opcodes, current_node) ← factor fuel opcodes current_node
      let opcodes ← push_opcode_from_token opcodes op
      pure (opcodes, current_node)
    else pure (opcodes, current_node)

/-- The function `atom`.  There is no `else` branch: a token which is neither a number
nor an opening parenthesis is left where it is and nothing is emitted. -/
def atom : Nat → OpcodeList → Cursor → Except Error (OpcodeList × Cursor)
  | 0, _, _ => .error .OutOfFuel
  | fuel + 1, opcodes, current_node => do
    if (← is_number current_node) then
      let op ← node_token current_node
      let opcodes := push_opcode opcodes OP_PUSH_INTEGER
      let opcodes ← push_opcode_from_token opcodes op
      pure (opcodes, current_node)
    else if (← is_open_paren current_node) then
      let current_node ← ADVANCE current_node
      let (opcodes, current_node) ← expr fuel opcodes current_node
      let current_node ← ADVANCE current_node
      expect current_node RPAREN
      pure (opcodes, current_node)
    else pure (opcodes, current_node)

end

/-- The function `parse`.  `node->next != list->end` compares the successor of the
current node with the last node of the list: they are the same node exactly when one node
follows the current one.  The recursion of `expr` is at most four calls deep per token.

When `parse` returns after `head` was overwritten (`literals_top > MAX_LITERALS`, see
`push_literal_int_opcode`), the structure it hands to `interpret` and to
`free_opcode_list` holds no list: both follow `head`.  That outcome is
`Error.Undefined`; the `error` calls of the parser come before it, as in the program. -/
def parse (list : TokenList) : Except Error OpcodeList := do
  let opcodes : OpcodeList := { literals := [], code := [] }
  let (opcodes, node) ← expr (4 * list.length + 4) opcodes list
  match node with
  | [] => .error .Undefined
  | _ :: next =>
    if next.length ≠ 1 then .error .ParserError
    else if MAX_LITERALS < opcodes.literals_top then .error .Undefined
    else pure opcodes

/-! ## Interpreter -/

/-- The constant `MAX_STACK`. -/
def MAX_STACK : Nat := 64

/-- The width of `unsigned long`. -/
def ULONG_BITS : Nat := 64

/-- The global value stack: the entries `stack[0 .. stack_top)`, the top of the stack
(`stack[stack_top - 1]`) first.  `stack_top` is the length of the list.  Entries at and
above `stack_top` are overwritten by `PUSH_INTEGER` before they are read.

`PUSH_INTEGER` copies the three fields of the `mpz_t`, so a stack entry shares its limbs
with the constant it was pushed from, and the binary operations write their result in
place.  A program which pushes every constant at most once (every program which `parse`
emits) never reads a constant after it was written to, and for such programs the values
on the stack are the integers of this model. -/
abbrev Stack := List Int

/-- The variable `stack_top`. -/
def stack_top (stack : Stack) : Nat := stack.length

/-- The macro `PUSH_INTEGER`.  The array `stack` has `MAX_STACK` entries. -/
def PUSH_INTEGER (stack : Stack) (mpz : Int) : Except Error Stack :=
  if stack_top stack < MAX_STACK then .ok (mpz :: stack) else .error .Undefined

/-- The function `add_numbers`.  With fewer than two entries `stack_top - 2` wraps
around and the access is out of bounds. -/
def add_numbers : Stack → Except Error Stack
  | b :: a :: stack => .ok ((a + b) :: stack)
  | _ => .error .Undefined

/-- The function `sub_numbers`. -/
def sub_numbers : Stack → Except Error Stack
  | b :: a :: stack => .ok ((a - b) :: stack)
  | _ => .error .Undefined

/-- The function `mul_numbers`. -/
def mul_numbers : Stack → Except Error Stack
  | b :: a :: stack => .ok ((a * b) :: stack)
  | _ => .error .Undefined

/-- The function `div_numbers` (`mpz_div` is `mpz_fdiv_q`: the quotient rounded towards
minus infinity; a zero divisor makes GMP divide by zero).  `interpret` never calls it. -/
def div_numbers : Stack → Except Error Stack
  | b :: a :: stack => if b = 0 then .error .DivideByZero else .ok ((a.fdiv b) :: stack)
  | _ => .error .Undefined

/-- The function `mod_numbers` (`mpz_mod`: the sign of the divisor is ignored and the
result is never negative; a zero divisor makes GMP divide by zero). -/
def mod_numbers : Stack → Except Error Stack
  | b :: a :: stack => if b = 0 then .error .DivideByZero else .ok ((a.emod b) :: stack)
  | _ => .error .Undefined

/-- The library function `mpz_get_ui`: the least significant bits of the absolute value
which fit an `unsigned long`. -/
def mpz_get_ui (op : Int) : Nat := op.natAbs % 2 ^ ULONG_BITS

/-- The number of binary digits of `n`, by halving `n` until it is `0`. -/
def bit_length_loop : Nat → Nat → Nat
  | 0, _ => 0
  | fuel + 1, n => if n = 0 then 0 else bit_length_loop fuel (n / 2) + 1

/-- The number of binary digits of `n` (`mpz_sizeinbase (n, 2)` for `n` other than `0`). -/
def bit_length (n : Nat) : Nat := bit_length_loop n n

/-- The capacity of an `mpz_t` in bits: its field `_mp_size` is an `int`, so a number has
at most `2 ^ 31 - 1` limbs of 64 bits. -/
def MPZ_MAX_BITS : Nat := 64 * (2 ^ 31 - 1)

/-- A size in bits (128 MiB) up to which `mpz_pow_ui` returns the power on every
installation: far below the capacity of an `mpz_t`, and an allocation which succeeds. -/
def POW_SAFE_BITS : Nat := 2 ^ 30

/-- A sufficient test for `base ^ exp` to have at most `POW_SAFE_BITS` bits: the power is
`1` or `base` is `0`, `1` or `-1`, or the product of the number of bits of `base` and of
`exp` (a bound of the number of bits of the power) is at most `POW_SAFE_BITS`. -/
def pow_is_small (base : Int) (exp : Nat) : Bool :=
  decide (exp = 0 ∨ base.natAbs ≤ 1 ∨ bit_length base.natAbs * exp ≤ POW_SAFE_BITS)

/-- The library function `mpz_pow_ui`, which is not total: the result is written to an
`mpz_t`, and the library calls `abort()` (`gmp: overflow in mpz type`) when the power
does not fit one.  For `|base| ≥ 2` the power has more than
`(bit_length |base| - 1) * exp` bits; when that is at least `MPZ_MAX_BITS` the call
aborts.  Between the two bounds the outcome is `Error.Unspecified`. -/
def mpz_pow_ui (base : Int) (exp : Nat) : Except Error Int :=
  if pow_is_small base exp then .ok (base ^ exp)
  else if MPZ_MAX_BITS ≤ (bit_length base.natAbs - 1) * exp then .error .Abort
  else .error .Unspecified

/-- The function `pow_numbers`. -/
def pow_numbers : Stack → Except Error Stack
  | b :: a :: stack =>
    match mpz_pow_ui a (mpz_get_ui b) with
    | .error e => .error e
    | .ok power => .ok (power :: stack)
  | _ => .error .Undefined

/-- The expression `list->literals[i].as.Integer` for a read: entries at and above
`literals_top` were never initialised. -/
def read_literal (literals : List Int) (i : Nat) : Except Error Int :=
  match literals.get? i with
  | some v => .ok v
  | none => .error .Undefined

/-- The `for` loop of `interpret` over the cells `code[pc ..]`.  `OP_DIV` has no case of
its own (it is commented out) and is handled by `default`. -/
def interpret_loop (literals : List Int) : List Opcode → Stack → Except Error Stack
  | [], stack => .ok stack
  | c :: code, stack =>
    match c.as_opcode, code with
    | some OP_PUSH_INTEGER, [] => .error .Undefined
    | some OP_PUSH_INTEGER, operand :: code =>
      match read_literal literals operand.as_literal with
      | .error e => .error e
      | .ok mpz =>
        match PUSH_INTEGER stack mpz with
        | .error e => .error e
        | .ok stack => interpret_loop literals code stack
    | some OP_ADD, code =>
      match add_numbers stack with
      | .error e => .error e
      | .ok stack => interpret_loop literals code stack
    | some OP_SUB, code =>
      match sub_numbers stack with
      | .error e => .error e
      | .ok stack => interpret_loop literals code stack
    | some OP_MUL, code =>
      match mul_numbers stack with
      | .error e => .error e
      | .ok stack => interpret_loop literals code stack
    | some OP_MOD, code =>
      match mod_numbers stack with
      | .error e => .error e
      | .ok stack => interpret_loop literals code stack
    | some OP_POW, code =>
      match pow_numbers stack with
      | .error e => .error e
      | .ok stack => interpret_loop literals code stack
    | _, _ => .error .InterpreterError

/-- The function `interpret`, from a given state of the global stack: what is printed
(if anything) and the state of the stack afterwards. -/
def interpret (list : OpcodeList) (stack : Stack) : Except Error (Option Int × Stack) :=
  match interpret_loop list.literals list.code stack with
  | .error e => .error e
  | .ok stack =>
    match stack with
    | [x1] => .ok (some x1, [])
    | _ => .ok (none, stack)

/-- The function `free_opcode_list`.  `free_opcode_nodes (list->head)` reads
`node->next` of its argument without a test, so the empty list (`head == NULL`) is a NULL
dereference.  The loop over `literals` clears nothing: no `type` is ever set to
`VAL_INTEGER`. -/
def free_opcode_list (list : OpcodeList) : Except Error Unit :=
  match list.code with
  | [] => .error .Undefined
  | _ :: _ => .ok ()

/-- The function `free_token_list`: `free_nodes (list->head)` reads `node->next` of its
argument without a test. -/
def free_token_list (list : TokenList) : Except Error Unit :=
  match list with
  | [] => .error .Undefined
  | _ :: _ => .ok ()

/-- One iteration of the `while` loop of `main`: tokenize, parse and interpret one line,
then free the two lists.  The result is what `interpret` printed and the stack it left;
when one of the calls after `interpret` fails, the outcome is that failure. -/
def main_cycle (buf : List Char) (stack : Stack) : Except Error (Option Int × Stack) :=
  match tokenize buf with
  | .error e => .error e
  | .ok tokens =>
    match parse tokens with
    | .error e => .error e
    | .ok opcodes =>
      match interpret opcodes stack with
      | .error e => .error e
      | .ok result =>
        match free_opcode_list opcodes with
        | .error e => .error e
        | .ok _ =>
          match free_token_list tokens with
          | .error e => .error e
          | .ok _ => .ok result

/-! ## Definitions used to state the properties -/

/-- The characters which the tokenizer accepts. -/
def allowed (c : Char) : Bool :=
  c = ' ' || c = '\t' || c = '\r' || c = '\n' || is_digit c ||
  c = '+' || c = '-' || c = '*' || c = '/' || c = '%' || c = '^' || c = '(' || c = ')'

/-- The token type of the `case` label of an operator or parenthesis character. -/
def op_case (c : Char) : Option TokenIdentifier :=
  if c = '+' then some PLUS
  else if c = '-' then some MINUS
  else if c = '*' then some STAR
  else if c = '/' then some FORWARD_SLASH
  else if c = '%' then some PERCENT
  else if c = '^' then some CARET
  else if c = '(' then some LPAREN
  else if c = ')' then some RPAREN
  else none


/-- The loop of `tokenize` with the fuel which `tokenize` gives it for this string. -/
def lex (string : List Char) (line : Nat) (list : TokenList) : Except Error TokenList :=
  tokenize_loop (string.length + 1) string line list

/-- The precedence level of an operator token: `0` for the additive operators, `1` for the
multiplicative ones and `2` for the power operator; `none` for any other token. -/
def op_level : TokenIdentifier → Option Nat
  | PLUS => some 0
  | MINUS => some 0
  | STAR => some 1
  | FORWARD_SLASH => some 1
  | PERCENT => some 1
  | CARET => some 2
  | _ => none

/-- The instruction which an operator token stands for. -/
def op_opcode : TokenIdentifier → OpcodeIdentifier
  | PLUS => OP_ADD
  | MINUS => OP_SUB
  | STAR => OP_MUL
  | FORWARD_SLASH => OP_DIV
  | PERCENT => OP_MOD
  | _ => OP_POW

/-- The characters which a token spans: `str_length` characters from `string` on. -/
def Token.span (tok : Token) : List Char :=
  match tok.string with
  | none => []
  | some s => s.take tok.str_length

/-- The number which a string of decimal digits denotes in base 10. -/
def decimal_value (span : List Char) : Nat :=
  Nat.ofDigits 10 (span.reverse.map digit_value)

/-- A string is an integer literal: one decimal digit or more, and nothing else. -/
def is_literal_text (d : List Char) : Bool :=
  !d.isEmpty && d.all is_digit

/-- An `Integer` terminal of the grammar: an `INTEGER` token which spans a literal. -/
def is_literal (tok : Token) : Bool :=
  tok.type = INTEGER && tok.string.isSome && is_literal_text tok.span

/-- The right-associated parse trees of the grammar
```
expr   := term   { addOp term }
term   := factor { mulOp factor }
factor := atom   { powOp atom }
atom   := Integer | "(" expr ")"
```
with the tokens at their leaves.  A chain `x1 op1 x2 op2 x3` of one level is the tree
`bin x1 op1 (bin x2 op2 x3)`.  Which trees belong to which nonterminal is the matter of
`Tree.level` and `Tree.wf`. -/
inductive Tree where
  | lit (tok : Token)
  | paren (lp : Token) (e : Tree) (rp : Token)
  | bin (l : Tree) (op : Token) (r : Tree)
  deriving DecidableEq, Repr

/-- The tightest nonterminal which a tree is a derivation of: `0` for `expr`, `1` for
`term`, `2` for `factor` and `3` for `atom`.  A tree of level `k` is also a derivation of
every nonterminal of a level below `k`. -/
def Tree.level : Tree → Nat
  | .lit _ => 3
  | .paren _ _ _ => 3
  | .bin _ op _ => (op_level op.type).getD 3

/-- The tree is a derivation of the grammar: the leaves are `Integer` terminals, the
parentheses are parentheses, every inner node carries an operator of some level `k`, its
left operand is a derivation of the next tighter nonterminal and its right operand is the
rest of the chain of level `k`. -/
def Tree.wf : Tree → Bool
  | .lit tok => is_literal tok
  | .paren lp e rp => lp.type = LPAREN && rp.type = RPAREN && e.wf
  | .bin l op r =>
    match op_level op.type with
    | none => false
    | some k => l.wf && r.wf && decide (k < l.level) && decide (k ≤ r.level)

/-- The token sequence which a tree derives. -/
def Tree.tokens : Tree → List Token
  | .lit tok => [tok]
  | .paren lp e rp => lp :: e.tokens ++ [rp]
  | .bin l op r => l.tokens ++ op :: r.tokens

/-- The last token of the token sequence of a tree. -/
def Tree.last : Tree → Token
  | .lit tok => tok
  | .paren _ _ rp => rp
  | .bin _ _ r => r.last

/-- The integer literals of a tree in left-to-right order. -/
def Tree.literal_tokens : Tree → List Token
  | .lit tok => [tok]
  | .paren _ e _ => e.literal_tokens
  | .bin l _ r => l.literal_tokens ++ r.literal_tokens

/-- The number of integer literals of a tree. -/
def Tree.num_literals (t : Tree) : Nat := t.literal_tokens.length

/-- The constant pool of a tree: the base-10 values of its literals, left to right. -/
def Tree.pool (t : Tree) : List Int :=
  t.literal_tokens.map (fun tok => (decimal_value tok.span : Int))

/-- The post-order traversal of a tree: the code of the left operand, the code of the
right operand, then the operator; a literal is the two cells `PushInteger, k` where `k`
counts the literals from the left, starting with `k` for the first literal of the tree;
parentheses add nothing. -/
def Tree.postorder : Tree → Nat → List Opcode
  | .lit _, k => [.opcode OP_PUSH_INTEGER, .literal k]
  | .paren _ e _, k => e.postorder k
  | .bin l op r, k =>
    l.postorder k ++ r.postorder (k + l.num_literals) ++ [.opcode (op_opcode op.type)]

/-- A token sequence is derivable from the grammar (from its start symbol `expr`). -/
def derivable (ts : List Token) : Prop :=
  ∃ t : Tree, t.wf = true ∧ t.tokens = ts

/-- The grammar itself, as a derivation relation: `derives L ts` says that the nonterminal
of level `L` (`0` for `expr`, `1` for `term`, `2` for `factor`, `3` for `atom`) derives the
token sequence `ts`.  A nonterminal `x {op y}` below the atoms derives one `y`, or one `y`,
an operator of its level and again a sequence of the form `y {op y}`. -/
inductive derives : Nat → List Token → Prop where
  | integer (tok : Token) : is_literal tok = true → derives 3 [tok]
  | paren (lp rp : Token) (ts : List Token) : lp.type = LPAREN → rp.type = RPAREN →
      derives 0 ts → derives 3 (lp :: ts ++ [rp])
  | single (L : Nat) (ts : List Token) : derives (L + 1) ts → derives L ts
  | more (L : Nat) (ts1 ts2 : List Token) (op : Token) : op_level op.type = some L →
      derives (L + 1) ts1 → derives L ts2 → derives L (ts1 ++ op :: ts2)

/-- The number of `INTEGER` tokens of a token sequence. -/
def count_literals (ts : List Token) : Nat :=
  ts.countP (fun tok => tok.type = INTEGER)

/-- The parsing function of a level: `expr`, `term`, `factor`, `atom` for `0, 1, 2, 3`. -/
def run_level : Nat → Nat → OpcodeList → Cursor → Except Error (OpcodeList × Cursor)
  | 0 => expr
  | 1 => term
  | 2 => factor
  | _ => atom

/-- The token after the current one, if there is one, is not an operator of level `L` or
above: the functions of the levels from `L` on stop here. -/
def stops (L : Nat) (rest : Cursor) : Prop :=
  ∀ tok rest', rest = tok :: rest' → ∀ k, op_level tok.type = some k → k < L

/-- The lookahead test of a level: `peek_add_op`, `peek_mul_op`, `peek_pow_op` for the
levels `0, 1, 2`. -/
def peek_level : Nat → Cursor → Bool
  | 0 => peek_add_op
  | 1 => peek_mul_op
  | 2 => peek_pow_op
  | _ => fun _ => false

/-- The `INTEGER` token of a literal `d` which is followed by the text `r`. -/
def lit_token (d r : List Char) : Token :=
  { type := INTEGER, str_length := d.length, string := some (d ++ r) }

/-- The token of a one-character operator or parenthesis at the head of the text `s`. -/
def op_token (type : TokenIdentifier) (s : List Char) : Token :=
  { type := type, str_length := 1, string := some s }

/-- The `END` token which `tokenize` appends. -/
def end_token : Token :=
  { type := END, str_length := 0, string := none }

/-- The program of a text: `tokenize` followed by `parse`. -/
def compile (buf : List Char) : Except Error OpcodeList :=
  match tokenize buf with
  | .error e => .error e
  | .ok tokens => parse tokens

/-- The text `1+1+ ... +1` with `n + 1` literals. -/
def ones_text : Nat → List Char
  | 0 => ['1']
  | n + 1 => '1' :: '+' :: ones_text n

/-- The derivation tree of the tokens of `ones_text n` when the text `tail` follows it. -/
def ones_tree (tail : List Char) : Nat → Tree
  | 0 => .lit (lit_token ['1'] tail)
  | n + 1 =>
    .bin (.lit (lit_token ['1'] ('+' :: ones_text n ++ tail)))
      (op_token PLUS ('+' :: ones_text n ++ tail)) (ones_tree tail n)

/-- The operand cells of an instruction sequence: the cells after each `PushInteger`. -/
def operands : List Opcode → List Nat
  | .opcode OP_PUSH_INTEGER :: operand :: code => operand.as_literal :: operands code
  | _ :: code => operands code
  | [] => []

/-- With fuel for four calls per remaining token the function of a level does not run
out of fuel, and it never moves the cursor backwards. -/
def level_total (L : Nat) (cur : Cursor) : Prop :=
  ∀ (o : OpcodeList) (fuel : Nat), 4 * cur.length + 4 ≤ fuel + L →
    run_level L fuel o cur ≠ .error .OutOfFuel ∧
    ∀ o1 c1, run_level L fuel o cur = .ok (o1, c1) → c1.length ≤ cur.length

/-- The effect of the instruction of an operator token on the left operand `a` and the
right operand `b`, as `interpret` dispatches it: the sum, difference or product; the
remainder of `mpz_mod`; the outcome of `mpz_pow_ui` with the exponent read by
`mpz_get_ui`; and for `/` the unknown opcode. -/
def apply_op (type : TokenIdentifier) (a b : Int) : Except Error Int :=
  match type with
  | PLUS => .ok (a + b)
  | MINUS => .ok (a - b)
  | STAR => .ok (a * b)
  | PERCENT => if b = 0 then .error .DivideByZero else .ok (a.emod b)
  | CARET => mpz_pow_ui a (mpz_get_ui b)
  | _ => .error .InterpreterError

/-- The outcome of a derivation tree under the operations of `interpret`, operands from
left to right: its value, or the first error. -/
def Tree.exec : Tree → Except Error Int
  | .lit tok => .ok (decimal_value tok.span : Int)
  | .paren _ e _ => e.exec
  | .bin l op r =>
    match l.exec with
    | .error e => .error e
    | .ok a =>
      match r.exec with
      | .error e => .error e
      | .ok b => apply_op op.type a b

/-- The reference evaluator: the value of a derivation tree (every operator level read
right-associatively, as the tree is), with exact integer addition, subtraction and
multiplication, exact exponentiation, and for `%` the remainder `r` of the division by
`|divisor|` with `0 ≤ r < |divisor|`.  (`/` has no reference value here.) -/
def Tree.eval : Tree → Int
  | .lit tok => (decimal_value tok.span : Int)
  | .paren _ e _ => e.eval
  | .bin l op r =>
    match op.type with
    | PLUS => l.eval + r.eval
    | MINUS => l.eval - r.eval
    | STAR => l.eval * r.eval
    | PERCENT => l.eval % r.eval
    | CARET => l.eval ^ r.eval.toNat
    | _ => 0

/-- Every exponent of the tree has a value in `[0, 2 ^ 64)` and every modulus of the tree
has a value other than zero. -/
def Tree.in_domain : Tree → Bool
  | .lit _ => true
  | .paren _ e _ => e.in_domain
  | .bin l op r =>
    l.in_domain && r.in_domain &&
    (op.type != CARET || (decide (0 ≤ r.eval) && decide (r.eval < 2 ^ 64))) &&
    (op.type != PERCENT || decide (r.eval ≠ 0))

/-- Every power of the tree is small in the sense of `pow_is_small`, for the value of its
base and the value of its exponent. -/
def Tree.powers_small : Tree → Bool
  | .lit _ => true
  | .paren _ e _ => e.powers_small
  | .bin l op r =>
    l.powers_small && r.powers_small &&
    (op.type != CARET || pow_is_small l.eval r.eval.toNat)

/-- The number of `PushInteger` instructions of a sequence of cells. -/
def count_push (code : List Opcode) : Nat :=
  code.countP (fun c => c == .opcode OP_PUSH_INTEGER)

/-- A cell which holds a binary opcode. -/
def is_binary : Opcode → Bool
  | .opcode o => o != OP_PUSH_INTEGER
  | .literal _ => false

/-- The number of binary opcodes of a sequence of cells. -/
def count_binary (code : List Opcode) : Nat :=
  code.countP is_binary

/-- Every binary opcode of the sequence finds two values or more, when the sequence starts
at the stack depth `depth` and every `PushInteger` adds one value and every binary opcode
takes one away. -/
def well_stacked : List Opcode → Nat → Bool
  | [], _ => true
  | .opcode OP_PUSH_INTEGER :: code, depth => well_stacked code (depth + 1)
  | .opcode _ :: code, depth => decide (2 ≤ depth) && well_stacked code (depth - 1)
  | .literal _ :: code, depth => well_stacked code depth

/-- The values of `stack_top` during the loop of `interpret`: the stack depth after every
instruction which the loop executes, until the loop ends or stops with an error.  The
cases are the cases of `interpret_loop`. -/
def stack_depths (literals : List Int) : List Opcode → Stack → List Nat
  | [], _ => []
  | c :: code, stack =>
    match c.as_opcode, code with
    | some OP_PUSH_INTEGER, [] => []
    | some OP_PUSH_INTEGER, operand :: code =>
      match read_literal literals operand.as_literal with
      | .error _ => []
      | .ok mpz =>
        match PUSH_INTEGER stack mpz with
        | .error _ => []
        | .ok stack => stack_top stack :: stack_depths literals code stack
    | some OP_ADD, code =>
      match add_numbers stack with
      | .error _ => []
      | .ok stack => stack_top stack :: stack_depths literals code stack
    | some OP_SUB, code =>
      match sub_numbers stack with
      | .error _ => []
      | .ok stack => stack_top stack :: stack_depths literals code stack
    | some OP_MUL, code =>
      match mul_numbers stack with
      | .error _ => []
      | .ok stack => stack_top stack :: stack_depths literals code stack
    | some OP_MOD, code =>
      match mod_numbers stack with
      | .error _ => []
      | .ok stack => stack_top stack :: stack_depths literals code stack
    | some OP_POW, code =>
      match pow_numbers stack with
      | .error _ => []
      | .ok stack => stack_top stack :: stack_depths literals code stack
    | _, _ => []

/-- The states of the global stack in which an iteration of the loop of `main` can begin:
the state at the start of the program (`stack_top = 0`), and the state after every
iteration which returns. -/
inductive reachable : Stack → Prop where
  | start : reachable []
  | cycle (buf : List Char) (stack : Stack) (out : Option Int) (stack' : Stack) :
      reachable stack → main_cycle buf stack = .ok (out, stack') → reachable stack'

/-- A piece of code which the loop of `interpret` runs as a unit, whatever follows it, and
which leaves the stack at most `delta` values deeper than it found it. -/
def segment (c : List Opcode) (delta : Int) : Prop :=
  ∀ (literals : List Int) (rest : List Opcode) (stack : Stack),
    (interpret_loop literals (c ++ rest) stack =
      match interpret_loop literals c stack with
      | .error e => .error e
      | .ok stack1 => interpret_loop literals rest stack1) ∧
    ∀ stack1, interpret_loop literals c stack = .ok stack1 →
      (stack1.length : Int) ≤ stack.length + delta

/-! ## The tokenizer loop -/

theorem is_digit_ne {c d : Char} (h : is_digit c = true) (hd : is_digit d = false) : c ≠ d := by
  rintro rfl; simp [h] at hd

theorem digit_run_pos {c : Char} (cs : List Char) (h : is_digit c = true) :
    0 < digit_run (c :: cs) := by
  simp [digit_run, h]

theorem digit_run_le (s : List Char) : digit_run s ≤ s.length := by
  induction s with
  | nil => simp [digit_run]
  | cons c cs ih =>
    by_cases h : is_digit c = true
    · simp [digit_run, h]; exact ih
    · simp [digit_run, h]

theorem loop_nil (f : Nat) (line : Nat) (list : TokenList) :
    tokenize_loop (f + 1) [] line list = .ok list := by
  simp [tokenize_loop]

theorem loop_newline (f : Nat) (rest : List Char) (line : Nat) (list : TokenList) :
    tokenize_loop (f + 1) ('\n' :: rest) line list = tokenize_loop f rest (line + 1) list := by
  simp [tokenize_loop]

theorem loop_blank (f : Nat) (c : Char) (rest : List Char) (line : Nat) (list : TokenList)
    (h : c = ' ' ∨ c = '\t' ∨ c = '\r' ∨ c = NUL) :
    tokenize_loop (f + 1) (c :: rest) line list = tokenize_loop f rest line list := by
  have h1 : c ≠ '\n' := by rcases h with h | h | h | h <;> subst h <;> decide
  simp [tokenize_loop, h1, h]

theorem loop_digit (f : Nat) (c : Char) (rest : List Char) (line : Nat) (list : TokenList)
    (h : is_digit c = true) :
    tokenize_loop (f + 1) (c :: rest) line list =
      tokenize_loop f ((c :: rest).drop (digit_run (c :: rest))) line
        (add_token list (some (c :: rest)) INTEGER (digit_run (c :: rest))) := by
  have h1 : c ≠ '\n' := is_digit_ne h (by decide)
  have h2 : c ≠ ' ' := is_digit_ne h (by decide)
  have h3 : c ≠ '\t' := is_digit_ne h (by decide)
  have h4 : c ≠ '\r' := is_digit_ne h (by decide)
  have h5 : c ≠ NUL := is_digit_ne h (by decide)
  simp [tokenize_loop, h1, h2, h3, h4, h5, h, tokenize_number]

theorem loop_op (f : Nat) (c : Char) (rest : List Char) (line : Nat) (list : TokenList)
    (t : TokenIdentifier) (h : op_case c = some t) :
    tokenize_loop (f + 1) (c :: rest) line list =
      tokenize_loop f rest line (add_token list (some (c :: rest)) t 1) := by
  unfold op_case at h
  split_ifs at h with h1 h2 h3 h4 h5 h6 h7 h8 <;>
    simp only [Option.some.injEq] at h <;> subst h <;> subst c <;> simp [tokenize_loop, is_digit] <;>
    intro hN <;> exact absurd hN (by decide)


theorem loop_bad (f : Nat) (c : Char) (rest : List Char) (line : Nat) (list : TokenList)
    (h : allowed c = false) (hN : c ≠ NUL) :
    tokenize_loop (f + 1) (c :: rest) line list = .error (.TokenizerError c line) := by
  simp only [allowed, Bool.or_eq_false_iff, decide_eq_false_iff_not] at h
  obtain ⟨⟨⟨⟨⟨⟨⟨⟨⟨⟨⟨⟨h1, h2⟩, h3⟩, h4⟩, h5⟩, h6⟩, h7⟩, h8⟩, h9⟩, h10⟩, h11⟩, h12⟩, h13⟩ := h
  simp [tokenize_loop, h1, h2, h3, h4, h5, h6, h7, h8, h9, h10, h11, h12, h13, hN]

/-- Every character falls in one group of `case` labels of the `switch`. -/
theorem char_cases (c : Char) :
    c = '\n' ∨ (c = ' ' ∨ c = '\t' ∨ c = '\r' ∨ c = NUL) ∨ is_digit c = true ∨
      (∃ t, op_case c = some t) ∨ (allowed c = false ∧ c ≠ NUL) := by
  by_cases h1 : c = '\n'
  · exact Or.inl h1
  by_cases h2 : (c = ' ' ∨ c = '\t' ∨ c = '\r' ∨ c = NUL)
  · exact Or.inr (Or.inl h2)
  by_cases h3 : is_digit c = true
  · exact Or.inr (Or.inr (Or.inl h3))
  by_cases h4 : ∃ t, op_case c = some t
  · exact Or.inr (Or.inr (Or.inr (Or.inl h4)))
  refine Or.inr (Or.inr (Or.inr (Or.inr ⟨?_, fun h => h2 (Or.inr (Or.inr (Or.inr h)))⟩)))
  simp only [not_or] at h2
  have h5 : ∀ t, op_case c ≠ some t := fun t ht => h4 ⟨t, ht⟩
  unfold op_case at h5
  simp only [allowed, Bool.or_eq_false_iff, decide_eq_false_iff_not]
  simp only [Bool.not_eq_true] at h3
  refine ⟨⟨⟨⟨⟨⟨⟨⟨⟨⟨⟨⟨h2.1, h2.2.1⟩, h2.2.2.1⟩, h1⟩, h3⟩, ?_⟩, ?_⟩, ?_⟩, ?_⟩, ?_⟩, ?_⟩, ?_⟩, ?_⟩ <;>
    intro hc <;> subst hc <;> simp at h5


/-- Fuel beyond the length of the string is not used. -/
theorem tokenize_loop_fuel (n : Nat) : ∀ (string : List Char), string.length ≤ n →
    ∀ (f g : Nat) (line : Nat) (list : TokenList), string.length < f → string.length < g →
      tokenize_loop f string line list = tokenize_loop g string line list := by
  induction n with
  | zero =>
    intro string hn f g line list hf hg
    have : string = [] := List.length_eq_zero.mp (Nat.le_zero.mp hn)
    subst this
    obtain ⟨f, rfl⟩ : ∃ k, f = k + 1 := ⟨f - 1, by omega⟩
    obtain ⟨g, rfl⟩ : ∃ k, g = k + 1 := ⟨g - 1, by omega⟩
    rw [loop_nil, loop_nil]
  | succ n ih =>
    intro string hn f g line list hf hg
    obtain ⟨f, rfl⟩ : ∃ k, f = k + 1 := ⟨f - 1, by omega⟩
    obtain ⟨g, rfl⟩ : ∃ k, g = k + 1 := ⟨g - 1, by omega⟩
    cases string with
    | nil => rw [loop_nil, loop_nil]
    | cons c rest =>
      have hr : rest.length ≤ n := by simpa using hn
      have hrf : rest.length < f := by simpa using hf
      have hrg : rest.length < g := by simpa using hg
      rcases char_cases c with h | h | h | ⟨t, h⟩ | ⟨h, hN⟩
      · subst h
        rw [loop_newline, loop_newline]
        exact ih rest hr f g _ _ hrf hrg
      · rw [loop_blank _ _ _ _ _ h, loop_blank _ _ _ _ _ h]
        exact ih rest hr f g _ _ hrf hrg
      · rw [loop_digit _ _ _ _ _ h, loop_digit _ _ _ _ _ h]
        have hpos := digit_run_pos rest h
        have hlen : ((c :: rest).drop (digit_run (c :: rest))).length ≤ rest.length := by
          simp only [List.length_drop, List.length_cons]; omega
        exact ih _ (by omega) f g _ _ (by omega) (by omega)
      · rw [loop_op _ _ _ _ _ t h, loop_op _ _ _ _ _ t h]
        exact ih rest hr f g _ _ hrf hrg
      · rw [loop_bad _ _ _ _ _ h hN, loop_bad _ _ _ _ _ h hN]

theorem tokenize_loop_eq_lex (f : Nat) (string : List Char) (line : Nat) (list : TokenList)
    (hf : string.length < f) : tokenize_loop f string line list = lex string line list :=
  tokenize_loop_fuel string.length string (Nat.le_refl _) f _ line list hf (Nat.lt_succ_self _)

theorem lex_nil (line : Nat) (list : TokenList) : lex [] line list = .ok list :=
  loop_nil _ _ _

theorem lex_newline (rest : List Char) (line : Nat) (list : TokenList) :
    lex ('\n' :: rest) line list = lex rest (line + 1) list :=
  loop_newline _ _ _ _

theorem lex_blank (c : Char) (rest : List Char) (line : Nat) (list : TokenList)
    (h : c = ' ' ∨ c = '\t' ∨ c = '\r' ∨ c = NUL) :
    lex (c :: rest) line list = lex rest line list :=
  loop_blank _ _ _ _ _ h

theorem lex_op (c : Char) (rest : List Char) (line : Nat) (list : TokenList)
    (t : TokenIdentifier) (h : op_case c = some t) :
    lex (c :: rest) line list = lex rest line (add_token list (some (c :: rest)) t 1) :=
  loop_op _ _ _ _ _ t h

theorem lex_bad (c : Char) (rest : List Char) (line : Nat) (list : TokenList)
    (h : allowed c = false) (hN : c ≠ NUL) :
    lex (c :: rest) line list = .error (.TokenizerError c line) :=
  loop_bad _ _ _ _ _ h hN

theorem lex_digit (c : Char) (rest : List Char) (line : Nat) (list : TokenList)
    (h : is_digit c = true) :
    lex (c :: rest) line list =
      lex ((c :: rest).drop (digit_run (c :: rest))) line
        (add_token list (some (c :: rest)) INTEGER (digit_run (c :: rest))) := by
  unfold lex
  rw [loop_digit _ _ _ _ _ h]
  apply tokenize_loop_eq_lex
  have hpos := digit_run_pos rest h
  simp only [List.length_drop, List.length_cons]; omega

theorem digit_run_append (d r : List Char) (hd : ∀ x ∈ d, is_digit x = true) :
    digit_run (d ++ r) = d.length + digit_run r := by
  induction d with
  | nil => simp
  | cons x xs ih =>
    have hx : is_digit x = true := hd x (List.mem_cons_self _ _)
    have := ih (fun y hy => hd y (List.mem_cons_of_mem _ hy))
    simp [digit_run, hx, this]; omega

/-- A maximal run of digits becomes one `INTEGER` token which spans the run. -/
theorem lex_literal (d r : List Char) (line : Nat) (list : TokenList) (hne : d ≠ [])
    (hd : ∀ x ∈ d, is_digit x = true) (hr : digit_run r = 0) :
    lex (d ++ r) line list = lex r line (add_token list (some (d ++ r)) INTEGER d.length) := by
  cases d with
  | nil => exact absurd rfl hne
  | cons c cs =>
    have hrun : digit_run (c :: cs ++ r) = (c :: cs).length := by
      rw [digit_run_append _ _ hd, hr]; rfl
    have h := lex_digit c (cs ++ r) line list (hd c (List.mem_cons_self _ _))
    rw [List.cons_append, h]
    rw [← List.cons_append, hrun, List.drop_left]

theorem tokenize_eq_lex (string : List Char) :
    tokenize string =
      match lex (strdup string) 0 [] with
      | .error e => .error e
      | .ok list => .ok (add_token list none END 0) := rfl

theorem strdup_eq_self (string : List Char) (h : ∀ c ∈ string, c ≠ NUL) :
    strdup string = string := by
  unfold strdup
  rw [List.takeWhile_eq_self_iff]
  intro c hc
  simpa using h c hc

theorem is_digit_allowed {c : Char} (h : is_digit c = true) : allowed c = true := by
  simp [allowed, h]

theorem op_case_allowed {c : Char} {t : TokenIdentifier} (h : op_case c = some t) :
    allowed c = true := by
  unfold op_case at h
  split_ifs at h with h1 h2 h3 h4 h5 h6 h7 h8 <;> subst c <;> decide

theorem allowed_ne_NUL {c : Char} (h : allowed c = true) : c ≠ NUL := by
  rintro rfl; revert h; decide

theorem digit_run_append_not_digit (pre post : List Char) (c : Char)
    (hc : is_digit c = false) : digit_run (pre ++ c :: post) = digit_run pre := by
  induction pre with
  | nil => simp [digit_run, hc]
  | cons x xs ih =>
    by_cases hx : is_digit x = true
    · simp [digit_run, hx, ih]
    · simp [digit_run, hx]

theorem count_newline_drop_digit_run (s : List Char) :
    ((s.drop (digit_run s)).count '\n') = s.count '\n' := by
  induction s with
  | nil => simp [digit_run]
  | cons x xs ih =>
    by_cases hx : is_digit x = true
    · have hne : x ≠ '\n' := is_digit_ne hx (by decide)
      simp only [digit_run, hx, if_true, List.drop_succ_cons]
      rw [ih, List.count_cons_of_ne hne.symm]
    · simp [digit_run, hx]

/-- A string of accepted characters is tokenized without an error. -/
theorem lex_ok (n : Nat) : ∀ (s : List Char), s.length ≤ n → (∀ x ∈ s, allowed x = true) →
    ∀ (line : Nat) (list : TokenList), ∃ toks, lex s line list = .ok toks := by
  induction n with
  | zero =>
    intro s hn _ line list
    have : s = [] := List.length_eq_zero.mp (Nat.le_zero.mp hn)
    subst this
    exact ⟨list, lex_nil _ _⟩
  | succ n ih =>
    intro s hn hall line list
    cases s with
    | nil => exact ⟨list, lex_nil _ _⟩
    | cons c rest =>
      have hr : rest.length ≤ n := by simpa using hn
      have hrest : ∀ x ∈ rest, allowed x = true := fun x hx => hall x (List.mem_cons_of_mem _ hx)
      rcases char_cases c with h | h | h | ⟨t, h⟩ | ⟨h, _⟩
      · subst h
        rw [lex_newline]
        exact ih rest hr hrest _ _
      · rw [lex_blank _ _ _ _ h]
        exact ih rest hr hrest _ _
      · rw [lex_digit _ _ _ _ h]
        have hpos := digit_run_pos rest h
        refine ih _ ?_ (fun x hx => hall x (List.mem_of_mem_drop hx)) _ _
        simp only [List.length_drop, List.length_cons]; omega
      · rw [lex_op _ _ _ _ t h]
        exact ih rest hr hrest _ _
      · have := hall c (List.mem_cons_self _ _)
        rw [h] at this
        exact absurd this (by decide)

/-- The error at the first character which is not accepted: the character itself and the
number of newlines before it, added to the line counter. -/
theorem lex_error (c : Char) (post : List Char) (hc : allowed c = false) (hN : c ≠ NUL)
    (n : Nat) : ∀ (pre : List Char), pre.length ≤ n → (∀ x ∈ pre, allowed x = true) →
    ∀ (line : Nat) (list : TokenList),
      lex (pre ++ c :: post) line list = .error (.TokenizerError c (line + pre.count '\n')) := by
  induction n with
  | zero =>
    intro pre hn _ line list
    have : pre = [] := List.length_eq_zero.mp (Nat.le_zero.mp hn)
    subst this
    simpa using lex_bad c post line list hc hN
  | succ n ih =>
    intro pre hn hall line list
    cases pre with
    | nil => simpa using lex_bad c post line list hc hN
    | cons x xs =>
      have hr : xs.length ≤ n := by simpa using hn
      have hrest : ∀ y ∈ xs, allowed y = true := fun y hy => hall y (List.mem_cons_of_mem _ hy)
      rw [List.cons_append]
      rcases char_cases x with h | h | h | ⟨t, h⟩ | ⟨h, _⟩
      · subst h
        rw [lex_newline, ih xs hr hrest, List.count_cons_self]
        congr 2; omega
      · rw [lex_blank _ _ _ _ h, ih xs hr hrest]
        have hne : x ≠ '\n' := by rcases h with h | h | h | h <;> subst h <;> decide
        rw [List.count_cons_of_ne hne.symm]
      · rw [lex_digit _ _ _ _ h, ← List.cons_append]
        have hcd : is_digit c = false := by
          cases hd : is_digit c with
          | false => rfl
          | true => rw [is_digit_allowed hd] at hc; exact absurd hc (by decide)
        rw [digit_run_append_not_digit _ _ _ hcd]
        have hle := digit_run_le (x :: xs)
        have hpos := digit_run_pos xs h
        rw [List.drop_append_of_le_length hle]
        rw [ih _ (by simp only [List.length_drop, List.length_cons]; omega)
          (fun y hy => hall y (List.mem_of_mem_drop hy)), count_newline_drop_digit_run]
      · rw [lex_op _ _ _ _ t h, ih xs hr hrest]
        have hne : x ≠ '\n' := by
          rintro rfl
          have hnone : op_case '\n' = none := by decide
          rw [hnone] at h
          exact absurd h (by simp)
        rw [List.count_cons_of_ne hne.symm]
      · have := hall x (List.mem_cons_self _ _)
        rw [h] at this
        exact absurd this (by decide)

/-! ### The outcome of `tokenize` -/

theorem mem_strdup_ne_NUL (s : List Char) : ∀ x ∈ strdup s, x ≠ NUL := by
  intro x hx
  have := List.mem_takeWhile_imp hx
  simpa using this

theorem split_first_bad (s : List Char) :
    (∀ x ∈ s, allowed x = true) ∨
      ∃ pre c post, s = pre ++ c :: post ∧ (∀ x ∈ pre, allowed x = true) ∧ allowed c = false := by
  induction s with
  | nil => left; simp
  | cons x xs ih =>
    cases hx : allowed x with
    | false => right; exact ⟨[], x, xs, rfl, by simp, hx⟩
    | true =>
      rcases ih with h | ⟨pre, c, post, hs, hpre, hc⟩
      · left
        intro y hy
        rcases List.mem_cons.mp hy with rfl | hy
        · exact hx
        · exact h y hy
      · right
        refine ⟨x :: pre, c, post, by rw [hs]; rfl, ?_, hc⟩
        intro y hy
        rcases List.mem_cons.mp hy with rfl | hy
        · exact hx
        · exact hpre y hy

theorem takeWhile_allowed_split (pre post : List Char) (c : Char)
    (hpre : ∀ x ∈ pre, allowed x = true) (hc : allowed c = false) :
    (pre ++ c :: post).takeWhile allowed = pre := by
  induction pre with
  | nil => simp [List.takeWhile, hc]
  | cons x xs ih =>
    have hx := hpre x (List.mem_cons_self _ _)
    simp [List.takeWhile, hx, ih (fun y hy => hpre y (List.mem_cons_of_mem _ hy))]

theorem find_bad_split (pre post : List Char) (c : Char)
    (hpre : ∀ x ∈ pre, allowed x = true) (hc : allowed c = false) :
    (pre ++ c :: post).find? (fun x => !allowed x) = some c := by
  induction pre with
  | nil => simp [hc]
  | cons x xs ih =>
    have hx := hpre x (List.mem_cons_self _ _)
    simp [hx, ih (fun y hy => hpre y (List.mem_cons_of_mem _ hy))]

theorem tokenize_ok_of_allowed (s : List Char) (h : ∀ x ∈ strdup s, allowed x = true) :
    ∃ toks, tokenize s = .ok toks := by
  obtain ⟨toks, ht⟩ := lex_ok (strdup s).length (strdup s) (Nat.le_refl _) h 0 []
  exact ⟨add_token toks none END 0, by rw [tokenize_eq_lex, ht]⟩

theorem tokenize_error_of_split (s pre post : List Char) (c : Char)
    (hs : strdup s = pre ++ c :: post) (hpre : ∀ x ∈ pre, allowed x = true)
    (hc : allowed c = false) :
    tokenize s = .error (.TokenizerError c (pre.count '\n')) := by
  have hN : c ≠ NUL := mem_strdup_ne_NUL s c (by rw [hs]; simp)
  have := lex_error c post hc hN pre.length pre (Nat.le_refl _) hpre 0 []
  rw [tokenize_eq_lex, hs, this]
  simp

/-- The two outcomes of `tokenize`: a token list when the working copy has accepted
characters only, and otherwise the error at its first character which is not accepted. -/
theorem tokenize_cases (s : List Char) :
    ((∀ x ∈ strdup s, allowed x = true) ∧ ∃ toks, tokenize s = .ok toks) ∨
      ∃ pre c post, strdup s = pre ++ c :: post ∧ (∀ x ∈ pre, allowed x = true) ∧
        allowed c = false ∧ tokenize s = .error (.TokenizerError c (pre.count '\n')) := by
  rcases split_first_bad (strdup s) with h | ⟨pre, c, post, hs, hpre, hc⟩
  · exact Or.inl ⟨h, tokenize_ok_of_allowed s h⟩
  · exact Or.inr ⟨pre, c, post, hs, hpre, hc, tokenize_error_of_split s pre post c hs hpre hc⟩

/-! ## The parser -/

theorem expr_no_op {fuel : Nat} {o o1 : OpcodeList} {c c1 : Cursor}
    (h : term fuel o c = .ok (o1, c1)) (hp : peek_add_op c1 = false) :
    expr (fuel + 1) o c = .ok (o1, c1) := by
  simp [expr, h, hp, bind, Except.bind, pure, Except.pure]

theorem term_no_op {fuel : Nat} {o o1 : OpcodeList} {c c1 : Cursor}
    (h : factor fuel o c = .ok (o1, c1)) (hp : peek_mul_op c1 = false) :
    term (fuel + 1) o c = .ok (o1, c1) := by
  simp [term, h, hp, bind, Except.bind, pure, Except.pure]

theorem factor_no_op {fuel : Nat} {o o1 : OpcodeList} {c c1 : Cursor}
    (h : atom fuel o c = .ok (o1, c1)) (hp : peek_pow_op c1 = false) :
    factor (fuel + 1) o c = .ok (o1, c1) := by
  simp [factor, h, hp, bind, Except.bind, pure, Except.pure]

theorem expr_op {fuel : Nat} {o o1 o2 o3 : OpcodeList} {c c2 c3 : Cursor} {l op : Token}
    (h1 : term fuel o c = .ok (o1, l :: op :: c2)) (hp : peek_add_op (l :: op :: c2) = true)
    (h2 : expr fuel o1 c2 = .ok (o2, c3)) (h3 : push_opcode_from_token o2 op = .ok o3) :
    expr (fuel + 1) o c = .ok (o3, c3) := by
  simp [expr, h1, hp, h2, h3, bind, Except.bind, pure, Except.pure, ADVANCE, node_token]

theorem term_op {fuel : Nat} {o o1 o2 o3 : OpcodeList} {c c2 c3 : Cursor} {l op : Token}
    (h1 : factor fuel o c = .ok (o1, l :: op :: c2)) (hp : peek_mul_op (l :: op :: c2) = true)
    (h2 : term fuel o1 c2 = .ok (o2, c3)) (h3 : push_opcode_from_token o2 op = .ok o3) :
    term (fuel + 1) o c = .ok (o3, c3) := by
  simp [term, h1, hp, h2, h3, bind, Except.bind, pure, Except.pure, ADVANCE, node_token]

theorem factor_op {fuel : Nat} {o o1 o2 o3 : OpcodeList} {c c2 c3 : Cursor} {l op : Token}
    (h1 : atom fuel o c = .ok (o1, l :: op :: c2)) (hp : peek_pow_op (l :: op :: c2) = true)
    (h2 : factor fuel o1 c2 = .ok (o2, c3)) (h3 : push_opcode_from_token o2 op = .ok o3) :
    factor (fuel + 1) o c = .ok (o3, c3) := by
  simp [factor, h1, hp, h2, h3, bind, Except.bind, pure, Except.pure, ADVANCE, node_token]

theorem peek_level_cons (L : Nat) (hL : L ≤ 2) (x tok : Token) (rest : Cursor) :
    peek_level L (x :: tok :: rest) = decide (op_level tok.type = some L) := by
  interval_cases L <;> cases h : tok.type <;>
    simp [peek_level, peek_add_op, peek_mul_op, peek_pow_op, op_level, h]

theorem peek_level_of_stops (L : Nat) (x : Token) (rest : Cursor) (h : stops L rest) :
    peek_level L (x :: rest) = false := by
  by_cases hL : L ≤ 2
  · cases rest with
    | nil => interval_cases L <;> rfl
    | cons tok rest' =>
      rw [peek_level_cons L hL]
      simp only [decide_eq_false_iff_not]
      intro hk
      exact absurd (h tok rest' rfl L hk) (Nat.lt_irrefl _)
  · obtain ⟨k, rfl⟩ : ∃ k, L = k + 3 := ⟨L - 3, by omega⟩
    rfl

theorem run_level_no_op (L : Nat) (hL : L ≤ 2) {fuel : Nat} {o o1 : OpcodeList}
    {c c1 : Cursor} (h : run_level (L + 1) fuel o c = .ok (o1, c1))
    (hp : peek_level L c1 = false) : run_level L (fuel + 1) o c = .ok (o1, c1) := by
  interval_cases L
  · exact expr_no_op h hp
  · exact term_no_op h hp
  · exact factor_no_op h hp

theorem run_level_op (L : Nat) (hL : L ≤ 2) {fuel : Nat} {o o1 o2 o3 : OpcodeList}
    {c c2 c3 : Cursor} {l op : Token}
    (h1 : run_level (L + 1) fuel o c = .ok (o1, l :: op :: c2))
    (hp : op_level op.type = some L)
    (h2 : run_level L fuel o1 c2 = .ok (o2, c3))
    (h3 : push_opcode_from_token o2 op = .ok o3) :
    run_level L (fuel + 1) o c = .ok (o3, c3) := by
  have hpk : peek_level L (l :: op :: c2) = true := by
    rw [peek_level_cons L hL]; simpa using hp
  interval_cases L
  · exact expr_op h1 hpk h2 h3
  · exact term_op h1 hpk h2 h3
  · exact factor_op h1 hpk h2 h3

theorem stops_mono {L M : Nat} (h : L ≤ M) {rest : Cursor} (hs : stops L rest) :
    stops M rest :=
  fun tok rest' hr k hk => Nat.lt_of_lt_of_le (hs tok rest' hr k hk) h

/-- A result of the function of level `R` is also the result of the function of every
level `L` below it, when the next token ends the chains of all levels from `L` on. -/
theorem descend (toks : List Token) (hne : 1 ≤ toks.length) (last : Token)
    (o res : OpcodeList) (R : Nat) (hR : R ≤ 3)
    (hbase : ∀ rest, stops R rest → ∀ fuel, 4 * toks.length ≤ fuel + R →
      run_level R fuel o (toks ++ rest) = .ok (res, last :: rest))
    (d : Nat) : ∀ L, L + d = R → ∀ rest, stops L rest → ∀ fuel, 4 * toks.length ≤ fuel + L →
      run_level L fuel o (toks ++ rest) = .ok (res, last :: rest) := by
  induction d with
  | zero =>
    intro L hL
    have : L = R := by omega
    subst this
    exact hbase
  | succ d ih =>
    intro L hL rest hs fuel hf
    obtain ⟨fuel, rfl⟩ : ∃ k, fuel = k + 1 := ⟨fuel - 1, by omega⟩
    have h1 := ih (L + 1) (by omega) rest (stops_mono (Nat.le_succ L) hs) fuel (by omega)
    exact run_level_no_op L (by omega) h1 (peek_level_of_stops L last rest hs)

theorem foldl_digits (s : List Char) : ∀ acc : Nat,
    s.foldl (fun acc c => acc * 10 + digit_value c) acc =
      acc * 10 ^ s.length + Nat.ofDigits 10 (s.reverse.map digit_value) := by
  induction s with
  | nil => intro acc; simp
  | cons x xs ih =>
    intro acc
    rw [List.foldl_cons, ih, List.reverse_cons, List.map_append, Nat.ofDigits_append]
    simp only [List.map_cons, List.map_nil, Nat.ofDigits_singleton, List.length_map,
      List.length_reverse, List.length_cons]
    ring

/-- The number which `mpz_set_str` stores is the base-10 value of the string. -/
theorem mpz_set_str_eq (s : List Char) : mpz_set_str s = (decimal_value s : Int) := by
  unfold mpz_set_str decimal_value
  rw [foldl_digits]
  simp

theorem strdup_take (s : List Char) : ∀ n : Nat, (∀ x ∈ s.take n, x ≠ NUL) →
    (strdup s).take n = s.take n := by
  induction s with
  | nil => intro n _; simp [strdup]
  | cons x xs ih =>
    intro n h
    cases n with
    | zero => simp
    | succ n =>
      have hx : x ≠ NUL := h x (by simp)
      have hxs : ∀ y ∈ xs.take n, y ≠ NUL := fun y hy => h y (by simp [hy])
      have := ih n hxs
      unfold strdup at this ⊢
      simp [List.takeWhile_cons, hx, this]

theorem is_literal_text_iff (d : List Char) :
    is_literal_text d = true ↔ d ≠ [] ∧ ∀ x ∈ d, is_digit x = true := by
  cases d <;> simp [is_literal_text]

theorem strndup_span (tok : Token) (s : List Char) (hs : tok.string = some s)
    (hd : ∀ x ∈ tok.span, is_digit x = true) : strndup s tok.str_length = tok.span := by
  have hspan : tok.span = s.take tok.str_length := by simp [Token.span, hs]
  unfold strndup
  rw [hspan]
  apply strdup_take
  intro x hx
  exact is_digit_ne (hd x (hspan ▸ hx)) (by decide)

theorem push_literal_token (o : OpcodeList) (tok : Token) (h : is_literal tok = true)
    (hcap : o.literals.length ≤ MAX_LITERALS) :
    push_opcode_from_token (push_opcode o OP_PUSH_INTEGER) tok =
      .ok ⟨o.literals ++ [(decimal_value tok.span : Int)],
           o.code ++ [.opcode OP_PUSH_INTEGER, .literal o.literals.length]⟩ := by
  simp only [is_literal, Bool.and_eq_true, decide_eq_true_eq] at h
  obtain ⟨⟨ht, hs⟩, hl⟩ := h
  obtain ⟨s, hs⟩ := Option.isSome_iff_exists.mp hs
  have hd := ((is_literal_text_iff _).mp hl).2
  simp [push_opcode_from_token, ht, hs, push_literal_int_opcode, push_opcode,
    OpcodeList.literals_top, hcap, strndup_span tok s hs hd, mpz_set_str_eq]

theorem atom_literal (fuel : Nat) (o : OpcodeList) (tok : Token) (rest : Cursor)
    (h : is_literal tok = true) (hcap : o.literals.length ≤ MAX_LITERALS) :
    atom (fuel + 1) o (tok :: rest) =
      .ok (⟨o.literals ++ [(decimal_value tok.span : Int)],
            o.code ++ [.opcode OP_PUSH_INTEGER, .literal o.literals.length]⟩, tok :: rest) := by
  have ht : tok.type = INTEGER := by
    simp only [is_literal, Bool.and_eq_true, decide_eq_true_eq] at h
    exact h.1.1
  simp [atom, is_number, node_token, ht, push_literal_token o tok h hcap,
    bind, Except.bind, pure, Except.pure]

theorem atom_paren (fuel : Nat) (o o1 : OpcodeList) (lp x rp : Token) (c c1 : Cursor)
    (hl : lp.type = LPAREN) (hr : rp.type = RPAREN)
    (h : expr fuel o c = .ok (o1, x :: rp :: c1)) :
    atom (fuel + 1) o (lp :: c) = .ok (o1, rp :: c1) := by
  simp [atom, is_number, is_open_paren, node_token, hl, hr, h, ADVANCE, expect,
    bind, Except.bind, pure, Except.pure]

theorem push_operator_token (o : OpcodeList) (op : Token) (k : Nat)
    (h : op_level op.type = some k) :
    push_opcode_from_token o op = .ok (push_opcode o (op_opcode op.type)) := by
  cases ht : op.type <;> simp [ht, op_level] at h <;>
    simp [push_opcode_from_token, ht, op_opcode]

theorem tokens_length_pos (t : Tree) : 1 ≤ t.tokens.length := by
  cases t <;> simp [Tree.tokens]; omega

theorem op_level_le {ty : TokenIdentifier} {k : Nat} (h : op_level ty = some k) : k ≤ 2 := by
  cases ty <;> simp [op_level] at h <;> omega

theorem level_le (t : Tree) : t.level ≤ 3 := by
  cases t with
  | lit _ => simp [Tree.level]
  | paren _ _ _ => simp [Tree.level]
  | bin l op r =>
    simp only [Tree.level]
    cases h : op_level op.type with
    | none => simp
    | some k => have := op_level_le h; simp; omega

/-- The parsing function of every level at or below the level of a derivation tree emits
the post-order code of the tree and its constant pool, and leaves the cursor on the last
token of the tree, as long as no literal is written outside of the structure. -/
theorem compile_level (t : Tree) : t.wf = true → ∀ L, L ≤ t.level → ∀ rest, stops L rest →
    ∀ o : OpcodeList, o.literals.length + t.num_literals ≤ MAX_LITERALS + 1 →
    ∀ fuel, 4 * t.tokens.length ≤ fuel + L →
      run_level L fuel o (t.tokens ++ rest) =
        .ok (⟨o.literals ++ t.pool, o.code ++ t.postorder o.literals.length⟩,
             t.last :: rest) := by
  induction t with
  | lit tok =>
    intro hwf L hL rest hs o hcap fuel hf
    have hlit : is_literal tok = true := by simpa [Tree.wf] using hwf
    have hcap1 : o.literals.length ≤ MAX_LITERALS := by
      simp [Tree.num_literals, Tree.literal_tokens] at hcap; omega
    refine descend [tok] (by simp) tok o _ 3 (Nat.le_refl _) ?_ (3 - L) L
      (by simp [Tree.level] at hL; omega) rest hs fuel (by simpa [Tree.tokens] using hf)
    intro rest _ fuel hf
    obtain ⟨fuel, rfl⟩ : ∃ k, fuel = k + 1 := ⟨fuel - 1, by simp at hf; omega⟩
    simpa [run_level, Tree.pool, Tree.literal_tokens, Tree.postorder, Tree.last] using
      atom_literal fuel o tok rest hlit hcap1
  | paren lp e rp ih =>
    intro hwf L hL rest hs o hcap fuel hf
    simp only [Tree.wf, Bool.and_eq_true, decide_eq_true_eq] at hwf
    obtain ⟨⟨hl, hr⟩, hwe⟩ := hwf
    have hpos := tokens_length_pos e
    refine descend (lp :: e.tokens ++ [rp]) (by simp) rp o _ 3 (Nat.le_refl _) ?_ (3 - L) L
      (by simp [Tree.level] at hL; omega) rest hs fuel (by simpa [Tree.tokens] using hf)
    intro rest _ fuel hf
    obtain ⟨fuel, rfl⟩ : ∃ k, fuel = k + 1 := ⟨fuel - 1, by simp at hf; omega⟩
    have hstop : stops 0 (rp :: rest) := by
      intro tok rest' heq k hk
      simp only [List.cons.injEq] at heq
      rw [← heq.1, hr] at hk
      simp [op_level] at hk
    have he := ih hwe 0 (Nat.zero_le _) (rp :: rest) hstop o
      (by simpa [Tree.num_literals, Tree.literal_tokens] using hcap) fuel
      (by simp at hf; omega)
    simp only [run_level] at he
    have := atom_paren fuel o _ lp e.last rp (e.tokens ++ rp :: rest) rest hl hr he
    simpa [run_level, Tree.pool, Tree.literal_tokens, Tree.postorder, Tree.last] using this
  | bin l op r ihl ihr =>
    intro hwf L hL rest hs o hcap fuel hf
    simp only [Tree.wf] at hwf
    cases hk : op_level op.type with
    | none => simp [hk] at hwf
    | some k =>
      simp only [hk, Bool.and_eq_true, decide_eq_true_eq] at hwf
      obtain ⟨⟨⟨hwl, hwr⟩, hkl⟩, hkr⟩ := hwf
      have hk2 := op_level_le hk
      have hlev : (Tree.bin l op r).level = k := by simp [Tree.level, hk]
      have hposl := tokens_length_pos l
      have hposr := tokens_length_pos r
      have hnum : (Tree.bin l op r).num_literals = l.num_literals + r.num_literals := by
        simp [Tree.num_literals, Tree.literal_tokens]
      refine descend (l.tokens ++ op :: r.tokens) (by simp; omega) r.last o _ k (by omega) ?_
        (k - L) L (by rw [hlev] at hL; omega) rest hs fuel (by simpa [Tree.tokens] using hf)
      intro rest hs fuel hf
      obtain ⟨fuel, rfl⟩ : ∃ j, fuel = j + 1 := ⟨fuel - 1, by simp at hf; omega⟩
      have hstopl : stops (k + 1) (op :: r.tokens ++ rest) := by
        intro tok rest' heq j hj
        simp only [List.cons_append, List.cons.injEq] at heq
        rw [← heq.1, hk] at hj
        simp only [Option.some.injEq] at hj
        omega
      have h1 := ihl hwl (k + 1) hkl (op :: r.tokens ++ rest) hstopl o (by rw [hnum] at hcap; omega)
        fuel (by simp at hf; omega)
      have h2 := ihr hwr k hkr rest hs
        ⟨o.literals ++ l.pool, o.code ++ l.postorder o.literals.length⟩
        (by simp [Tree.pool]; rw [hnum] at hcap; simp [Tree.num_literals] at hcap ⊢; omega)
        fuel (by simp at hf; omega)
      have h3 := push_operator_token
        ⟨(o.literals ++ l.pool) ++ r.pool,
          (o.code ++ l.postorder o.literals.length) ++
            r.postorder (o.literals ++ l.pool).length⟩ op k hk
      have := run_level_op k hk2 (by simpa using h1) hk h2 h3
      simpa [Tree.pool, Tree.literal_tokens, Tree.postorder, Tree.last, push_opcode,
        Tree.num_literals] using this

theorem stops_zero_of_not_op (x : Token) (r : Cursor) (hx : op_level x.type = none) :
    stops 0 (x :: r) := by
  intro tok rest' heq k hk
  simp only [List.cons.injEq] at heq
  rw [← heq.1, hx] at hk
  simp at hk

/-- The top-level call of `expr` on a derivable token sequence which is followed by a
token that is not an operator. -/
theorem expr_derivable (t : Tree) (hwf : t.wf = true)
    (hcap : t.num_literals ≤ MAX_LITERALS + 1) (x : Token) (r : Cursor) (hx : op_level x.type = none) (fuel : Nat)
    (hf : 4 * t.tokens.length ≤ fuel) :
    expr fuel ⟨[], []⟩ (t.tokens ++ x :: r) = .ok (⟨t.pool, t.postorder 0⟩, t.last :: x :: r) := by
  have := compile_level t hwf 0 (Nat.zero_le _) (x :: r) (stops_zero_of_not_op x r hx)
    ⟨[], []⟩ (by simpa using hcap) fuel (by simpa using hf)
  simpa [run_level] using this

theorem parse_of_expr (list : TokenList) (o : OpcodeList) (c : Cursor)
    (h : expr (4 * list.length + 4) ⟨[], []⟩ list = .ok (o, c)) :
    parse list =
      match c with
      | [] => .error .Undefined
      | _ :: next =>
        if next.length ≠ 1 then .error .ParserError
        else if MAX_LITERALS < o.literals_top then .error .Undefined
        else .ok o := by
  unfold parse
  simp only [h, bind, Except.bind, pure, Except.pure]
  cases c <;> rfl

theorem pool_length (t : Tree) : t.pool.length = t.num_literals := by
  simp [Tree.pool, Tree.num_literals]

theorem parse_of_expr_error (list : TokenList) (e : Error)
    (h : expr (4 * list.length + 4) ⟨[], []⟩ list = .error e) : parse list = .error e := by
  unfold parse
  simp only [h, bind, Except.bind]

/-- `parse` on a derivable token sequence followed by one last token which is not an
operator (the `END` token). -/
theorem parse_derivable (t : Tree) (hwf : t.wf = true) (hcap : t.num_literals ≤ MAX_LITERALS)
    (x : Token) (hx : op_level x.type = none) :
    parse (t.tokens ++ [x]) = .ok ⟨t.pool, t.postorder 0⟩ := by
  have h := expr_derivable t hwf (Nat.le_succ_of_le hcap) x [] hx
    (4 * (t.tokens ++ [x]).length + 4) (by simp; omega)
  rw [parse_of_expr _ _ _ h]
  simp [OpcodeList.literals_top, pool_length, Nat.not_lt.mpr hcap]

/-- `parse` on a derivable token sequence with `MAX_LITERALS + 1` literals followed by one
last token which is not an operator: the last literal overwrote `head`. -/
theorem parse_poisoned (t : Tree) (hwf : t.wf = true)
    (hcap : t.num_literals = MAX_LITERALS + 1) (x : Token) (hx : op_level x.type = none) :
    parse (t.tokens ++ [x]) = .error .Undefined := by
  have h := expr_derivable t hwf (Nat.le_of_eq hcap) x [] hx
    (4 * (t.tokens ++ [x]).length + 4) (by simp; omega)
  rw [parse_of_expr _ _ _ h]
  simp [OpcodeList.literals_top, pool_length, hcap]

theorem expr_error {fuel : Nat} {o : OpcodeList} {c : Cursor} {e : Error}
    (h : term fuel o c = .error e) : expr (fuel + 1) o c = .error e := by
  simp [expr, h, bind, Except.bind]

theorem term_error {fuel : Nat} {o : OpcodeList} {c : Cursor} {e : Error}
    (h : factor fuel o c = .error e) : term (fuel + 1) o c = .error e := by
  simp [term, h, bind, Except.bind]

theorem factor_error {fuel : Nat} {o : OpcodeList} {c : Cursor} {e : Error}
    (h : atom fuel o c = .error e) : factor (fuel + 1) o c = .error e := by
  simp [factor, h, bind, Except.bind]

theorem operands_operator (ty : TokenIdentifier) (code : List Opcode) :
    operands (.opcode (op_opcode ty) :: code) = operands code := by
  cases ty <;> simp [op_opcode, operands]

theorem postorder_operands_append (t : Tree) : ∀ (k : Nat) (code : List Opcode),
    operands (t.postorder k ++ code) = List.range' k t.num_literals ++ operands code := by
  induction t with
  | lit tok =>
    intro k code
    simp [Tree.postorder, operands, Opcode.as_literal, Tree.num_literals, Tree.literal_tokens]
  | paren lp e rp ih =>
    intro k code
    simpa [Tree.postorder, Tree.num_literals, Tree.literal_tokens] using ih k code
  | bin l op r ihl ihr =>
    intro k code
    have hnum : (Tree.bin l op r).num_literals = l.num_literals + r.num_literals := by
      simp [Tree.num_literals, Tree.literal_tokens]
    simp only [Tree.postorder, List.append_assoc, List.singleton_append]
    rw [ihl, ihr, operands_operator, hnum, ← List.append_assoc, List.range'_append_1,
      Nat.add_comm r.num_literals]

/-- The operands of the pushes of a post-order code count the literals from the left. -/
theorem postorder_operands (t : Tree) (k : Nat) :
    operands (t.postorder k) = List.range' k t.num_literals := by
  have := postorder_operands_append t k []
  simpa [operands] using this

/-! ### The derivation trees and the grammar -/

theorem derives_lower (ts : List Token) (R : Nat) (h : derives R ts) (d : Nat) :
    ∀ L, L + d = R → derives L ts := by
  induction d with
  | zero => intro L hL; have : L = R := by omega
            subst this; exact h
  | succ d ih => intro L hL; exact derives.single L ts (ih (L + 1) (by omega))

theorem derives_of_wf (t : Tree) : t.wf = true → ∀ L, L ≤ t.level → derives L t.tokens := by
  induction t with
  | lit tok =>
    intro hwf L hL
    have hlit : is_literal tok = true := by simpa [Tree.wf] using hwf
    exact derives_lower _ 3 (derives.integer tok hlit) (3 - L) L
      (by simp [Tree.level] at hL; omega)
  | paren lp e rp ih =>
    intro hwf L hL
    simp only [Tree.wf, Bool.and_eq_true, decide_eq_true_eq] at hwf
    obtain ⟨⟨hl, hr⟩, hwe⟩ := hwf
    exact derives_lower _ 3 (derives.paren lp rp e.tokens hl hr (ih hwe 0 (Nat.zero_le _)))
      (3 - L) L (by simp [Tree.level] at hL; omega)
  | bin l op r ihl ihr =>
    intro hwf L hL
    simp only [Tree.wf] at hwf
    cases hk : op_level op.type with
    | none => simp [hk] at hwf
    | some k =>
      simp only [hk, Bool.and_eq_true, decide_eq_true_eq] at hwf
      obtain ⟨⟨⟨hwl, hwr⟩, hkl⟩, hkr⟩ := hwf
      have hlev : (Tree.bin l op r).level = k := by simp [Tree.level, hk]
      exact derives_lower _ k
        (derives.more k l.tokens r.tokens op hk (ihl hwl (k + 1) hkl) (ihr hwr k hkr))
        (k - L) L (by rw [hlev] at hL; omega)

theorem wf_of_derives (L : Nat) (ts : List Token) (h : derives L ts) :
    ∃ t : Tree, t.wf = true ∧ t.tokens = ts ∧ L ≤ t.level := by
  induction h with
  | integer tok hlit => exact ⟨.lit tok, by simpa [Tree.wf] using hlit, rfl, by simp [Tree.level]⟩
  | paren lp rp ts hl hr _ ih =>
    obtain ⟨t, hwf, htoks, _⟩ := ih
    exact ⟨.paren lp t rp, by simp [Tree.wf, hl, hr, hwf], by simp [Tree.tokens, htoks],
      by simp [Tree.level]⟩
  | single L ts _ ih =>
    obtain ⟨t, hwf, htoks, hlev⟩ := ih
    exact ⟨t, hwf, htoks, by omega⟩
  | more L ts1 ts2 op hop _ _ ih1 ih2 =>
    obtain ⟨t1, hwf1, htoks1, hlev1⟩ := ih1
    obtain ⟨t2, hwf2, htoks2, hlev2⟩ := ih2
    refine ⟨.bin t1 op t2, ?_, by simp [Tree.tokens, htoks1, htoks2], by simp [Tree.level, hop]⟩
    simp [Tree.wf, hop, hwf1, hwf2, hlev2]
    omega

/-- The token sequences of the derivation trees are the token sequences which the start
symbol `expr` of the grammar derives. -/
theorem derivable_iff_derives (ts : List Token) : derivable ts ↔ derives 0 ts := by
  constructor
  · rintro ⟨t, hwf, rfl⟩
    exact derives_of_wf t hwf 0 (Nat.zero_le _)
  · intro h
    obtain ⟨t, hwf, htoks, _⟩ := wf_of_derives 0 ts h
    exact ⟨t, hwf, htoks⟩

theorem count_literals_append (ts1 ts2 : List Token) :
    count_literals (ts1 ++ ts2) = count_literals ts1 + count_literals ts2 := by
  simp [count_literals, List.countP_append]

theorem lit_token_span (d r : List Char) : (lit_token d r).span = d := by
  simp [lit_token, Token.span]

theorem lit_token_is_literal (d r : List Char) (h : is_literal_text d = true) :
    is_literal (lit_token d r) = true := by
  simp [is_literal, lit_token_span, h]
  simp [lit_token]

theorem lex_lit (d r : List Char) (line : Nat) (list : TokenList)
    (h : is_literal_text d = true) (hr : digit_run r = 0) :
    lex (d ++ r) line list = lex r line (list ++ [lit_token d r]) := by
  obtain ⟨hne, hd⟩ := (is_literal_text_iff d).mp h
  exact lex_literal d r line list hne hd hr

theorem lex_lit_end (d : List Char) (line : Nat) (list : TokenList)
    (h : is_literal_text d = true) :
    lex d line list = .ok (list ++ [lit_token d []]) := by
  have := lex_lit d [] line list h rfl
  rw [List.append_nil, lex_nil] at this
  exact this

theorem lex_space (rest : List Char) (line : Nat) (list : TokenList) :
    lex (' ' :: rest) line list = lex rest line list :=
  lex_blank _ _ _ _ (Or.inl rfl)

theorem lex_op_token (c : Char) (rest : List Char) (line : Nat) (list : TokenList)
    (t : TokenIdentifier) (h : op_case c = some t) :
    lex (c :: rest) line list = lex rest line (list ++ [op_token t (c :: rest)]) :=
  lex_op c rest line list t h

theorem literal_text_no_NUL (d : List Char) (h : is_literal_text d = true) :
    ∀ c ∈ d, c ≠ NUL := by
  intro c hc
  exact is_digit_ne (((is_literal_text_iff d).mp h).2 c hc) (by decide)

theorem tokenize_of_lex (string : List Char) (toks : TokenList)
    (hN : ∀ c ∈ string, c ≠ NUL) (h : lex string 0 [] = .ok toks) :
    tokenize string = .ok (toks ++ [end_token]) := by
  rw [tokenize_eq_lex, strdup_eq_self _ hN, h]
  rfl

theorem tokenize_ne_nil (buf : List Char) (toks : TokenList)
    (h : tokenize buf = .ok toks) : toks ≠ [] := by
  unfold tokenize at h
  simp only at h
  split at h
  · simp at h
  · simp only [Except.ok.injEq, add_token] at h
    subst h
    simp

/-- The two calls which free the lists return when the program is not empty. -/
theorem main_cycle_of (buf : List Char) (stack : Stack) (toks : TokenList) (o : OpcodeList)
    (ht : tokenize buf = .ok toks) (hp : parse toks = .ok o) (hcode : o.code ≠ []) :
    main_cycle buf stack = interpret o stack := by
  have hne := tokenize_ne_nil _ _ ht
  unfold main_cycle
  simp only [ht, hp]
  cases hi : interpret o stack with
  | error e => rfl
  | ok result =>
    cases hc : o.code with
    | nil => exact absurd hc hcode
    | cons x xs =>
      cases toks with
      | nil => exact absurd rfl hne
      | cons y ys => simp [free_opcode_list, free_token_list, hc]

/-- The tokens of a text `a o1 b o2 c` of three literals and two operators, separated by
single spaces. -/
theorem tokenize_chain (a b c : List Char) (o1 o2 : Char) (t1 t2 : TokenIdentifier)
    (h1 : op_case o1 = some t1) (h2 : op_case o2 = some t2)
    (ha : is_literal_text a = true) (hb : is_literal_text b = true)
    (hc : is_literal_text c = true) :
    tokenize (a ++ [' ', o1, ' '] ++ b ++ [' ', o2, ' '] ++ c) =
      .ok [lit_token a ([' ', o1, ' '] ++ b ++ [' ', o2, ' '] ++ c),
           op_token t1 ([o1, ' '] ++ b ++ [' ', o2, ' '] ++ c),
           lit_token b ([' ', o2, ' '] ++ c),
           op_token t2 ([o2, ' '] ++ c),
           lit_token c [],
           end_token] := by
  have hn1 : o1 ≠ NUL := allowed_ne_NUL (op_case_allowed h1)
  have hn2 : o2 ≠ NUL := allowed_ne_NUL (op_case_allowed h2)
  have hsp : ' ' ≠ NUL := by decide
  have := tokenize_of_lex (a ++ [' ', o1, ' '] ++ b ++ [' ', o2, ' '] ++ c)
    [lit_token a ([' ', o1, ' '] ++ b ++ [' ', o2, ' '] ++ c),
     op_token t1 ([o1, ' '] ++ b ++ [' ', o2, ' '] ++ c),
     lit_token b ([' ', o2, ' '] ++ c),
     op_token t2 ([o2, ' '] ++ c),
     lit_token c []] ?_ ?_
  · simpa using this
  · intro x hx
    simp only [List.mem_append, List.mem_cons, List.mem_singleton, List.not_mem_nil, or_false] at hx
    rcases hx with (((hx | hx) | hx) | hx) | hx
    · exact literal_text_no_NUL a ha x hx
    · rcases hx with rfl | rfl | rfl <;> assumption
    · exact literal_text_no_NUL b hb x hx
    · rcases hx with rfl | rfl | rfl <;> assumption
    · exact literal_text_no_NUL c hc x hx
  · simp only [List.append_assoc, List.cons_append, List.nil_append]
    rw [lex_lit _ _ _ _ ha (by simp [digit_run, is_digit]), lex_space,
      lex_op_token _ _ _ _ t1 h1, lex_space,
      lex_lit _ _ _ _ hb (by simp [digit_run, is_digit]), lex_space,
      lex_op_token _ _ _ _ t2 h2, lex_space, lex_lit_end _ _ _ hc]
    simp

/-- The program which `parse` emits for the tokens `a op1 b op2 c END` when the second
operator binds at least as tightly as the first: the three pushes, then `op2`, then `op1`. -/
theorem parse_chain (ta tb tc op1 op2 e : Token) {k1 k2 : Nat}
    (ha : is_literal ta = true) (hb : is_literal tb = true) (hc : is_literal tc = true)
    (h1 : op_level op1.type = some k1) (h2 : op_level op2.type = some k2) (hk : k1 ≤ k2)
    (he : op_level e.type = none) :
    parse [ta, op1, tb, op2, tc, e] =
      .ok ⟨[(decimal_value ta.span : Int), (decimal_value tb.span : Int),
            (decimal_value tc.span : Int)],
           [.opcode OP_PUSH_INTEGER, .literal 0, .opcode OP_PUSH_INTEGER, .literal 1,
            .opcode OP_PUSH_INTEGER, .literal 2, .opcode (op_opcode op2.type),
            .opcode (op_opcode op1.type)]⟩ := by
  have hk2 := op_level_le h2
  have hwf : (Tree.bin (.lit ta) op1 (.bin (.lit tb) op2 (.lit tc))).wf = true := by
    simp [Tree.wf, Tree.level, h1, h2, ha, hb, hc]
    omega
  have := parse_derivable _ hwf (by simp [Tree.num_literals, Tree.literal_tokens, MAX_LITERALS])
    e he
  simpa [Tree.tokens, Tree.pool, Tree.literal_tokens, Tree.postorder, Tree.num_literals]
    using this

theorem op_token_type (t : TokenIdentifier) (s : List Char) : (op_token t s).type = t := rfl

theorem end_token_not_op : op_level end_token.type = none := rfl

/-- One cycle on a text `a o1 b o2 c` whose second operator binds at least as tightly as
the first: the program `a b c o2 o1` is interpreted. -/
theorem main_cycle_chain (a b c : List Char) (o1 o2 : Char) (t1 t2 : TokenIdentifier)
    (k1 k2 : Nat) (stack : Stack)
    (h1 : op_case o1 = some t1) (h2 : op_case o2 = some t2)
    (hl1 : op_level t1 = some k1) (hl2 : op_level t2 = some k2) (hk : k1 ≤ k2)
    (ha : is_literal_text a = true) (hb : is_literal_text b = true)
    (hc : is_literal_text c = true) :
    main_cycle (a ++ [' ', o1, ' '] ++ b ++ [' ', o2, ' '] ++ c) stack =
      interpret
        ⟨[(decimal_value a : Int), (decimal_value b : Int), (decimal_value c : Int)],
         [.opcode OP_PUSH_INTEGER, .literal 0, .opcode OP_PUSH_INTEGER, .literal 1,
          .opcode OP_PUSH_INTEGER, .literal 2, .opcode (op_opcode t2),
          .opcode (op_opcode t1)]⟩ stack := by
  have ht := tokenize_chain a b c o1 o2 t1 t2 h1 h2 ha hb hc
  have hp := parse_chain (lit_token a ([' ', o1, ' '] ++ b ++ [' ', o2, ' '] ++ c))
    (lit_token b ([' ', o2, ' '] ++ c)) (lit_token c [])
    (op_token t1 ([o1, ' '] ++ b ++ [' ', o2, ' '] ++ c)) (op_token t2 ([o2, ' '] ++ c))
    end_token (lit_token_is_literal a _ ha) (lit_token_is_literal b _ hb)
    (lit_token_is_literal c _ hc) hl1 hl2 hk end_token_not_op
  rw [main_cycle_of _ _ _ _ ht hp (by simp)]
  simp only [lit_token_span, op_token_type]

/-- The three pushes of a program `a b c o2 o1`, from the empty stack. -/
theorem interpret_loop_three (x y z : Int) (code : List Opcode) :
    interpret_loop [x, y, z]
      (.opcode OP_PUSH_INTEGER :: .literal 0 :: .opcode OP_PUSH_INTEGER :: .literal 1 ::
        .opcode OP_PUSH_INTEGER :: .literal 2 :: code) [] =
      interpret_loop [x, y, z] code [z, y, x] := by
  simp [interpret_loop, Opcode.as_opcode, Opcode.as_literal, read_literal,
    PUSH_INTEGER, stack_top, MAX_STACK]

theorem main_cycle_of_compile (buf : List Char) (stack : Stack) (o : OpcodeList)
    (h : compile buf = .ok o) (hcode : o.code ≠ []) :
    main_cycle buf stack = interpret o stack := by
  unfold compile at h
  cases ht : tokenize buf with
  | error e => simp [ht] at h
  | ok toks =>
    simp only [ht] at h
    exact main_cycle_of _ _ _ _ ht h hcode

/-- The tokens of a text `a o b` of two literals and one operator. -/
theorem tokenize_pair (a b : List Char) (o : Char) (t : TokenIdentifier)
    (h : op_case o = some t) (ha : is_literal_text a = true) (hb : is_literal_text b = true) :
    tokenize (a ++ [' ', o, ' '] ++ b) =
      .ok [lit_token a ([' ', o, ' '] ++ b), op_token t ([o, ' '] ++ b), lit_token b [],
           end_token] := by
  have hn : o ≠ NUL := allowed_ne_NUL (op_case_allowed h)
  have hsp : ' ' ≠ NUL := by decide
  have := tokenize_of_lex (a ++ [' ', o, ' '] ++ b)
    [lit_token a ([' ', o, ' '] ++ b), op_token t ([o, ' '] ++ b), lit_token b []] ?_ ?_
  · simpa using this
  · intro x hx
    simp only [List.mem_append, List.mem_cons, List.mem_singleton, List.not_mem_nil, or_false] at hx
    rcases hx with (hx | hx) | hx
    · exact literal_text_no_NUL a ha x hx
    · rcases hx with rfl | rfl | rfl <;> assumption
    · exact literal_text_no_NUL b hb x hx
  · simp only [List.append_assoc, List.cons_append, List.nil_append]
    rw [lex_lit _ _ _ _ ha (by simp [digit_run, is_digit]), lex_space,
      lex_op_token _ _ _ _ t h, lex_space, lex_lit_end _ _ _ hb]
    simp

/-- The program of a text `a o b`: the two pushes, then the operator. -/
theorem compile_pair (a b : List Char) (o : Char) (t : TokenIdentifier) (k : Nat)
    (h : op_case o = some t) (hl : op_level t = some k)
    (ha : is_literal_text a = true) (hb : is_literal_text b = true) :
    compile (a ++ [' ', o, ' '] ++ b) =
      .ok ⟨[(decimal_value a : Int), (decimal_value b : Int)],
           [.opcode OP_PUSH_INTEGER, .literal 0, .opcode OP_PUSH_INTEGER, .literal 1,
            .opcode (op_opcode t)]⟩ := by
  have ht := tokenize_pair a b o t h ha hb
  have hk := op_level_le hl
  have hwf : (Tree.bin (.lit (lit_token a ([' ', o, ' '] ++ b))) (op_token t ([o, ' '] ++ b))
      (.lit (lit_token b []))).wf = true := by
    simp [Tree.wf, Tree.level, op_token_type, hl, lit_token_is_literal, ha, hb]
    omega
  have hp := parse_derivable _ hwf
    (by simp [Tree.num_literals, Tree.literal_tokens, MAX_LITERALS]) end_token end_token_not_op
  simp only [compile, ht]
  simpa [Tree.tokens, Tree.pool, Tree.literal_tokens, Tree.postorder, Tree.num_literals,
    lit_token_span, op_token_type] using hp

/-- The tokens of a text `(a o1 b) o2 c`. -/
theorem tokenize_paren (a b c : List Char) (o1 o2 : Char) (t1 t2 : TokenIdentifier)
    (h1 : op_case o1 = some t1) (h2 : op_case o2 = some t2)
    (ha : is_literal_text a = true) (hb : is_literal_text b = true)
    (hc : is_literal_text c = true) :
    tokenize (['('] ++ a ++ [' ', o1, ' '] ++ b ++ [')', ' ', o2, ' '] ++ c) =
      .ok [op_token LPAREN (['('] ++ a ++ [' ', o1, ' '] ++ b ++ [')', ' ', o2, ' '] ++ c),
           lit_token a ([' ', o1, ' '] ++ b ++ [')', ' ', o2, ' '] ++ c),
           op_token t1 ([o1, ' '] ++ b ++ [')', ' ', o2, ' '] ++ c),
           lit_token b ([')', ' ', o2, ' '] ++ c),
           op_token RPAREN ([')', ' ', o2, ' '] ++ c),
           op_token t2 ([o2, ' '] ++ c),
           lit_token c [],
           end_token] := by
  have hn1 : o1 ≠ NUL := allowed_ne_NUL (op_case_allowed h1)
  have hn2 : o2 ≠ NUL := allowed_ne_NUL (op_case_allowed h2)
  have hsp : ' ' ≠ NUL := by decide
  have hlp : '(' ≠ NUL := by decide
  have hrp : ')' ≠ NUL := by decide
  have := tokenize_of_lex (['('] ++ a ++ [' ', o1, ' '] ++ b ++ [')', ' ', o2, ' '] ++ c)
    [op_token LPAREN (['('] ++ a ++ [' ', o1, ' '] ++ b ++ [')', ' ', o2, ' '] ++ c),
     lit_token a ([' ', o1, ' '] ++ b ++ [')', ' ', o2, ' '] ++ c),
     op_token t1 ([o1, ' '] ++ b ++ [')', ' ', o2, ' '] ++ c),
     lit_token b ([')', ' ', o2, ' '] ++ c),
     op_token RPAREN ([')', ' ', o2, ' '] ++ c),
     op_token t2 ([o2, ' '] ++ c),
     lit_token c []] ?_ ?_
  · simpa using this
  · intro x hx
    simp only [List.mem_append, List.mem_cons, List.mem_singleton, List.not_mem_nil, or_false] at hx
    rcases hx with ((((hx | hx) | hx) | hx) | hx) | hx
    · subst hx; assumption
    · exact literal_text_no_NUL a ha x hx
    · rcases hx with rfl | rfl | rfl <;> assumption
    · exact literal_text_no_NUL b hb x hx
    · rcases hx with rfl | rfl | rfl | rfl <;> assumption
    · exact literal_text_no_NUL c hc x hx
  · simp only [List.append_assoc, List.cons_append, List.nil_append]
    rw [lex_op_token _ _ _ _ LPAREN (by decide),
      lex_lit _ _ _ _ ha (by simp [digit_run, is_digit]), lex_space,
      lex_op_token _ _ _ _ t1 h1, lex_space,
      lex_lit _ _ _ _ hb (by simp [digit_run, is_digit]),
      lex_op_token _ _ _ _ RPAREN (by decide), lex_space,
      lex_op_token _ _ _ _ t2 h2, lex_space, lex_lit_end _ _ _ hc]
    simp

/-- The program of a text `(a o1 b) o2 c`: the program of `a o1 b`, the push of `c`, then
the second operator. -/
theorem compile_paren (a b c : List Char) (o1 o2 : Char) (t1 t2 : TokenIdentifier)
    (k1 k2 : Nat) (h1 : op_case o1 = some t1) (h2 : op_case o2 = some t2)
    (hl1 : op_level t1 = some k1) (hl2 : op_level t2 = some k2)
    (ha : is_literal_text a = true) (hb : is_literal_text b = true)
    (hc : is_literal_text c = true) :
    compile (['('] ++ a ++ [' ', o1, ' '] ++ b ++ [')', ' ', o2, ' '] ++ c) =
      .ok ⟨[(decimal_value a : Int), (decimal_value b : Int), (decimal_value c : Int)],
           [.opcode OP_PUSH_INTEGER, .literal 0, .opcode OP_PUSH_INTEGER, .literal 1,
            .opcode (op_opcode t1), .opcode OP_PUSH_INTEGER, .literal 2,
            .opcode (op_opcode t2)]⟩ := by
  have ht := tokenize_paren a b c o1 o2 t1 t2 h1 h2 ha hb hc
  have hk1 := op_level_le hl1
  have hk2 := op_level_le hl2
  have hwf : (Tree.bin
      (.paren (op_token LPAREN (['('] ++ a ++ [' ', o1, ' '] ++ b ++ [')', ' ', o2, ' '] ++ c))
        (.bin (.lit (lit_token a ([' ', o1, ' '] ++ b ++ [')', ' ', o2, ' '] ++ c)))
          (op_token t1 ([o1, ' '] ++ b ++ [')', ' ', o2, ' '] ++ c))
          (.lit (lit_token b ([')', ' ', o2, ' '] ++ c))))
        (op_token RPAREN ([')', ' ', o2, ' '] ++ c)))
      (op_token t2 ([o2, ' '] ++ c)) (.lit (lit_token c []))).wf = true := by
    simp [Tree.wf, Tree.level, op_token_type, hl1, hl2, lit_token_is_literal, ha, hb, hc]
    omega
  have hp := parse_derivable _ hwf
    (by simp [Tree.num_literals, Tree.literal_tokens, MAX_LITERALS]) end_token end_token_not_op
  simp only [compile, ht]
  simpa [Tree.tokens, Tree.pool, Tree.literal_tokens, Tree.postorder, Tree.num_literals,
    lit_token_span, op_token_type] using hp

/-! ### More literals than the structure has room for -/

theorem run_level_error (L : Nat) (hL : L ≤ 2) {fuel : Nat} {o : OpcodeList} {c : Cursor}
    {e : Error} (h : run_level (L + 1) fuel o c = .error e) :
    run_level L (fuel + 1) o c = .error e := by
  interval_cases L
  · exact expr_error h
  · exact term_error h
  · exact factor_error h

theorem expr_op_error {fuel : Nat} {o o1 : OpcodeList} {c c2 : Cursor} {l op : Token}
    {e : Error}
    (h1 : term fuel o c = .ok (o1, l :: op :: c2)) (hp : peek_add_op (l :: op :: c2) = true)
    (h2 : expr fuel o1 c2 = .error e) : expr (fuel + 1) o c = .error e := by
  simp [expr, h1, hp, h2, bind, Except.bind, ADVANCE, node_token]

theorem term_op_error {fuel : Nat} {o o1 : OpcodeList} {c c2 : Cursor} {l op : Token}
    {e : Error}
    (h1 : factor fuel o c = .ok (o1, l :: op :: c2)) (hp : peek_mul_op (l :: op :: c2) = true)
    (h2 : term fuel o1 c2 = .error e) : term (fuel + 1) o c = .error e := by
  simp [term, h1, hp, h2, bind, Except.bind, ADVANCE, node_token]

theorem factor_op_error {fuel : Nat} {o o1 : OpcodeList} {c c2 : Cursor} {l op : Token}
    {e : Error}
    (h1 : atom fuel o c = .ok (o1, l :: op :: c2)) (hp : peek_pow_op (l :: op :: c2) = true)
    (h2 : factor fuel o1 c2 = .error e) : factor (fuel + 1) o c = .error e := by
  simp [factor, h1, hp, h2, bind, Except.bind, ADVANCE, node_token]

theorem run_level_op_error (L : Nat) (hL : L ≤ 2) {fuel : Nat} {o o1 : OpcodeList}
    {c c2 : Cursor} {l op : Token} {e : Error}
    (h1 : run_level (L + 1) fuel o c = .ok (o1, l :: op :: c2))
    (hp : op_level op.type = some L)
    (h2 : run_level L fuel o1 c2 = .error e) :
    run_level L (fuel + 1) o c = .error e := by
  have hpk : peek_level L (l :: op :: c2) = true := by
    rw [peek_level_cons L hL]; simpa using hp
  interval_cases L
  · exact expr_op_error h1 hpk h2
  · exact term_op_error h1 hpk h2
  · exact factor_op_error h1 hpk h2

/-- An error of the function of level `R` is also the error of the function of every
level below it. -/
theorem descend_error (n : Nat) (hn : 1 ≤ n) (o : OpcodeList) (c : Cursor) (e : Error)
    (R : Nat) (hR : R ≤ 3)
    (hbase : ∀ fuel, 4 * n ≤ fuel + R → run_level R fuel o c = .error e)
    (d : Nat) : ∀ L, L + d = R → ∀ fuel, 4 * n ≤ fuel + L →
      run_level L fuel o c = .error e := by
  induction d with
  | zero =>
    intro L hL
    have : L = R := by omega
    subst this
    exact hbase
  | succ d ih =>
    intro L hL fuel hf
    obtain ⟨fuel, rfl⟩ : ∃ k, fuel = k + 1 := ⟨fuel - 1, by omega⟩
    exact run_level_error L (by omega) (ih (L + 1) (by omega) fuel (by omega))

theorem atom_literal_overflow (fuel : Nat) (o : OpcodeList) (tok : Token) (rest : Cursor)
    (h : is_literal tok = true) (hcap : MAX_LITERALS < o.literals.length) :
    atom (fuel + 1) o (tok :: rest) = .error .Undefined := by
  simp only [is_literal, Bool.and_eq_true, decide_eq_true_eq] at h
  obtain ⟨⟨ht, hs⟩, _⟩ := h
  obtain ⟨s, hs⟩ := Option.isSome_iff_exists.mp hs
  have hnot : ¬ o.literals.length ≤ MAX_LITERALS := by omega
  simp [atom, is_number, node_token, ht, hs, push_opcode_from_token, push_literal_int_opcode,
    push_opcode, OpcodeList.literals_top, hnot, bind, Except.bind]

theorem atom_paren_error (fuel : Nat) (o : OpcodeList) (lp : Token) (c : Cursor) (e : Error)
    (hl : lp.type = LPAREN) (h : expr fuel o c = .error e) :
    atom (fuel + 1) o (lp :: c) = .error e := by
  simp [atom, is_number, is_open_paren, node_token, hl, h, ADVANCE, bind, Except.bind]

/-- On a derivation tree with more literals than the constant pool and the two members
after it have room for, the parsing functions write outside of the structure. -/
theorem overflow_level (t : Tree) : t.wf = true → ∀ L, L ≤ t.level → ∀ rest, stops L rest →
    ∀ o : OpcodeList, MAX_LITERALS + 1 < o.literals.length + t.num_literals →
    ∀ fuel, 4 * t.tokens.length ≤ fuel + L →
      run_level L fuel o (t.tokens ++ rest) = .error .Undefined := by
  induction t with
  | lit tok =>
    intro hwf L hL rest _ o hcap fuel hf
    have hlit : is_literal tok = true := by simpa [Tree.wf] using hwf
    have hcap1 : MAX_LITERALS < o.literals.length := by
      simp [Tree.num_literals, Tree.literal_tokens] at hcap; omega
    refine descend_error 1 (Nat.le_refl _) o _ _ 3 (Nat.le_refl _) ?_ (3 - L) L
      (by simp [Tree.level] at hL; omega) fuel (by simpa [Tree.tokens] using hf)
    intro fuel hf
    obtain ⟨fuel, rfl⟩ : ∃ k, fuel = k + 1 := ⟨fuel - 1, by omega⟩
    simpa [run_level, Tree.tokens] using atom_literal_overflow fuel o tok rest hlit hcap1
  | paren lp e rp ih =>
    intro hwf L hL rest _ o hcap fuel hf
    simp only [Tree.wf, Bool.and_eq_true, decide_eq_true_eq] at hwf
    obtain ⟨⟨hl, hr⟩, hwe⟩ := hwf
    have hpos := tokens_length_pos e
    refine descend_error (e.tokens.length + 2) (by omega) o _ _ 3 (Nat.le_refl _) ?_ (3 - L) L
      (by simp [Tree.level] at hL; omega) fuel (by simp [Tree.tokens] at hf; omega)
    intro fuel hf
    obtain ⟨fuel, rfl⟩ : ∃ k, fuel = k + 1 := ⟨fuel - 1, by omega⟩
    have hstop : stops 0 (rp :: rest) :=
      stops_zero_of_not_op rp rest (by rw [hr]; rfl)
    have he := ih hwe 0 (Nat.zero_le _) (rp :: rest) hstop o
      (by simpa [Tree.num_literals, Tree.literal_tokens] using hcap) fuel (by omega)
    simp only [run_level] at he
    have := atom_paren_error fuel o lp (e.tokens ++ rp :: rest) _ hl he
    simpa [run_level, Tree.tokens] using this
  | bin l op r ihl ihr =>
    intro hwf L hL rest hs o hcap fuel hf
    simp only [Tree.wf] at hwf
    cases hk : op_level op.type with
    | none => simp [hk] at hwf
    | some k =>
      simp only [hk, Bool.and_eq_true, decide_eq_true_eq] at hwf
      obtain ⟨⟨⟨hwl, hwr⟩, hkl⟩, hkr⟩ := hwf
      have hk2 := op_level_le hk
      have hlev : (Tree.bin l op r).level = k := by simp [Tree.level, hk]
      have hposl := tokens_length_pos l
      have hposr := tokens_length_pos r
      have hnum : (Tree.bin l op r).num_literals = l.num_literals + r.num_literals := by
        simp [Tree.num_literals, Tree.literal_tokens]
      have hlen : (Tree.bin l op r).tokens.length = l.tokens.length + r.tokens.length + 1 := by
        simp [Tree.tokens]; omega
      rw [hlen] at hf
      have hsk : stops k rest := stops_mono (by rw [hlev] at hL; exact hL) hs
      refine descend_error (l.tokens.length + r.tokens.length + 1) (by omega) o _ _ k
        (by omega) ?_ (k - L) L (by rw [hlev] at hL; omega) fuel hf
      intro fuel hf
      obtain ⟨fuel, rfl⟩ : ∃ j, fuel = j + 1 := ⟨fuel - 1, by omega⟩
      have hstopl : stops (k + 1) (op :: r.tokens ++ rest) := by
        intro tok rest' heq j hj
        simp only [List.cons_append, List.cons.injEq] at heq
        rw [← heq.1, hk] at hj
        simp only [Option.some.injEq] at hj
        omega
      have htoks : (Tree.bin l op r).tokens ++ rest = l.tokens ++ (op :: r.tokens ++ rest) := by
        simp [Tree.tokens]
      rw [htoks]
      by_cases hfit : o.literals.length + l.num_literals ≤ MAX_LITERALS + 1
      · have h1 := compile_level l hwl (k + 1) hkl (op :: r.tokens ++ rest) hstopl o hfit
          fuel (by omega)
        have h2 := ihr hwr k hkr rest hsk
          ⟨o.literals ++ l.pool, o.code ++ l.postorder o.literals.length⟩
          (by simp [Tree.pool]; rw [hnum] at hcap; simp [Tree.num_literals] at hcap ⊢; omega)
          fuel (by omega)
        exact run_level_op_error k hk2 (by simpa using h1) hk h2
      · have h1 := ihl hwl (k + 1) hkl (op :: r.tokens ++ rest) hstopl o (by omega)
          fuel (by omega)
        exact run_level_error k hk2 h1

/-- `parse` on a derivable token sequence with more than `MAX_LITERALS + 1` literals,
followed by a token which is not an operator. -/
theorem parse_overflow (t : Tree) (hwf : t.wf = true)
    (hcap : MAX_LITERALS + 1 < t.num_literals) (x : Token) (r : Cursor) (hx : op_level x.type = none) :
    parse (t.tokens ++ x :: r) = .error .Undefined := by
  apply parse_of_expr_error
  have := overflow_level t hwf 0 (Nat.zero_le _) (x :: r) (stops_zero_of_not_op x r hx)
    ⟨[], []⟩ (by simpa using hcap) (4 * (t.tokens ++ x :: r).length + 4) (by simp; omega)
  simpa [run_level] using this

theorem ones_tree_wf (tail : List Char) (n : Nat) : (ones_tree tail n).wf = true := by
  induction n with
  | zero => exact lit_token_is_literal ['1'] tail (by decide)
  | succ n ih =>
    have h1 := lit_token_is_literal ['1'] ('+' :: (ones_text n ++ tail)) (by decide)
    simp [ones_tree, Tree.wf, op_token_type, op_level, ih, Tree.level, h1]

theorem ones_tree_num_literals (tail : List Char) (n : Nat) :
    (ones_tree tail n).num_literals = n + 1 := by
  induction n with
  | zero => simp [ones_tree, Tree.num_literals, Tree.literal_tokens]
  | succ n ih =>
    simp only [Tree.num_literals] at ih
    simp [ones_tree, Tree.num_literals, Tree.literal_tokens, ih]

theorem ones_text_no_NUL (n : Nat) : ∀ c ∈ ones_text n, c ≠ NUL := by
  induction n with
  | zero => intro c hc; simp [ones_text] at hc; subst hc; decide
  | succ n ih =>
    intro c hc
    simp only [ones_text, List.mem_cons] at hc
    rcases hc with rfl | rfl | hc
    · decide
    · decide
    · exact ih c hc

theorem lex_ones_text (tail : List Char) (htail : digit_run tail = 0) (n : Nat) :
    ∀ (line : Nat) (list : TokenList),
      lex (ones_text n ++ tail) line list = lex tail line (list ++ (ones_tree tail n).tokens) := by
  induction n with
  | zero =>
    intro line list
    simpa [ones_text, ones_tree, Tree.tokens] using
      lex_lit ['1'] tail line list (by decide) htail
  | succ n ih =>
    intro line list
    have h1 := lex_lit ['1'] ('+' :: ones_text n ++ tail) line list (by decide)
      (by simp [digit_run, is_digit])
    have h2 := lex_op_token '+' (ones_text n ++ tail) line
      (list ++ [lit_token ['1'] ('+' :: ones_text n ++ tail)]) PLUS (by decide)
    simp only [List.cons_append, List.nil_append, List.singleton_append] at h1 h2
    simp only [ones_text, ones_tree, Tree.tokens, List.cons_append, List.nil_append,
      List.singleton_append]
    rw [h1, h2, ih]
    simp

/-! ### The fuel of `parse` is sufficient -/

theorem peek_level_true (L : Nat) (hL : L ≤ 2) (c : Cursor) (h : peek_level L c = true) :
    ∃ l op c2, c = l :: op :: c2 ∧ op_level op.type = some L := by
  match c with
  | [] => interval_cases L <;> simp [peek_level, peek_add_op, peek_mul_op, peek_pow_op] at h
  | [_] => interval_cases L <;> simp [peek_level, peek_add_op, peek_mul_op, peek_pow_op] at h
  | l :: op :: c2 =>
    rw [peek_level_cons L hL] at h
    exact ⟨l, op, c2, rfl, by simpa using h⟩

theorem level_total_atom (cur : Cursor)
    (ih : ∀ c : Cursor, c.length < cur.length → level_total 0 c) : level_total 3 cur := by
  intro o fuel hf
  obtain ⟨fuel, rfl⟩ : ∃ k, fuel = k + 1 := ⟨fuel - 1, by omega⟩
  show atom (fuel + 1) o cur ≠ .error .OutOfFuel ∧
    ∀ o1 c1, atom (fuel + 1) o cur = .ok (o1, c1) → c1.length ≤ cur.length
  cases cur with
  | nil => simp [atom, is_number, node_token, bind, Except.bind]
  | cons tok rest =>
    by_cases hnum : tok.type = INTEGER
    · cases hpush : push_opcode_from_token (push_opcode o OP_PUSH_INTEGER) tok with
      | error e =>
        have he : e = .Undefined := by
          simp only [push_opcode_from_token, hnum, push_literal_int_opcode] at hpush
          split at hpush
          · simp at hpush; exact hpush.symm
          · split at hpush <;> simp at hpush
            exact hpush.symm
        subst he
        simp [atom, is_number, node_token, hnum, hpush, bind, Except.bind]
      | ok o1 =>
        simp [atom, is_number, node_token, hnum, hpush, bind, Except.bind, pure, Except.pure]
    · by_cases hlp : tok.type = LPAREN
      · have hrest := ih rest (by simp) o fuel (by simp at hf; omega)
        simp only [run_level] at hrest
        cases he : expr fuel o rest with
        | error e =>
          have hne : e ≠ .OutOfFuel := fun h => hrest.1 (by rw [he, h])
          simp [atom, is_number, is_open_paren, node_token, hnum, hlp, he, ADVANCE,
            bind, Except.bind, hne]
        | ok r =>
          obtain ⟨o1, c1⟩ := r
          have hlen := hrest.2 o1 c1 he
          cases c1 with
          | nil =>
            simp [atom, is_number, is_open_paren, node_token, hnum, hlp, he, ADVANCE,
              bind, Except.bind]
          | cons x c2 =>
            cases c2 with
            | nil =>
              simp [atom, is_number, is_open_paren, node_token, hnum, hlp, he, ADVANCE,
                expect, bind, Except.bind]
            | cons y c3 =>
              by_cases hy : y.type = RPAREN
              · simp [atom, is_number, is_open_paren, node_token, hnum, hlp, he, ADVANCE,
                  expect, hy, bind, Except.bind, pure, Except.pure]
                simp at hlen; omega
              · simp [atom, is_number, is_open_paren, node_token, hnum, hlp, he, ADVANCE,
                  expect, hy, bind, Except.bind]
      · simp [atom, is_number, is_open_paren, node_token, hnum, hlp, bind, Except.bind,
          pure, Except.pure]

theorem push_operator_token_total (o : OpcodeList) (op : Token) :
    push_opcode_from_token o op ≠ .error .OutOfFuel := by
  unfold push_opcode_from_token
  split
  · split
    · simp
    · unfold push_literal_int_opcode
      split <;> simp
  all_goals simp

theorem level_total_step (L : Nat) (hL : L ≤ 2) (cur : Cursor)
    (hdown : level_total (L + 1) cur)
    (ih : ∀ c : Cursor, c.length < cur.length → level_total L c) : level_total L cur := by
  intro o fuel hf
  obtain ⟨fuel, rfl⟩ : ∃ k, fuel = k + 1 := ⟨fuel - 1, by omega⟩
  have hd := hdown o fuel (by omega)
  cases h1 : run_level (L + 1) fuel o cur with
  | error e =>
    rw [run_level_error L hL h1]
    exact ⟨fun h => hd.1 (by rw [h1, Except.error.inj h]), by simp⟩
  | ok r =>
    obtain ⟨o1, c1⟩ := r
    have hlen := hd.2 o1 c1 h1
    cases hp : peek_level L c1 with
    | false =>
      rw [run_level_no_op L hL h1 hp]
      refine ⟨by simp, ?_⟩
      intro o1' c1' h
      simp only [Except.ok.injEq, Prod.mk.injEq] at h
      rw [← h.2]; exact hlen
    | true =>
      obtain ⟨l, op, c2, hc1, hop⟩ := peek_level_true L hL c1 hp
      subst hc1
      have hrec := ih c2 (by simp at hlen; omega) o1 fuel (by simp at hlen; omega)
      cases h2 : run_level L fuel o1 c2 with
      | error e =>
        rw [run_level_op_error L hL h1 hop h2]
        exact ⟨fun h => hrec.1 (by rw [h2, Except.error.inj h]), by simp⟩
      | ok r2 =>
        obtain ⟨o2, c3⟩ := r2
        have hlen2 := hrec.2 o2 c3 h2
        rw [run_level_op L hL h1 hop h2 (push_operator_token o2 op L hop)]
        refine ⟨by simp, ?_⟩
        intro o' c' h
        simp only [Except.ok.injEq, Prod.mk.injEq] at h
        rw [← h.2]
        simp at hlen; omega

theorem level_total_all (n : Nat) : ∀ cur : Cursor, cur.length ≤ n →
    ∀ L, L ≤ 3 → level_total L cur := by
  induction n with
  | zero =>
    intro cur hn L hL
    have hnil : ∀ c : Cursor, c.length < cur.length → ∀ M, level_total M c := by
      intro c hc; omega
    have h3 := level_total_atom cur (fun c hc => hnil c hc 0)
    have h2 := level_total_step 2 (by omega) cur h3 (fun c hc => hnil c hc 2)
    have h1 := level_total_step 1 (by omega) cur h2 (fun c hc => hnil c hc 1)
    have h0 := level_total_step 0 (by omega) cur h1 (fun c hc => hnil c hc 0)
    interval_cases L <;> assumption
  | succ n ih =>
    intro cur hn L hL
    have hsm : ∀ c : Cursor, c.length < cur.length → ∀ M, M ≤ 3 → level_total M c :=
      fun c hc M hM => ih c (by omega) M hM
    have h3 := level_total_atom cur (fun c hc => hsm c hc 0 (by omega))
    have h2 := level_total_step 2 (by omega) cur h3 (fun c hc => hsm c hc 2 (by omega))
    have h1 := level_total_step 1 (by omega) cur h2 (fun c hc => hsm c hc 1 (by omega))
    have h0 := level_total_step 0 (by omega) cur h1 (fun c hc => hsm c hc 0 (by omega))
    interval_cases L <;> assumption

/-- The fuel which `parse` gives to `expr` is sufficient on every token list. -/
theorem parse_fuel_suffices (list : TokenList) : parse list ≠ .error .OutOfFuel := by
  have h := level_total_all list.length list (Nat.le_refl _) 0 (Nat.zero_le _)
    ⟨[], []⟩ (4 * list.length + 4) (Nat.le_refl _)
  simp only [run_level] at h
  cases he : expr (4 * list.length + 4) ⟨[], []⟩ list with
  | error e =>
    rw [parse_of_expr_error _ _ he]
    intro hc
    exact h.1 (by rw [he, Except.error.inj hc])
  | ok r =>
    obtain ⟨o, c⟩ := r
    rw [parse_of_expr _ _ _ he]
    cases c with
    | nil => simp
    | cons x next =>
      by_cases hn : next.length = 1 <;> by_cases hp : MAX_LITERALS < o.literals_top <;>
        simp [hn, hp]

/-- The fuel which `tokenize` gives to its loop is sufficient on every string. -/
theorem tokenize_fuel_suffices (s : List Char) : tokenize s ≠ .error .OutOfFuel := by
  rcases tokenize_cases s with ⟨_, toks, hok⟩ | ⟨pre, c, post, _, _, _, herr⟩
  · rw [hok]; simp
  · rw [herr]; simp

/-! ### The tokens of `tokenize` -/

theorem op_case_ne_END {c : Char} {t : TokenIdentifier} (h : op_case c = some t) : t ≠ END := by
  unfold op_case at h
  split_ifs at h <;> simp only [Option.some.injEq] at h <;> subst h <;> decide

/-- The loop of `tokenize` only appends tokens, and none of them is an `END` token. -/
theorem lex_appends (n : Nat) : ∀ (s : List Char), s.length ≤ n →
    ∀ (line : Nat) (list toks : TokenList), lex s line list = .ok toks →
      ∃ new, toks = list ++ new ∧ ∀ t ∈ new, t.type ≠ END := by
  induction n with
  | zero =>
    intro s hn line list toks h
    have : s = [] := List.length_eq_zero.mp (Nat.le_zero.mp hn)
    subst this
    rw [lex_nil] at h
    exact ⟨[], by simpa using (Except.ok.inj h).symm, by simp⟩
  | succ n ih =>
    intro s hn line list toks h
    cases s with
    | nil =>
      rw [lex_nil] at h
      exact ⟨[], by simpa using (Except.ok.inj h).symm, by simp⟩
    | cons c rest =>
      have hr : rest.length ≤ n := by simpa using hn
      rcases char_cases c with hc | hc | hc | ⟨t, hc⟩ | ⟨hc, hN⟩
      · subst hc
        rw [lex_newline] at h
        exact ih rest hr _ _ _ h
      · rw [lex_blank _ _ _ _ hc] at h
        exact ih rest hr _ _ _ h
      · rw [lex_digit _ _ _ _ hc] at h
        have hpos := digit_run_pos rest hc
        obtain ⟨new, hnew, hall⟩ := ih _
          (by simp only [List.length_drop, List.length_cons]; omega) _ _ _ h
        refine ⟨{ type := INTEGER, str_length := digit_run (c :: rest),
                  string := some (c :: rest) } :: new, by rw [hnew]; simp [add_token], ?_⟩
        intro t ht
        rcases List.mem_cons.mp ht with rfl | ht
        · simp
        · exact hall t ht
      · rw [lex_op _ _ _ _ t hc] at h
        obtain ⟨new, hnew, hall⟩ := ih rest hr _ _ _ h
        refine ⟨{ type := t, str_length := 1, string := some (c :: rest) } :: new,
          by rw [hnew]; simp [add_token], ?_⟩
        intro t' ht
        rcases List.mem_cons.mp ht with rfl | ht
        · exact op_case_ne_END hc
        · exact hall t' ht
      · rw [lex_bad _ _ _ _ hc hN] at h
        exact absurd h (by simp)

theorem lex_whitespace (s : List Char)
    (h : ∀ c ∈ s, c = ' ' ∨ c = '\t' ∨ c = '\r' ∨ c = '\n') :
    ∀ (line : Nat) (list : TokenList), ∃ line', lex s line list = lex [] line' list := by
  induction s with
  | nil => intro line list; exact ⟨line, rfl⟩
  | cons c rest ih =>
    intro line list
    have hrest := ih (fun x hx => h x (List.mem_cons_of_mem _ hx))
    rcases h c (List.mem_cons_self _ _) with hc | hc | hc | hc
    · rw [lex_blank _ _ _ _ (Or.inl hc)]; exact hrest _ _
    · rw [lex_blank _ _ _ _ (Or.inr (Or.inl hc))]; exact hrest _ _
    · rw [lex_blank _ _ _ _ (Or.inr (Or.inr (Or.inl hc)))]; exact hrest _ _
    · subst hc; rw [lex_newline]; exact hrest _ _

/-! ### Texts of two literals -/

/-- One cycle on a text `a o b`: the program `a b o` is interpreted. -/
theorem main_cycle_pair (a b : List Char) (o : Char) (t : TokenIdentifier) (k : Nat)
    (stack : Stack) (h : op_case o = some t) (hl : op_level t = some k)
    (ha : is_literal_text a = true) (hb : is_literal_text b = true) :
    main_cycle (a ++ [' ', o, ' '] ++ b) stack =
      interpret
        ⟨[(decimal_value a : Int), (decimal_value b : Int)],
         [.opcode OP_PUSH_INTEGER, .literal 0, .opcode OP_PUSH_INTEGER, .literal 1,
          .opcode (op_opcode t)]⟩ stack :=
  main_cycle_of_compile _ _ _ (compile_pair a b o t k h hl ha hb) (by simp)

/-- The two pushes of a program `a b o`, from the empty stack. -/
theorem interpret_loop_two (x y : Int) (code : List Opcode) :
    interpret_loop [x, y]
      (.opcode OP_PUSH_INTEGER :: .literal 0 :: .opcode OP_PUSH_INTEGER :: .literal 1 :: code)
      [] = interpret_loop [x, y] code [y, x] := by
  simp [interpret_loop, Opcode.as_opcode, Opcode.as_literal, read_literal,
    PUSH_INTEGER, stack_top, MAX_STACK]

/-! ## The interpreter on the code of a derivation tree -/

theorem interpret_loop_push (literals : List Int) (k : Nat) (v : Int) (code : List Opcode)
    (stack : Stack) (hv : literals.get? k = some v) (hroom : stack.length < MAX_STACK) :
    interpret_loop literals (.opcode OP_PUSH_INTEGER :: .literal k :: code) stack =
      interpret_loop literals code (v :: stack) := by
  have hv1 : literals[k]? = some v := by simpa using hv
  simp [interpret_loop, Opcode.as_opcode, Opcode.as_literal, read_literal, hv1, PUSH_INTEGER,
    stack_top, hroom]

theorem interpret_loop_op (literals : List Int) (type : TokenIdentifier) (k : Nat)
    (hk : op_level type = some k) (code : List Opcode) (a b : Int) (stack : Stack) :
    interpret_loop literals (.opcode (op_opcode type) :: code) (b :: a :: stack) =
      match apply_op type a b with
      | .error e => .error e
      | .ok v => interpret_loop literals code (v :: stack) := by
  cases type <;> simp [op_level] at hk
  case PERCENT =>
    by_cases hb : b = 0 <;>
      simp [op_opcode, apply_op, interpret_loop, Opcode.as_opcode, mod_numbers, hb]
  case CARET =>
    cases hp : mpz_pow_ui a (mpz_get_ui b) <;>
      simp [op_opcode, apply_op, interpret_loop, Opcode.as_opcode, pow_numbers, hp]
  all_goals
    simp [op_opcode, apply_op, interpret_loop, Opcode.as_opcode, add_numbers, sub_numbers,
      mul_numbers]

theorem num_literals_pos (t : Tree) : 1 ≤ t.num_literals := by
  induction t with
  | lit tok => simp [Tree.num_literals, Tree.literal_tokens]
  | paren lp e rp ih => simpa [Tree.num_literals, Tree.literal_tokens] using ih
  | bin l op r ihl ihr =>
    simp only [Tree.num_literals] at ihl ihr
    simp [Tree.num_literals, Tree.literal_tokens]
    omega

/-- The code of a derivation tree, run from a stack with room for its literals, pushes
the outcome of the tree on the stack, or stops with its error. -/
theorem interpret_tree (t : Tree) : t.wf = true →
    ∀ (pre post : List Int) (code : List Opcode) (stack : Stack),
      stack.length + t.num_literals ≤ MAX_STACK →
      interpret_loop (pre ++ t.pool ++ post) (t.postorder pre.length ++ code) stack =
        match t.exec with
        | .error e => .error e
        | .ok v => interpret_loop (pre ++ t.pool ++ post) code (v :: stack) := by
  induction t with
  | lit tok =>
    intro _ pre post code stack hroom
    have hv : (pre ++ [(decimal_value tok.span : Int)] ++ post).get? pre.length =
        some (decimal_value tok.span : Int) := by
      rw [List.get?_eq_getElem?, List.append_assoc,
        List.getElem?_append_right (Nat.le_refl _)]
      simp
    have hr : stack.length < MAX_STACK := by
      simp [Tree.num_literals, Tree.literal_tokens] at hroom; omega
    simpa [Tree.postorder, Tree.pool, Tree.literal_tokens, Tree.exec] using
      interpret_loop_push _ pre.length _ code stack hv hr
  | paren lp e rp ih =>
    intro hwf pre post code stack hroom
    simp only [Tree.wf, Bool.and_eq_true, decide_eq_true_eq] at hwf
    have := ih hwf.2 pre post code stack
      (by simpa [Tree.num_literals, Tree.literal_tokens] using hroom)
    simpa [Tree.postorder, Tree.pool, Tree.literal_tokens, Tree.exec] using this
  | bin l op r ihl ihr =>
    intro hwf pre post code stack hroom
    simp only [Tree.wf] at hwf
    cases hk : op_level op.type with
    | none => simp [hk] at hwf
    | some k =>
      simp only [hk, Bool.and_eq_true, decide_eq_true_eq] at hwf
      obtain ⟨⟨⟨hwl, hwr⟩, _⟩, _⟩ := hwf
      have hnum : (Tree.bin l op r).num_literals = l.num_literals + r.num_literals := by
        simp [Tree.num_literals, Tree.literal_tokens]
      have hpool : (Tree.bin l op r).pool = l.pool ++ r.pool := by
        simp [Tree.pool, Tree.literal_tokens]
      have hposl := num_literals_pos l
      have hposr := num_literals_pos r
      rw [hnum] at hroom
      have h1 := ihl hwl pre (r.pool ++ post)
        (r.postorder (pre.length + l.num_literals) ++ (.opcode (op_opcode op.type) :: code))
        stack (by omega)
      have hp1 : pre ++ l.pool ++ (r.pool ++ post) = pre ++ (l.pool ++ r.pool) ++ post := by
        simp
      have hp2 : (pre ++ l.pool) ++ r.pool ++ post = pre ++ (l.pool ++ r.pool) ++ post := by
        simp
      have hlen : (pre ++ l.pool).length = pre.length + l.num_literals := by
        simp [pool_length]
      rw [hp1] at h1
      have hcode : (Tree.bin l op r).postorder pre.length ++ code =
          l.postorder pre.length ++
            (r.postorder (pre.length + l.num_literals) ++ (.opcode (op_opcode op.type) :: code)) := by
        simp [Tree.postorder]
      rw [hpool, hcode, h1]
      simp only [Tree.exec]
      cases hl : l.exec with
      | error e => rfl
      | ok a =>
        have h2 := ihr hwr (pre ++ l.pool) post (.opcode (op_opcode op.type) :: code)
          (a :: stack) (by simp; omega)
        rw [hp2, hlen] at h2
        simp only []
        rw [h2]
        cases hr : r.exec with
        | error e => rfl
        | ok b =>
          simp only []
          exact interpret_loop_op _ op.type k hk code a b stack

theorem mpz_get_ui_of_fits (b : Int) (h0 : 0 ≤ b) (h1 : b < 2 ^ 64) :
    mpz_get_ui b = b.toNat := by
  unfold mpz_get_ui ULONG_BITS
  have h2 : b.natAbs = b.toNat := by omega
  rw [h2]
  apply Nat.mod_eq_of_lt
  omega

/-- A small power is returned by `mpz_pow_ui`. -/
theorem mpz_pow_ui_of_small (base : Int) (exp : Nat) (h : pow_is_small base exp = true) :
    mpz_pow_ui base exp = .ok (base ^ exp) := by
  simp [mpz_pow_ui, h]

/-- A power which is not small is not returned by `mpz_pow_ui`. -/
theorem mpz_pow_ui_of_not_small (base : Int) (exp : Nat) (h : pow_is_small base exp = false) :
    mpz_pow_ui base exp = .error .Abort ∨ mpz_pow_ui base exp = .error .Unspecified := by
  by_cases hc : MPZ_MAX_BITS ≤ (bit_length base.natAbs - 1) * exp <;> simp [mpz_pow_ui, h, hc]

/-- Inside its domain, without `/` and with small powers only, the outcome of a derivation
tree is its reference value. -/
theorem exec_eq_eval (t : Tree) : t.wf = true →
    (∀ tok ∈ t.tokens, tok.type ≠ FORWARD_SLASH) → t.in_domain = true →
    t.powers_small = true → t.exec = .ok t.eval := by
  induction t with
  | lit tok => intro _ _ _ _; rfl
  | paren lp e rp ih =>
    intro hwf hns hdom hsm
    simp only [Tree.wf, Bool.and_eq_true, decide_eq_true_eq] at hwf
    exact ih hwf.2 (fun tok htok => hns tok (by simp [Tree.tokens, htok])) hdom hsm
  | bin l op r ihl ihr =>
    intro hwf hns hdom hsm
    simp only [Tree.powers_small, Bool.and_eq_true, Bool.or_eq_true, bne_iff_ne, ne_eq] at hsm
    obtain ⟨⟨hsl, hsr⟩, hsp⟩ := hsm
    simp only [Tree.wf] at hwf
    cases hk : op_level op.type with
    | none => simp [hk] at hwf
    | some k =>
      simp only [hk, Bool.and_eq_true, decide_eq_true_eq] at hwf
      obtain ⟨⟨⟨hwl, hwr⟩, _⟩, _⟩ := hwf
      simp only [Tree.in_domain, Bool.and_eq_true, Bool.or_eq_true, bne_iff_ne, ne_eq,
        decide_eq_true_eq] at hdom
      obtain ⟨⟨⟨hdl, hdr⟩, hpow⟩, hmod⟩ := hdom
      have hl := ihl hwl (fun tok htok => hns tok (by simp [Tree.tokens, htok])) hdl hsl
      have hr := ihr hwr (fun tok htok => hns tok (by simp [Tree.tokens, htok])) hdr hsr
      have hop : op.type ≠ FORWARD_SLASH := hns op (by simp [Tree.tokens])
      simp only [Tree.exec, hl, hr, Tree.eval]
      cases hty : op.type <;> simp [hty, op_level] at hk hop ⊢ <;> simp only [apply_op]
      · have hne : r.eval ≠ 0 := by
          rcases hmod with h | h
          · exact absurd hty h
          · exact h
        rw [if_neg hne]
        rfl
      · have hfit : 0 ≤ r.eval ∧ r.eval < 2 ^ 64 := by
          rcases hpow with h | h
          · exact absurd hty h
          · exact h
        have hsmall : pow_is_small l.eval r.eval.toNat = true := by
          rcases hsp with h | h
          · exact absurd hty h
          · exact h
        rw [mpz_get_ui_of_fits _ hfit.1 hfit.2, mpz_pow_ui_of_small _ _ hsmall]

/-- The remainder of the reference evaluator is the non-negative one. -/
theorem eval_mod_range (a b : Int) (hb : b ≠ 0) : 0 ≤ a % b ∧ a % b < |b| :=
  ⟨Int.emod_nonneg a hb, Int.emod_lt a hb⟩

/-! ## The size of a power -/

theorem bit_length_loop_le (fuel : Nat) : ∀ n k : Nat, n < 2 ^ k →
    bit_length_loop fuel n ≤ k := by
  induction fuel with
  | zero => intro n k _; simp [bit_length_loop]
  | succ fuel ih =>
    intro n k h
    by_cases hn : n = 0
    · simp [bit_length_loop, hn]
    · obtain ⟨j, rfl⟩ : ∃ j, k = j + 1 := by
        cases k with
        | zero => simp at h; exact absurd h hn
        | succ j => exact ⟨j, rfl⟩
      have h2 : n / 2 < 2 ^ j := by
        rw [Nat.pow_succ] at h
        omega
      have := ih (n / 2) j h2
      simp only [bit_length_loop, hn, if_false]
      omega

/-- A number below `2 ^ k` has at most `k` binary digits. -/
theorem bit_length_le (n k : Nat) (h : n < 2 ^ k) : bit_length n ≤ k :=
  bit_length_loop_le n n k h

theorem lt_pow_bit_length_loop (fuel : Nat) : ∀ n : Nat, n ≤ fuel →
    n < 2 ^ bit_length_loop fuel n := by
  induction fuel with
  | zero => intro n h; simp [bit_length_loop]; omega
  | succ fuel ih =>
    intro n h
    by_cases hn : n = 0
    · simp [bit_length_loop, hn]
    · have := ih (n / 2) (by omega)
      simp only [bit_length_loop, hn, if_false, Nat.pow_succ]
      omega

/-- A number is below two to the number of its binary digits. -/
theorem lt_pow_bit_length (n : Nat) : n < 2 ^ bit_length n :=
  lt_pow_bit_length_loop n n (Nat.le_refl _)

theorem pow_le_bit_length_loop (fuel : Nat) : ∀ n : Nat, n ≠ 0 → n ≤ fuel →
    2 ^ (bit_length_loop fuel n - 1) ≤ n := by
  induction fuel with
  | zero => intro n hn h; omega
  | succ fuel ih =>
    intro n hn h
    simp only [bit_length_loop, hn, if_false, Nat.add_sub_cancel]
    by_cases h2 : n / 2 = 0
    · cases fuel <;> simp [bit_length_loop, h2] <;> omega
    · have := ih (n / 2) h2 (by omega)
      obtain ⟨j, hj⟩ : ∃ j, bit_length_loop fuel (n / 2) = j + 1 := by
        cases fuel with
        | zero => omega
        | succ f => exact ⟨bit_length_loop f (n / 2 / 2), by simp [bit_length_loop, h2]⟩
      rw [hj] at this ⊢
      simp only [Nat.add_sub_cancel] at this
      rw [Nat.pow_succ]
      omega

/-- A number other than `0` is at least two to the number of its binary digits less one. -/
theorem pow_le_bit_length (n : Nat) (hn : n ≠ 0) : 2 ^ (bit_length n - 1) ≤ n :=
  pow_le_bit_length_loop n n hn (Nat.le_refl _)

/-- A power which `pow_is_small` accepts has at most `POW_SAFE_BITS` binary digits. -/
theorem pow_is_small_sound (base : Int) (exp : Nat) (h : pow_is_small base exp = true) :
    (base ^ exp).natAbs < 2 ^ POW_SAFE_BITS := by
  have hpos : 1 < 2 ^ POW_SAFE_BITS :=
    Nat.one_lt_two_pow (by unfold POW_SAFE_BITS; exact Nat.pos_iff_ne_zero.mp (Nat.two_pow_pos 30))
  simp only [pow_is_small, decide_eq_true_eq] at h
  rw [Int.natAbs_pow]
  by_cases he : exp = 0
  · subst he
    simpa using hpos
  · rcases h with h | h | h
    · exact absurd h he
    · have h01 : base.natAbs = 0 ∨ base.natAbs = 1 := by omega
      rcases h01 with h0 | h1
      · rw [h0, zero_pow he]
        omega
      · rw [h1, one_pow]
        exact hpos
    · have h1 : base.natAbs ^ exp < (2 ^ bit_length base.natAbs) ^ exp :=
        Nat.pow_lt_pow_left (lt_pow_bit_length _) he
      rw [← Nat.pow_mul] at h1
      exact Nat.lt_of_lt_of_le h1 (Nat.pow_le_pow_right (by omega) h)

/-- A power for which `mpz_pow_ui` aborts does not fit an `mpz_t`. -/
theorem mpz_pow_ui_abort_sound (base : Int) (exp : Nat)
    (h : mpz_pow_ui base exp = .error .Abort) : 2 ^ MPZ_MAX_BITS ≤ (base ^ exp).natAbs := by
  unfold mpz_pow_ui at h
  by_cases hs : pow_is_small base exp = true
  · simp [hs] at h
  · by_cases hb : MPZ_MAX_BITS ≤ (bit_length base.natAbs - 1) * exp
    · have hne : base.natAbs ≠ 0 := by
        intro h0
        simp [pow_is_small, h0] at hs
      rw [Int.natAbs_pow]
      calc 2 ^ MPZ_MAX_BITS ≤ 2 ^ ((bit_length base.natAbs - 1) * exp) :=
            Nat.pow_le_pow_right (by omega) hb
        _ = (2 ^ (bit_length base.natAbs - 1)) ^ exp := by rw [Nat.pow_mul]
        _ ≤ base.natAbs ^ exp := Nat.pow_le_pow_left (pow_le_bit_length _ hne) exp
    · simp [hs, hb] at h

/-- A power which fits a native unsigned word is small. -/
theorem pow_is_small_of_fits (b c : Nat) (h : b ^ c < 2 ^ ULONG_BITS) :
    pow_is_small (b : Int) c = true := by
  simp only [pow_is_small, decide_eq_true_eq, Int.natAbs_ofNat]
  by_cases hc : c = 0
  · exact Or.inl hc
  · by_cases hb : b ≤ 1
    · exact Or.inr (Or.inl hb)
    · right; right
      have hb2 : 2 ≤ b := by omega
      have h1 : b ≤ b ^ c := Nat.le_self_pow hc b
      have hbl : bit_length b ≤ ULONG_BITS := bit_length_le b _ (by omega)
      have h2 : 2 ^ c ≤ b ^ c := Nat.pow_le_pow_left hb2 c
      have hc64 : c < ULONG_BITS := by
        by_contra hge
        have : 2 ^ ULONG_BITS ≤ 2 ^ c := Nat.pow_le_pow_right (by omega) (by omega)
        omega
      unfold ULONG_BITS at hbl hc64
      unfold POW_SAFE_BITS
      calc bit_length b * c ≤ 64 * 64 := Nat.mul_le_mul hbl (by omega)
        _ ≤ 2 ^ 30 := by norm_num

/-! ### Stack depths -/

theorem well_stacked_postorder (t : Tree) : ∀ (k depth : Nat) (code : List Opcode),
    well_stacked (t.postorder k ++ code) depth = well_stacked code (depth + 1) := by
  induction t with
  | lit tok => intro k depth code; simp [Tree.postorder, well_stacked]
  | paren lp e rp ih => intro k depth code; simpa [Tree.postorder] using ih k depth code
  | bin l op r ihl ihr =>
    intro k depth code
    simp only [Tree.postorder, List.append_assoc, List.singleton_append]
    rw [ihl, ihr]
    cases op.type <;> simp [op_opcode, well_stacked]

/-- In a well stacked sequence which starts at the depth `depth`, the pushes before a
binary opcode outnumber the binary opcodes before it by two or more, less `depth`. -/
theorem well_stacked_prefix (p : List Opcode) : ∀ (depth : Nat) (b : OpcodeIdentifier)
    (rest : List Opcode), well_stacked (p ++ .opcode b :: rest) depth = true →
    b ≠ OP_PUSH_INTEGER → count_binary p + 2 ≤ depth + count_push p := by
  induction p with
  | nil =>
    intro depth b rest h hb
    cases b <;> simp [well_stacked] at h hb ⊢ <;> simp [count_binary, count_push] <;> omega
  | cons c p ih =>
    intro depth b rest h hb
    cases c with
    | literal n =>
      have := ih depth b rest (by simpa [well_stacked] using h) hb
      simpa [count_binary, count_push, is_binary, List.countP_cons] using this
    | opcode o =>
      cases o
      case OP_PUSH_INTEGER =>
        have := ih (depth + 1) b rest (by simpa [well_stacked] using h) hb
        simp [count_binary, count_push, is_binary, List.countP_cons] at this ⊢
        omega
      all_goals
        simp only [List.cons_append, well_stacked, Bool.and_eq_true, decide_eq_true_eq] at h
        have := ih (depth - 1) b rest h.2 hb
        simp [count_binary, count_push, is_binary, List.countP_cons] at this ⊢
        omega

theorem count_append (p q : List Opcode) :
    count_push (p ++ q) = count_push p + count_push q ∧
    count_binary (p ++ q) = count_binary p + count_binary q := by
  simp [count_push, count_binary, List.countP_append]

theorem stack_depths_push (literals : List Int) (k : Nat) (code : List Opcode)
    (stack : Stack) (bound : Nat) (hroom : stack.length + 1 ≤ bound)
    (hrest : ∀ v, ∀ d ∈ stack_depths literals code (v :: stack), d ≤ bound) :
    ∀ d ∈ stack_depths literals (.opcode OP_PUSH_INTEGER :: .literal k :: code) stack,
      d ≤ bound := by
  intro d hd
  simp only [stack_depths, Opcode.as_opcode, Opcode.as_literal] at hd
  cases hr : read_literal literals k with
  | error e => simp [hr] at hd
  | ok v =>
    by_cases hs : stack.length < MAX_STACK
    · simp [hr, PUSH_INTEGER, stack_top, hs] at hd
      rcases hd with rfl | hd
      · exact hroom
      · exact hrest v d hd
    · simp [hr, PUSH_INTEGER, stack_top, hs] at hd

theorem stack_depths_op (literals : List Int) (type : TokenIdentifier) (code : List Opcode)
    (a b : Int) (stack : Stack) (bound : Nat) (hroom : stack.length + 1 ≤ bound)
    (hrest : ∀ v, ∀ d ∈ stack_depths literals code (v :: stack), d ≤ bound) :
    ∀ d ∈ stack_depths literals (.opcode (op_opcode type) :: code) (b :: a :: stack),
      d ≤ bound := by
  intro d hd
  have hpow : ∀ d ∈ stack_depths literals (.opcode OP_POW :: code) (b :: a :: stack),
      d ≤ bound := by
    intro d hd
    cases hp : mpz_pow_ui a (mpz_get_ui b) with
    | error e => simp [stack_depths, Opcode.as_opcode, pow_numbers, hp] at hd
    | ok v =>
      simp [stack_depths, Opcode.as_opcode, pow_numbers, stack_top, hp] at hd
      rcases hd with rfl | hd
      · exact hroom
      · exact hrest _ d hd
  cases type
  case PERCENT =>
    by_cases hb : b = 0
    · simp [op_opcode, stack_depths, Opcode.as_opcode, mod_numbers, hb] at hd
    · simp [op_opcode, stack_depths, Opcode.as_opcode, mod_numbers, stack_top, hb] at hd
      rcases hd with rfl | hd
      · exact hroom
      · exact hrest _ d hd
  case PLUS =>
    simp [op_opcode, stack_depths, Opcode.as_opcode, add_numbers, stack_top] at hd
    rcases hd with rfl | hd
    · exact hroom
    · exact hrest _ d hd
  case MINUS =>
    simp [op_opcode, stack_depths, Opcode.as_opcode, sub_numbers, stack_top] at hd
    rcases hd with rfl | hd
    · exact hroom
    · exact hrest _ d hd
  case STAR =>
    simp [op_opcode, stack_depths, Opcode.as_opcode, mul_numbers, stack_top] at hd
    rcases hd with rfl | hd
    · exact hroom
    · exact hrest _ d hd
  case FORWARD_SLASH =>
    simp [op_opcode, stack_depths, Opcode.as_opcode] at hd
  all_goals exact hpow d hd

/-- During the code of a derivation tree the stack is never deeper than the depth at its
start plus the number of literals of the tree. -/
theorem stack_depths_tree (t : Tree) (literals : List Int) : ∀ (k : Nat) (code : List Opcode)
    (stack : Stack) (bound : Nat), stack.length + t.num_literals ≤ bound →
    (∀ v, ∀ d ∈ stack_depths literals code (v :: stack), d ≤ bound) →
    ∀ d ∈ stack_depths literals (t.postorder k ++ code) stack, d ≤ bound := by
  induction t with
  | lit tok =>
    intro k code stack bound hroom hrest
    exact stack_depths_push literals k code stack bound
      (by simpa [Tree.num_literals, Tree.literal_tokens] using hroom) hrest
  | paren lp e rp ih =>
    intro k code stack bound hroom hrest
    exact ih k code stack bound
      (by simpa [Tree.num_literals, Tree.literal_tokens] using hroom) hrest
  | bin l op r ihl ihr =>
    intro k code stack bound hroom hrest
    have hnum : (Tree.bin l op r).num_literals = l.num_literals + r.num_literals := by
      simp [Tree.num_literals, Tree.literal_tokens]
    have hposl := num_literals_pos l
    have hposr := num_literals_pos r
    rw [hnum] at hroom
    simp only [Tree.postorder, List.append_assoc, List.singleton_append]
    apply ihl k _ stack bound (by omega)
    intro a
    apply ihr _ _ (a :: stack) bound (by simp; omega)
    intro b
    exact stack_depths_op literals op.type code a b stack bound (by omega) hrest

/-- The last entry of `stack_depths` is the depth of the stack which the loop of
`interpret` returns. -/
theorem stack_depths_last (literals : List Int) (code : List Opcode) (stack : Stack) :
    ∀ final, interpret_loop literals code stack = .ok final →
      (stack.length :: stack_depths literals code stack).getLast? = some final.length := by
  induction code, stack using interpret_loop.induct literals <;> intro final h
  all_goals simp_all [interpret_loop, stack_depths, stack_top]

theorem apply_op_error (type : TokenIdentifier) (a b : Int) (e : Error)
    (h : apply_op type a b = .error e) :
    e = .InterpreterError ∨ e = .DivideByZero ∨ e = .Abort ∨ e = .Unspecified := by
  cases type
  case PERCENT =>
    by_cases hb : b = 0
    · simp [apply_op, hb] at h; exact Or.inr (Or.inl h.symm)
    · simp [apply_op, hb] at h
  case CARET =>
    simp only [apply_op] at h
    by_cases hs : pow_is_small a (mpz_get_ui b) = true
    · rw [mpz_pow_ui_of_small _ _ hs] at h
      exact absurd h (by simp)
    · rcases mpz_pow_ui_of_not_small _ _ (by simpa using hs) with h1 | h1
      · rw [h1] at h
        exact Or.inr (Or.inr (Or.inl (Except.error.inj h).symm))
      · rw [h1] at h
        exact Or.inr (Or.inr (Or.inr (Except.error.inj h).symm))
  all_goals
    simp [apply_op] at h
  all_goals exact Or.inl h.symm

/-- The only errors among the outcomes of a derivation tree are the unknown opcode of `/`,
the division by zero of `%` and a power which `mpz_pow_ui` does not return. -/
theorem exec_error (t : Tree) : ∀ e, t.exec = .error e →
    e = .InterpreterError ∨ e = .DivideByZero ∨ e = .Abort ∨ e = .Unspecified := by
  induction t with
  | lit tok => intro e h; simp [Tree.exec] at h
  | paren lp t rp ih => intro e h; exact ih e h
  | bin l op r ihl ihr =>
    intro e h
    simp only [Tree.exec] at h
    cases hl : l.exec with
    | error e1 =>
      rw [hl] at h
      exact (Except.error.inj h) ▸ ihl e1 hl
    | ok a =>
      rw [hl] at h
      cases hr : r.exec with
      | error e2 =>
        rw [hr] at h
        exact (Except.error.inj h) ▸ ihr e2 hr
      | ok b =>
        rw [hr] at h
        exact apply_op_error _ _ _ _ h

theorem count_push_postorder (t : Tree) : ∀ k, count_push (t.postorder k) = t.num_literals := by
  induction t with
  | lit tok => intro k; simp [Tree.postorder, count_push, Tree.num_literals, Tree.literal_tokens]
  | paren lp e rp ih =>
    intro k; simpa [Tree.postorder, Tree.num_literals, Tree.literal_tokens] using ih k
  | bin l op r ihl ihr =>
    intro k
    have h1 := ihl k
    have h2 := ihr (k + l.num_literals)
    simp only [Tree.num_literals] at h1 h2
    simp only [Tree.postorder, (count_append _ _).1, h1, h2, Tree.num_literals,
      Tree.literal_tokens, List.length_append]
    cases op.type <;> simp [op_opcode, count_push]

/-- The program which `parse` returns for the tokens of a derivation tree. -/
theorem parse_tree_result (t : Tree) (hwf : t.wf = true) (e : Token) (he : e.type = END)
    (o : OpcodeList) (h : parse (t.tokens ++ [e]) = .ok o) :
    o = ⟨t.pool, t.postorder 0⟩ := by
  have hop : op_level e.type = none := by rw [he]; rfl
  by_cases hcap : t.num_literals ≤ MAX_LITERALS
  · rw [parse_derivable t hwf hcap e hop] at h
    exact (Except.ok.inj h).symm
  · by_cases hcap1 : t.num_literals = MAX_LITERALS + 1
    · rw [parse_poisoned t hwf hcap1 e hop] at h
      exact absurd h (by simp)
    · rw [parse_overflow t hwf (by omega) e [] hop] at h
      exact absurd h (by simp)

/-! ## The stack between the cycles -/

theorem segment_nil : segment [] 0 := by
  intro literals rest stack
  simp [interpret_loop]

theorem segment_mono {c : List Opcode} {d1 d2 : Int} (h : segment c d1) (hd : d1 ≤ d2) :
    segment c d2 := by
  intro literals rest stack
  refine ⟨(h literals rest stack).1, ?_⟩
  intro stack1 hs
  have := (h literals rest stack).2 stack1 hs
  omega

theorem segment_push (k : Nat) : segment [.opcode OP_PUSH_INTEGER, .literal k] 1 := by
  intro literals rest stack
  cases hr : read_literal literals k with
  | error e =>
    simp [interpret_loop, Opcode.as_opcode, Opcode.as_literal, hr]
  | ok v =>
    by_cases hs : stack.length < MAX_STACK
    · simp [interpret_loop, Opcode.as_opcode, Opcode.as_literal, hr, PUSH_INTEGER, stack_top, hs]
    · simp [interpret_loop, Opcode.as_opcode, Opcode.as_literal, hr, PUSH_INTEGER, stack_top, hs]

theorem segment_op (type : TokenIdentifier) (k : Nat) (hk : op_level type = some k) :
    segment [.opcode (op_opcode type)] (-1) := by
  intro literals rest stack
  match stack with
  | [] =>
    cases type <;> simp [op_level] at hk <;>
      simp [op_opcode, interpret_loop, Opcode.as_opcode, add_numbers, sub_numbers,
        mul_numbers, mod_numbers, pow_numbers]
  | [_] =>
    cases type <;> simp [op_level] at hk <;>
      simp [op_opcode, interpret_loop, Opcode.as_opcode, add_numbers, sub_numbers,
        mul_numbers, mod_numbers, pow_numbers]
  | b :: a :: stack =>
    have h1 := interpret_loop_op literals type k hk rest a b stack
    have h2 := interpret_loop_op literals type k hk [] a b stack
    rw [List.singleton_append, h1, h2]
    cases apply_op type a b with
    | error e => simp
    | ok v => simp [interpret_loop]

theorem segment_append {c1 c2 : List Opcode} {d1 d2 : Int} (h1 : segment c1 d1)
    (h2 : segment c2 d2) : segment (c1 ++ c2) (d1 + d2) := by
  intro literals rest stack
  have ha := (h1 literals (c2 ++ rest) stack).1
  have hb := (h1 literals c2 stack).1
  rw [List.append_assoc, ha, hb]
  cases hs : interpret_loop literals c1 stack with
  | error e => simp
  | ok stack1 =>
    have hl1 := (h1 literals rest stack).2 stack1 hs
    refine ⟨(h2 literals rest stack1).1, ?_⟩
    intro stack2 hs2
    have hl2 := (h2 literals rest stack1).2 stack2 hs2
    omega

theorem run_level_zero_fuel (L : Nat) (o : OpcodeList) (cur : Cursor) :
    run_level L 0 o cur = .error .OutOfFuel := by
  match L with
  | 0 => simp [run_level, expr]
  | 1 => simp [run_level, term]
  | 2 => simp [run_level, factor]
  | _ + 3 => simp [run_level, atom]

theorem run_level_atom (L : Nat) (hL : 3 ≤ L) : run_level L = atom := by
  match L, hL with
  | _ + 3, _ => rfl

theorem atom_emits (fuel : Nat) (o o' : OpcodeList) (cur cur' : Cursor)
    (ih : ∀ o1 c1 o2 c2, expr fuel o1 c1 = .ok (o2, c2) → ∃ c, o2.code = o1.code ++ c ∧ segment c 1)
    (h : atom (fuel + 1) o cur = .ok (o', cur')) :
    ∃ c, o'.code = o.code ++ c ∧ segment c 1 := by
  cases cur with
  | nil => simp [atom, is_number, node_token, bind, Except.bind] at h
  | cons tok rest =>
    by_cases hnum : tok.type = INTEGER
    · cases hs : tok.string with
      | none =>
        simp [atom, is_number, node_token, hnum, push_opcode_from_token, hs, bind,
          Except.bind] at h
      | some s =>
        by_cases hcap : o.literals.length ≤ MAX_LITERALS
        · simp [atom, is_number, node_token, hnum, push_opcode_from_token, hs,
            push_literal_int_opcode, push_opcode, OpcodeList.literals_top, hcap, bind,
            Except.bind, pure, Except.pure] at h
          refine ⟨[.opcode OP_PUSH_INTEGER, .literal o.literals.length], ?_, segment_push _⟩
          rw [← h.1]
        · simp [atom, is_number, node_token, hnum, push_opcode_from_token, hs,
            push_literal_int_opcode, push_opcode, OpcodeList.literals_top, hcap, bind,
            Except.bind] at h
    · by_cases hlp : tok.type = LPAREN
      · cases he : expr fuel o rest with
        | error e =>
          simp [atom, is_number, is_open_paren, node_token, hnum, hlp, he, ADVANCE,
            bind, Except.bind] at h
        | ok r =>
          obtain ⟨o1, c1⟩ := r
          obtain ⟨c, hc, hseg⟩ := ih o rest o1 c1 he
          cases c1 with
          | nil =>
            simp [atom, is_number, is_open_paren, node_token, hnum, hlp, he, ADVANCE,
              bind, Except.bind] at h
          | cons x c2 =>
            cases c2 with
            | nil =>
              simp [atom, is_number, is_open_paren, node_token, hnum, hlp, he, ADVANCE,
                expect, bind, Except.bind] at h
            | cons y c3 =>
              by_cases hy : y.type = RPAREN
              · simp [atom, is_number, is_open_paren, node_token, hnum, hlp, he, ADVANCE,
                  expect, hy, bind, Except.bind, pure, Except.pure] at h
                exact ⟨c, by rw [← h.1]; exact hc, hseg⟩
              · simp [atom, is_number, is_open_paren, node_token, hnum, hlp, he, ADVANCE,
                  expect, hy, bind, Except.bind] at h
      · simp [atom, is_number, is_open_paren, node_token, hnum, hlp, bind, Except.bind,
          pure, Except.pure] at h
        exact ⟨[], by rw [← h.1]; simp, segment_mono segment_nil (by omega)⟩

/-- Whatever the tokens are, the code which a parsing function appends is run by
`interpret` as a unit and leaves at most one value more on the stack. -/
theorem run_level_emits (fuel : Nat) : ∀ (L : Nat) (o o' : OpcodeList) (cur cur' : Cursor),
    run_level L fuel o cur = .ok (o', cur') →
      ∃ c, o'.code = o.code ++ c ∧ segment c 1 := by
  induction fuel with
  | zero =>
    intro L o o' cur cur' h
    rw [run_level_zero_fuel] at h
    exact absurd h (by simp)
  | succ fuel ih =>
    intro L o o' cur cur' h
    by_cases hL : L ≤ 2
    · cases h1 : run_level (L + 1) fuel o cur with
      | error e =>
        rw [run_level_error L hL h1] at h
        exact absurd h (by simp)
      | ok r =>
        obtain ⟨o1, c1⟩ := r
        obtain ⟨ca, hca, hsa⟩ := ih (L + 1) o o1 cur c1 h1
        cases hp : peek_level L c1 with
        | false =>
          rw [run_level_no_op L hL h1 hp] at h
          simp only [Except.ok.injEq, Prod.mk.injEq] at h
          exact ⟨ca, by rw [← h.1]; exact hca, hsa⟩
        | true =>
          obtain ⟨l, op, c2, hc1, hop⟩ := peek_level_true L hL c1 hp
          subst hc1
          cases h2 : run_level L fuel o1 c2 with
          | error e =>
            rw [run_level_op_error L hL h1 hop h2] at h
            exact absurd h (by simp)
          | ok r2 =>
            obtain ⟨o2, c3⟩ := r2
            obtain ⟨cb, hcb, hsb⟩ := ih L o1 o2 c2 c3 h2
            rw [run_level_op L hL h1 hop h2 (push_operator_token o2 op L hop)] at h
            simp only [Except.ok.injEq, Prod.mk.injEq] at h
            refine ⟨ca ++ cb ++ [.opcode (op_opcode op.type)], ?_, ?_⟩
            · rw [← h.1]
              simp [push_opcode, hcb, hca]
            · have := segment_append (segment_append hsa hsb) (segment_op op.type L hop)
              exact segment_mono this (by omega)
    · rw [run_level_atom L (by omega)] at h
      exact atom_emits fuel o o' cur cur'
        (fun o1 c1 o2 c2 he => ih 0 o1 o2 c1 c2 he) h

/-- The loop of `interpret` leaves at most one value on the empty stack after a program of
`parse`. -/
theorem parse_depth (list : TokenList) (o : OpcodeList) (h : parse list = .ok o)
    (final : Stack) (hrun : interpret_loop o.literals o.code [] = .ok final) :
    final.length ≤ 1 := by
  cases he : expr (4 * list.length + 4) ⟨[], []⟩ list with
  | error e =>
    rw [parse_of_expr_error _ _ he] at h
    exact absurd h (by simp)
  | ok r =>
    obtain ⟨o1, c1⟩ := r
    obtain ⟨c, hc, hseg⟩ := run_level_emits (4 * list.length + 4) 0 ⟨[], []⟩ o1 list c1 he
    rw [parse_of_expr _ _ _ he] at h
    have ho : o = o1 := by
      cases c1 with
      | nil => simp at h
      | cons x next =>
        by_cases hn : next.length = 1
        · by_cases hp : MAX_LITERALS < o1.literals_top
          · simp [hn, hp] at h
          · simpa [hn, hp] using h.symm
        · simp [hn] at h
    subst ho
    have hc1 : o.code = c := by simpa using hc
    rw [hc1] at hrun
    have := (hseg o.literals [] []).2 final hrun
    simp at this
    omega

/-- An iteration of the loop of `main` which returns has interpreted a program of `parse`
which is not empty. -/
theorem main_cycle_ok (buf : List Char) (stack : Stack) (result : Option Int × Stack)
    (h : main_cycle buf stack = .ok result) :
    ∃ toks o, tokenize buf = .ok toks ∧ parse toks = .ok o ∧
      interpret o stack = .ok result ∧ o.code ≠ [] := by
  unfold main_cycle at h
  cases ht : tokenize buf with
  | error e => simp [ht] at h
  | ok toks =>
    simp only [ht] at h
    cases hp : parse toks with
    | error e => simp [hp] at h
    | ok o =>
      simp only [hp] at h
      cases hi : interpret o stack with
      | error e => simp [hi] at h
      | ok r =>
        simp only [hi] at h
        cases hc : o.code with
        | nil => simp [free_opcode_list, hc] at h
        | cons x xs =>
          simp only [free_opcode_list, hc] at h
          cases toks with
          | nil => simp [free_token_list] at h
          | cons y ys =>
            simp only [free_token_list, Except.ok.injEq] at h
            exact ⟨y :: ys, o, rfl, hp, by rw [hi, h], by simp [hc]⟩

/-- An iteration of the loop of `main` which begins with the empty stack and returns ends
with the empty stack. -/
theorem main_cycle_empty (buf : List Char) (out : Option Int) (stack' : Stack)
    (h : main_cycle buf [] = .ok (out, stack')) : stack' = [] := by
  obtain ⟨toks, o, _, hp, h, _⟩ := main_cycle_ok buf [] (out, stack') h
  unfold interpret at h
  cases hrun : interpret_loop o.literals o.code [] with
  | error e => simp [hrun] at h
  | ok final =>
    have hlen := parse_depth toks o hp final hrun
    simp only [hrun] at h
    match final, hlen, h with
    | [], _, h =>
      simp only [Except.ok.injEq, Prod.mk.injEq] at h
      exact h.2.symm
    | [x], _, h =>
      simp only [Except.ok.injEq, Prod.mk.injEq] at h
      exact h.2.symm

/-- Every iteration of the loop of `main` begins with the empty stack. -/
theorem reachable_empty (stack : Stack) (h : reachable stack) : stack = [] := by
  induction h with
  | start => rfl
  | cycle buf stack out stack' _ hc ih =>
    subst ih
    exact main_cycle_empty buf out stack' hc

/-! ## Claims -/

/-- C1. Subtraction chains are right-associative end to end: for all decimal integer
literals `a`, `b`, `c`, tokenizing, parsing and interpreting the text `a - b - c` prints
the single result `a - (b - c)` and leaves the stack empty. -/
theorem C1_subtraction_right_associative (a b c : List Char)
    (ha : is_literal_text a = true) (hb : is_literal_text b = true)
    (hc : is_literal_text c = true) :
    main_cycle (a ++ " - ".toList ++ b ++ " - ".toList ++ c) [] =
      .ok (some ((decimal_value a : Int) - ((decimal_value b : Int) - (decimal_value c : Int))),
           []) := by
  have h := main_cycle_chain a b c '-' '-' MINUS MINUS 0 0 [] (by decide) (by decide)
    rfl rfl (Nat.le_refl _) ha hb hc
  have e1 : " - ".toList = [' ', '-', ' '] := rfl
  rw [e1, h, interpret, interpret_loop_three]
  simp [interpret_loop, Opcode.as_opcode, sub_numbers, op_opcode]

/-- C1, at the text `10 - 3 - 2`: the result is `9`. -/
theorem C1_subtraction_right_associative_witness :
    main_cycle "10 - 3 - 2".toList [] = .ok (some 9, []) :=
  C1_subtraction_right_associative "10".toList "3".toList "2".toList
    (by decide) (by decide) (by decide)

/-- C2 (as amended). Exponentiation chains are right-associative end to end: for all
decimal integer literals `a`, `b`, `c` such that both `c` and `b ^ c` fit a native unsigned
word and the power `a ^ (b ^ c)` is small (`b ^ c` is `0`, or `a` is `0` or `1`, or the
number of bits of `a` times `b ^ c` is at most `2 ^ 30`), the text `a ^ b ^ c` evaluates to
`a ^ (b ^ c)`. -/
theorem C2_power_right_associative (a b c : List Char)
    (ha : is_literal_text a = true) (hb : is_literal_text b = true)
    (hc : is_literal_text c = true)
    (hfit_c : decimal_value c < 2 ^ ULONG_BITS)
    (hfit : decimal_value b ^ decimal_value c < 2 ^ ULONG_BITS)
    (hsmall : pow_is_small (decimal_value a : Int) (decimal_value b ^ decimal_value c) = true) :
    main_cycle (a ++ " ^ ".toList ++ b ++ " ^ ".toList ++ c) [] =
      .ok (some ((decimal_value a : Int) ^ (decimal_value b ^ decimal_value c)), []) := by
  have h := main_cycle_chain a b c '^' '^' CARET CARET 2 2 [] (by decide) (by decide)
    rfl rfl (Nat.le_refl _) ha hb hc
  have e1 : " ^ ".toList = [' ', '^', ' '] := rfl
  have g1 : mpz_get_ui (decimal_value c : Int) = decimal_value c := by
    simp [mpz_get_ui, Nat.mod_eq_of_lt hfit_c]
  have g2 : mpz_get_ui ((decimal_value b : Int) ^ decimal_value c) =
      decimal_value b ^ decimal_value c := by
    simp [mpz_get_ui, Int.natAbs_pow, Nat.mod_eq_of_lt hfit]
  have p1 : mpz_pow_ui (decimal_value b : Int) (decimal_value c) =
      .ok ((decimal_value b : Int) ^ decimal_value c) :=
    mpz_pow_ui_of_small _ _ (by
      simpa using pow_is_small_of_fits (decimal_value b) (decimal_value c) hfit)
  have p2 := mpz_pow_ui_of_small _ _ hsmall
  rw [e1, h, interpret, interpret_loop_three]
  simp [interpret_loop, Opcode.as_opcode, pow_numbers, op_opcode, g1, g2, p1, p2]

/-- C2 (as amended), at the text `2 ^ 3 ^ 2`: the result is `512`. -/
theorem C2_power_right_associative_witness :
    main_cycle "2 ^ 3 ^ 2".toList [] = .ok (some 512, []) :=
  C2_power_right_associative "2".toList "3".toList "2".toList
    (by decide) (by decide) (by decide) (by decide) (by decide) (by decide)

/-- C2 as stated fails at `2 ^ 0 ^ 18446744073709551616`: `0 ^ 2 ^ 64 = 0` fits a native
unsigned word, but the exponent `2 ^ 64` itself is cut to `0` by `mpz_get_ui`, so that the
result is `2 ^ (0 ^ 0) = 2` and not `2 ^ (0 ^ 2 ^ 64) = 1`.  It also fails at
`2 ^ 2 ^ 62`: `2 ^ 62` fits a native unsigned word, but the power `2 ^ (2 ^ 62)` does not
fit an `mpz_t`, and the library aborts the process instead of producing it. -/
theorem C2_counterexample :
    ¬ (decimal_value "0".toList ^ decimal_value "18446744073709551616".toList < 2 ^ ULONG_BITS →
        main_cycle "2 ^ 0 ^ 18446744073709551616".toList [] =
          .ok (some ((decimal_value "2".toList : Int) ^
            (decimal_value "0".toList ^ decimal_value "18446744073709551616".toList)), [])) ∧
    decimal_value "2".toList ^ decimal_value "62".toList < 2 ^ ULONG_BITS ∧
    main_cycle "2 ^ 2 ^ 62".toList [] = .error .Abort := by
  have hb : decimal_value "0".toList = 0 := by decide
  have hc : decimal_value "18446744073709551616".toList = 18446744073709551616 := by decide
  have ha : decimal_value "2".toList = 2 := by decide
  have hrun : main_cycle "2 ^ 0 ^ 18446744073709551616".toList [] = .ok (some 2, []) := by
    decide
  refine ⟨?_, by decide, by decide⟩
  rw [hb, hc, ha, hrun, zero_pow (by norm_num)]
  intro h
  have := h (by norm_num [ULONG_BITS])
  simp at this

/-- C3. Multiplication binds tighter than addition: for all decimal integer literals `a`,
`b`, `c`, the text `a + b * c` evaluates to `a + (b * c)`. -/
theorem C3_multiplication_binds_tighter (a b c : List Char)
    (ha : is_literal_text a = true) (hb : is_literal_text b = true)
    (hc : is_literal_text c = true) :
    main_cycle (a ++ " + ".toList ++ b ++ " * ".toList ++ c) [] =
      .ok (some ((decimal_value a : Int) + ((decimal_value b : Int) * (decimal_value c : Int))),
           []) := by
  have h := main_cycle_chain a b c '+' '*' PLUS STAR 0 1 [] (by decide) (by decide)
    rfl rfl (Nat.zero_le _) ha hb hc
  have e1 : " + ".toList = [' ', '+', ' '] := rfl
  have e2 : " * ".toList = [' ', '*', ' '] := rfl
  rw [e1, e2, h, interpret, interpret_loop_three]
  simp [interpret_loop, Opcode.as_opcode, add_numbers, mul_numbers, op_opcode]

/-- C3, at the text `3 + 4 * 2`: the result is `11`. -/
theorem C3_multiplication_binds_tighter_witness :
    main_cycle "3 + 4 * 2".toList [] = .ok (some 11, []) :=
  C3_multiplication_binds_tighter "3".toList "4".toList "2".toList
    (by decide) (by decide) (by decide)

/-- C4. Parentheses override precedence and emit no code of their own: for all decimal
integer literals `a`, `b`, `c`, the instruction sequence of the text `(a + b) * c` is the
instruction sequence of the text `a + b` followed by the push of `c` (the literal number
`2`) and `Mul`, and the text evaluates to `(a + b) * c`. -/
theorem C4_parentheses (a b c : List Char)
    (ha : is_literal_text a = true) (hb : is_literal_text b = true)
    (hc : is_literal_text c = true) :
    ∃ inner outer : OpcodeList,
      compile (a ++ " + ".toList ++ b) = .ok inner ∧
      compile ("(".toList ++ a ++ " + ".toList ++ b ++ ") * ".toList ++ c) = .ok outer ∧
      outer.code = inner.code ++ [.opcode OP_PUSH_INTEGER, .literal 2, .opcode OP_MUL] ∧
      main_cycle ("(".toList ++ a ++ " + ".toList ++ b ++ ") * ".toList ++ c) [] =
        .ok (some (((decimal_value a : Int) + (decimal_value b : Int)) * (decimal_value c : Int)),
             []) := by
  have e1 : " + ".toList = [' ', '+', ' '] := rfl
  have e2 : "(".toList = ['('] := rfl
  have e3 : ") * ".toList = [')', ' ', '*', ' '] := rfl
  have hin := compile_pair a b '+' PLUS 0 (by decide) rfl ha hb
  have hout := compile_paren a b c '+' '*' PLUS STAR 0 1 (by decide) (by decide) rfl rfl
    ha hb hc
  rw [e1, e2, e3]
  refine ⟨_, _, hin, hout, ?_, ?_⟩
  · simp [op_opcode]
  · rw [main_cycle_of_compile _ _ _ hout (by simp)]
    simp [interpret, interpret_loop, Opcode.as_opcode, Opcode.as_literal, read_literal,
      PUSH_INTEGER, stack_top, MAX_STACK, add_numbers, mul_numbers, op_opcode]

/-- C4, at the text `(1 + 2) * 3`: the code of `1 + 2`, the push of `3` and `Mul`; the
result is `9`. -/
theorem C4_parentheses_witness :
    ∃ inner outer : OpcodeList,
      compile "1 + 2".toList = .ok inner ∧
      compile "(1 + 2) * 3".toList = .ok outer ∧
      outer.code = inner.code ++ [.opcode OP_PUSH_INTEGER, .literal 2, .opcode OP_MUL] ∧
      main_cycle "(1 + 2) * 3".toList [] = .ok (some 9, []) :=
  C4_parentheses "1".toList "2".toList "3".toList (by decide) (by decide) (by decide)

/-- C5 (as amended). `parse` is a correct postfix compiler for the grammar: for every
derivation tree of the grammar with at most `MAX_LITERALS = 128` integer literals, `parse`
on the token sequence of the tree followed by `END` succeeds; the emitted instruction
sequence is the post-order traversal of the tree, in which the literals are the operands
`0, 1, 2, ...` of `PushInteger` in left-to-right order, and the constant pool holds the
base-10 values of the digit spans of the literals in the same order. -/
theorem C5_parse_postorder (t : Tree) (hwf : t.wf = true)
    (hcap : t.num_literals ≤ MAX_LITERALS) (e : Token) (he : e.type = END) :
    parse (t.tokens ++ [e]) = .ok ⟨t.pool, t.postorder 0⟩ ∧
      operands (t.postorder 0) = List.range t.num_literals ∧
      t.pool = t.literal_tokens.map (fun tok => (decimal_value tok.span : Int)) := by
  refine ⟨parse_derivable t hwf hcap e (by rw [he]; rfl), ?_, rfl⟩
  rw [List.range_eq_range', postorder_operands]

/-- C5 (as amended), at the tokens of `(1 + 2) * 3`. -/
theorem C5_parse_postorder_witness :
    parse [op_token LPAREN "(1 + 2) * 3".toList, lit_token "1".toList " + 2) * 3".toList,
        op_token PLUS "+ 2) * 3".toList, lit_token "2".toList ") * 3".toList,
        op_token RPAREN ") * 3".toList, op_token STAR "* 3".toList,
        lit_token "3".toList [], end_token] =
      .ok ⟨[1, 2, 3],
        [.opcode OP_PUSH_INTEGER, .literal 0, .opcode OP_PUSH_INTEGER, .literal 1,
         .opcode OP_ADD, .opcode OP_PUSH_INTEGER, .literal 2, .opcode OP_MUL]⟩ :=
  (C5_parse_postorder
    (.bin
      (.paren (op_token LPAREN "(1 + 2) * 3".toList)
        (.bin (.lit (lit_token "1".toList " + 2) * 3".toList)) (op_token PLUS "+ 2) * 3".toList)
          (.lit (lit_token "2".toList ") * 3".toList)))
        (op_token RPAREN ") * 3".toList))
      (op_token STAR "* 3".toList) (.lit (lit_token "3".toList [])))
    (by decide) (by decide) end_token rfl).1

/-- C5 as stated fails at the text `1+1+ ... +1` with 129 literals: its tokens are
derivable from the grammar, and `parse` writes the last literal past the end of the
constant pool, over the head of the list of instructions, instead of returning a
program. -/
theorem C5_counterexample :
    derives 0 (ones_tree [] 128).tokens ∧
    tokenize (ones_text 128) = .ok ((ones_tree [] 128).tokens ++ [end_token]) ∧
    parse ((ones_tree [] 128).tokens ++ [end_token]) = .error .Undefined := by
  refine ⟨derives_of_wf _ (ones_tree_wf [] 128) 0 (Nat.zero_le _), ?_, ?_⟩
  · have h := lex_ones_text [] rfl 128 0 []
    rw [List.append_nil, lex_nil] at h
    simpa using tokenize_of_lex _ _ (ones_text_no_NUL 128) h
  · exact parse_poisoned _ (ones_tree_wf [] 128)
      (by rw [ones_tree_num_literals]; rfl) end_token rfl

/-- C6, the code at the failing input `+`: `atom` has no branch for a token which is
neither a number nor an opening parenthesis, and `parse` returns an empty instruction
sequence instead of failing with the parser error; `interpret` then prints nothing, and
`free_opcode_list` dereferences the `NULL` head of the empty sequence. -/
theorem C6_lone_operator_is_accepted :
    tokenize "+".toList = .ok [op_token PLUS "+".toList, end_token] ∧
    parse [op_token PLUS "+".toList, end_token] = .ok ⟨[], []⟩ ∧
    interpret ⟨[], []⟩ [] = .ok (none, []) ∧
    free_opcode_list ⟨[], []⟩ = .error .Undefined ∧
    main_cycle "+".toList [] = .error .Undefined := by
  decide

/-- C9. For an input which is a C string (no NUL among its characters), `tokenize` fails
with the tokenizer error if and only if the input contains a character that is not a
space, tab, carriage return, newline, decimal digit or one of `+ - * / % ^ ( )`; and the
character it reports is the first such character of the input. -/
theorem C9_lex_error_iff_bad_character (s : List Char) (hN : ∀ c ∈ s, c ≠ NUL) :
    ((∃ c line, tokenize s = .error (.TokenizerError c line)) ↔ ∃ c ∈ s, allowed c = false) ∧
    (∀ c line, tokenize s = .error (.TokenizerError c line) →
      s.find? (fun x => !allowed x) = some c) := by
  have hdup := strdup_eq_self s hN
  rcases tokenize_cases s with ⟨hall, toks, hok⟩ | ⟨pre, c, post, hs, hpre, hc, herr⟩
  · rw [hdup] at hall
    refine ⟨⟨?_, ?_⟩, ?_⟩
    · rintro ⟨c, line, h⟩
      rw [hok] at h
      exact absurd h (by simp)
    · rintro ⟨c, hc, hbad⟩
      rw [hall c hc] at hbad
      exact absurd hbad (by simp)
    · intro c line h
      rw [hok] at h
      exact absurd h (by simp)
  · rw [hdup] at hs
    refine ⟨⟨fun _ => ⟨c, by rw [hs]; simp, hc⟩, fun _ => ⟨c, _, herr⟩⟩, ?_⟩
    intro c' line h
    rw [herr] at h
    simp only [Except.error.injEq, Error.TokenizerError.injEq] at h
    rw [hs, find_bad_split pre post c hpre hc, h.1]

/-- C9, at the text `1 + x y`. -/
theorem C9_lex_error_iff_bad_character_witness :
    ((∃ c line, tokenize "1 + x y".toList = .error (.TokenizerError c line)) ↔
        ∃ c ∈ "1 + x y".toList, allowed c = false) ∧
    (∀ c line, tokenize "1 + x y".toList = .error (.TokenizerError c line) →
      "1 + x y".toList.find? (fun x => !allowed x) = some c) :=
  C9_lex_error_iff_bad_character "1 + x y".toList (by decide)

/-- C10 (as amended). When `tokenize` fails with the tokenizer error, the line number it
reports is the number of newline characters which precede the offending character in the
input: lines are counted from `0`. -/
theorem C10_error_line_counts_newlines (s : List Char) (c : Char) (line : Nat)
    (h : tokenize s = .error (.TokenizerError c line)) :
    line = (s.takeWhile allowed).count '\n' := by
  rcases tokenize_cases s with ⟨_, toks, hok⟩ | ⟨pre, c', post, hs, hpre, hc, herr⟩
  · rw [hok] at h
    exact absurd h (by simp)
  · rw [herr] at h
    simp only [Except.error.injEq, Error.TokenizerError.injEq] at h
    have hsplit : s = pre ++ c' :: (post ++ s.dropWhile (fun c => c != NUL)) := by
      have := List.takeWhile_append_dropWhile (fun c => c != NUL) s
      unfold strdup at hs
      rw [hs] at this
      simpa using this.symm
    rw [hsplit, takeWhile_allowed_split pre _ c' hpre hc, h.2]

/-- C10 (as amended), at the text of three lines `1`, empty, `2 x`: the offending `x` is
reported at line `2`. -/
theorem C10_error_line_counts_newlines_witness :
    tokenize "1\n\n2 x".toList = .error (.TokenizerError 'x' 2) ∧
      2 = ("1\n\n2 x".toList.takeWhile allowed).count '\n' :=
  ⟨by decide, C10_error_line_counts_newlines "1\n\n2 x".toList 'x' 2 (by decide)⟩

/-- C10 as stated fails at the text `x`: the offending character is on the first line
and is reported at line `0`, not at line `1`. -/
theorem C10_counterexample :
    tokenize "x".toList = .error (.TokenizerError 'x' 0) ∧
    ¬ (∀ c line, tokenize "x".toList = .error (.TokenizerError c line) →
        line = 1 + ("x".toList.takeWhile allowed).count '\n') := by
  refine ⟨by decide, fun h => ?_⟩
  have := h 'x' 0 (by decide)
  revert this
  decide

/-- C11. For every non-empty string `s` of decimal digits, `tokenize` succeeds and yields
exactly one `INTEGER` token, which points at the beginning of the working copy (offset `0`),
has the length of `s` and so spans all of `s`, followed by the `END` token. -/
theorem C11_digit_string_is_one_token (s : List Char) (hs : is_literal_text s = true) :
    tokenize s =
      .ok [{ type := INTEGER, str_length := s.length, string := some s },
           { type := END, str_length := 0, string := none }] ∧
    Token.span { type := INTEGER, str_length := s.length, string := some s } = s := by
  have h := lex_lit_end s 0 [] hs
  have ht := tokenize_of_lex s _ (literal_text_no_NUL s hs) h
  refine ⟨?_, by simp [Token.span]⟩
  simpa [lit_token, end_token] using ht

/-- C11, at the digit string `0042`. -/
theorem C11_digit_string_is_one_token_witness :
    tokenize "0042".toList =
      .ok [{ type := INTEGER, str_length := 4, string := some "0042".toList },
           { type := END, str_length := 0, string := none }] ∧
    Token.span { type := INTEGER, str_length := 4, string := some "0042".toList } =
      "0042".toList :=
  C11_digit_string_is_one_token "0042".toList (by decide)

/-- C12. For every input on which `tokenize` succeeds, the token sequence is a sequence of
tokens none of which is an `END` token, followed by the `END` token: there is exactly one
`END` token and it is the last token.  For the empty input and for every input of spaces,
tabs, carriage returns and newlines only, the sequence is the `END` token alone. -/
theorem C12_end_token_last (s : List Char) :
    (∀ toks, tokenize s = .ok toks →
      ∃ init, toks = init ++ [end_token] ∧ ∀ t ∈ init, t.type ≠ END) ∧
    ((∀ c ∈ s, c = ' ' ∨ c = '\t' ∨ c = '\r' ∨ c = '\n') → tokenize s = .ok [end_token]) := by
  constructor
  · intro toks h
    rw [tokenize_eq_lex] at h
    cases hl : lex (strdup s) 0 [] with
    | error e => rw [hl] at h; exact absurd h (by simp)
    | ok list =>
      rw [hl] at h
      obtain ⟨new, hnew, hall⟩ := lex_appends _ _ (Nat.le_refl _) 0 [] list hl
      refine ⟨new, ?_, hall⟩
      have := (Except.ok.inj h).symm
      simpa [add_token, end_token, hnew] using this
  · intro hws
    have hN : ∀ c ∈ s, c ≠ NUL := by
      intro c hc
      rcases hws c hc with h | h | h | h <;> subst h <;> decide
    obtain ⟨line', hl⟩ := lex_whitespace s hws 0 []
    rw [lex_nil] at hl
    simpa using tokenize_of_lex s [] hN hl

/-- C12, at the text `12 + 3` and at the whitespace-only text of a space, a tab and a
newline. -/
theorem C12_end_token_last_witness :
    (∃ init, [lit_token "12".toList " + 3".toList, op_token PLUS "+ 3".toList,
        lit_token "3".toList [], end_token] = init ++ [end_token] ∧
      ∀ t ∈ init, t.type ≠ END) ∧
    tokenize " \t\n".toList = .ok [end_token] :=
  ⟨(C12_end_token_last "12 + 3".toList).1 _ (by decide),
   (C12_end_token_last " \t\n".toList).2 (by decide)⟩

/-- C13. Addition is exact at any magnitude: for all decimal literals `a` and `b` of any
length, the text `a + b` evaluates to the sum of the two numbers as unbounded integers. -/
theorem C13_addition_exact (a b : List Char)
    (ha : is_literal_text a = true) (hb : is_literal_text b = true) :
    main_cycle (a ++ " + ".toList ++ b) [] =
      .ok (some ((decimal_value a : Int) + (decimal_value b : Int)), []) := by
  have h := main_cycle_pair a b '+' PLUS 0 [] (by decide) rfl ha hb
  have e1 : " + ".toList = [' ', '+', ' '] := rfl
  rw [e1, h, interpret, interpret_loop_two]
  simp [interpret_loop, Opcode.as_opcode, add_numbers, op_opcode]

/-- C13, at the text `99999999999999999999999999 + 1`, whose result does not fit 64
bits. -/
theorem C13_addition_exact_witness :
    main_cycle "99999999999999999999999999 + 1".toList [] =
      .ok (some 100000000000000000000000000, []) :=
  C13_addition_exact "99999999999999999999999999".toList "1".toList (by decide) (by decide)

/-- C14, the code at the failing input `6 / 3`: the `switch` of `interpret` has no case
for `OP_DIV`, so the instruction which `parse` emits for `/` is an unknown opcode, although
`div_numbers` is there and computes the quotient `2` on the same operands. -/
theorem C14_division_is_unknown_opcode :
    compile "6 / 3".toList =
      .ok ⟨[6, 3], [.opcode OP_PUSH_INTEGER, .literal 0, .opcode OP_PUSH_INTEGER, .literal 1,
        .opcode OP_DIV]⟩ ∧
    main_cycle "6 / 3".toList [] = .error .InterpreterError ∧
    div_numbers [3, 6] = .ok [2] := by
  decide

/-- C15 (as amended). A zero divisor: for every decimal integer literal `a`, the text
`a / 0` fails with the interpreter error, and the text `a % 0` does not: `mpz_mod` divides
by zero and the process is terminated by GMP, without an interpreter error. -/
theorem C15_zero_divisor (a : List Char) (ha : is_literal_text a = true) :
    main_cycle (a ++ " / 0".toList) [] = .error .InterpreterError ∧
    main_cycle (a ++ " % 0".toList) [] = .error .DivideByZero := by
  have h1 := main_cycle_pair a ['0'] '/' FORWARD_SLASH 1 [] (by decide) rfl ha (by decide)
  have h2 := main_cycle_pair a ['0'] '%' PERCENT 1 [] (by decide) rfl ha (by decide)
  have e1 : a ++ " / 0".toList = a ++ [' ', '/', ' '] ++ ['0'] := by
    simp
  have e2 : a ++ " % 0".toList = a ++ [' ', '%', ' '] ++ ['0'] := by
    simp
  have hz : decimal_value ['0'] = 0 := by decide
  rw [e1, e2, h1, h2, interpret, interpret, interpret_loop_two, interpret_loop_two]
  simp [interpret_loop, Opcode.as_opcode, mod_numbers, op_opcode, hz]

/-- C15 (as amended), at the texts `12 / 0` and `12 % 0`. -/
theorem C15_zero_divisor_witness :
    main_cycle "12 / 0".toList [] = .error .InterpreterError ∧
    main_cycle "12 % 0".toList [] = .error .DivideByZero :=
  C15_zero_divisor "12".toList (by decide)

/-- C15 as stated fails at the text `5 % 0`: the outcome is GMP's division by zero and
not the interpreter error. -/
theorem C15_counterexample :
    main_cycle "5 % 0".toList [] = .error .DivideByZero ∧
    main_cycle "5 % 0".toList [] ≠ .error .InterpreterError := by
  decide

/-- C17 (as amended). A program that does not leave exactly one value on the stack: for
every instruction sequence whose interpretation ends with a final stack depth other than
`1`, `interpret` prints no result and returns without signalling an error; the values stay
on the shared stack. -/
theorem C17_other_depth_is_silent (list : OpcodeList) (stack final : Stack)
    (hrun : interpret_loop list.literals list.code stack = .ok final)
    (hdepth : stack_top final ≠ 1) :
    interpret list stack = .ok (none, final) := by
  unfold interpret
  rw [hrun]
  match final, hdepth with
  | [], _ => rfl
  | [_], h => exact absurd rfl h
  | _ :: _ :: _, _ => rfl

/-- C17 (as amended), at the two pushes `PushInteger 0, PushInteger 1` from the empty
stack: nothing is printed and both values stay on the stack. -/
theorem C17_other_depth_is_silent_witness :
    interpret ⟨[5, 7], [.opcode OP_PUSH_INTEGER, .literal 0, .opcode OP_PUSH_INTEGER,
      .literal 1]⟩ [] = .ok (none, [7, 5]) :=
  C17_other_depth_is_silent ⟨[5, 7], [.opcode OP_PUSH_INTEGER, .literal 0,
    .opcode OP_PUSH_INTEGER, .literal 1]⟩ [] [7, 5] (by decide) (by decide)

/-- C17 as stated fails at the empty instruction sequence which `parse` produces for the
text `+`: the final stack depth is `0` and `interpret` returns without an error. -/
theorem C17_counterexample :
    compile "+".toList = .ok ⟨[], []⟩ ∧
    interpret_loop [] [] [] = .ok [] ∧
    interpret ⟨[], []⟩ [] = .ok (none, []) ∧
    interpret ⟨[], []⟩ [] ≠ .error .InterpreterError := by
  decide

/-- C18. Evaluation does not leak state between cycles: in every state of the stack in
which an iteration of the loop of `main` can begin, for every text whose evaluation
returns and prints a result, the depth of the shared stack (`stack_top`) is `0` afterwards,
and the evaluation of the same text from that resulting state prints the same result and
ends in the same state; both evaluations run one and the same program, which `tokenize` and
`parse` build from the text alone, with its constant pool filled from index `0`. -/
theorem C18_no_state_leak (stack : Stack) (hreach : reachable stack) (buf : List Char)
    (v : Int) (stack' : Stack) (h : main_cycle buf stack = .ok (some v, stack')) :
    stack_top stack' = 0 ∧
    main_cycle buf stack' = .ok (some v, stack') ∧
    ∃ o : OpcodeList, compile buf = .ok o ∧
      main_cycle buf stack = interpret o stack ∧
      main_cycle buf stack' = interpret o stack' := by
  have hs := reachable_empty stack hreach
  subst hs
  have hs' := main_cycle_empty buf (some v) stack' h
  subst hs'
  refine ⟨rfl, h, ?_⟩
  obtain ⟨toks, o, ht, hp, _, hcode⟩ := main_cycle_ok buf [] (some v, []) h
  have hc : compile buf = .ok o := by
    unfold compile
    rw [ht]
    exact hp
  exact ⟨o, hc, main_cycle_of_compile _ _ _ hc hcode, main_cycle_of_compile _ _ _ hc hcode⟩

/-- C18, at the start of the program and the text `10 - 3 - 2`. -/
theorem C18_no_state_leak_witness :
    stack_top [] = 0 ∧
    main_cycle "10 - 3 - 2".toList [] = .ok (some 9, []) ∧
    ∃ o : OpcodeList, compile "10 - 3 - 2".toList = .ok o ∧
      main_cycle "10 - 3 - 2".toList [] = interpret o [] ∧
      main_cycle "10 - 3 - 2".toList [] = interpret o [] :=
  C18_no_state_leak [] reachable.start "10 - 3 - 2".toList 9 [] (by decide)

/-- C19 (as amended). Compile-then-run agrees with the reference evaluator: for every
derivation tree of the grammar without `/`, with at most `64` integer literals, in which
every exponent has a value in `[0, 2 ^ 64)`, every modulus a value other than zero, and
every power is small (its exponent is `0`, or its base is `0`, `1` or `-1`, or the number
of bits of its base times its exponent is at most `2 ^ 30`), `parse` on the tokens of the
tree followed by `END` returns a program on which the loop of `interpret`, from the empty
stack, leaves exactly one value, the value of the reference evaluator, and `interpret`
prints it. -/
theorem C19_compile_then_run (t : Tree) (hwf : t.wf = true)
    (hns : ∀ tok ∈ t.tokens, tok.type ≠ FORWARD_SLASH) (hlit : t.num_literals ≤ 64)
    (hdom : t.in_domain = true) (hsmall : t.powers_small = true)
    (e : Token) (he : e.type = END) :
    ∃ o : OpcodeList, parse (t.tokens ++ [e]) = .ok o ∧
      interpret_loop o.literals o.code [] = .ok [t.eval] ∧
      interpret o [] = .ok (some t.eval, []) := by
  have hp := parse_derivable t hwf (by unfold MAX_LITERALS; omega) e (by rw [he]; rfl)
  have hrun := interpret_tree t hwf [] [] [] [] (by simpa [MAX_STACK] using hlit)
  rw [exec_eq_eval t hwf hns hdom hsmall] at hrun
  simp only [List.nil_append, List.append_nil, List.length_nil] at hrun
  have hloop : interpret_loop t.pool (t.postorder 0) [] = .ok [t.eval] := by
    rw [hrun]; rfl
  exact ⟨_, hp, hloop, by simp [interpret, hloop]⟩

/-- C19 (as amended), at the tokens of `(7 - 2) * 3 ^ 2 % 4`, which is
`5 * ((3 ^ 2) % 4) = 5`. -/
theorem C19_compile_then_run_witness :
    ∃ o : OpcodeList,
      parse [op_token LPAREN [], lit_token "7".toList [], op_token MINUS [],
        lit_token "2".toList [], op_token RPAREN [], op_token STAR [],
        lit_token "3".toList [], op_token CARET [], lit_token "2".toList [],
        op_token PERCENT [], lit_token "4".toList [], end_token] = .ok o ∧
      interpret_loop o.literals o.code [] = .ok [5] ∧
      interpret o [] = .ok (some 5, []) :=
  C19_compile_then_run
    (.bin
      (.paren (op_token LPAREN [])
        (.bin (.lit (lit_token "7".toList [])) (op_token MINUS [])
          (.lit (lit_token "2".toList [])))
        (op_token RPAREN []))
      (op_token STAR [])
      (.bin
        (.bin (.lit (lit_token "3".toList [])) (op_token CARET [])
          (.lit (lit_token "2".toList [])))
        (op_token PERCENT []) (.lit (lit_token "4".toList []))))
    (by decide) (by decide) (by decide) (by decide) (by decide) end_token rfl

/-- C19 as stated fails at the tokens of `2 ^ 4611686018427387904`: the sequence is
derivable, has no `/` and two literals, and its exponent `2 ^ 62` is in `[0, 2 ^ 64)`; but
the power does not fit an `mpz_t`, and the library aborts the process in `Pow` instead of
leaving the value of the reference evaluator. -/
theorem C19_counterexample :
    (Tree.bin (.lit (lit_token "2".toList [])) (op_token CARET [])
      (.lit (lit_token "4611686018427387904".toList []))).wf = true ∧
    (Tree.bin (.lit (lit_token "2".toList [])) (op_token CARET [])
      (.lit (lit_token "4611686018427387904".toList []))).in_domain = true ∧
    (Tree.bin (.lit (lit_token "2".toList [])) (op_token CARET [])
      (.lit (lit_token "4611686018427387904".toList []))).tokens =
      [lit_token "2".toList [], op_token CARET [],
        lit_token "4611686018427387904".toList []] ∧
    parse [lit_token "2".toList [], op_token CARET [],
        lit_token "4611686018427387904".toList [], end_token] =
      .ok ⟨[2, 4611686018427387904],
        [.opcode OP_PUSH_INTEGER, .literal 0, .opcode OP_PUSH_INTEGER, .literal 1,
         .opcode OP_POW]⟩ ∧
    interpret_loop [2, 4611686018427387904]
      [.opcode OP_PUSH_INTEGER, .literal 0, .opcode OP_PUSH_INTEGER, .literal 1,
       .opcode OP_POW] [] = .error .Abort ∧
    interpret ⟨[2, 4611686018427387904],
      [.opcode OP_PUSH_INTEGER, .literal 0, .opcode OP_PUSH_INTEGER, .literal 1,
       .opcode OP_POW]⟩ [] = .error .Abort := by
  decide

/-- C20. Stack accesses stay in bounds for grammatical input: for every derivation tree of
the grammar and the instruction sequence which `parse` emits for its tokens followed by
`END`: at every binary opcode of the sequence, the `PushInteger` instructions up to it
outnumber the binary opcodes up to and including it by one or more, so that the opcode
finds two values or more; the stack depth is at no time during the loop of `interpret`
above the number of integer literals; and with at most `MAX_STACK = 64` literals the depth
is at no time above `64` and `interpret` makes no access out of bounds: it prints a result
or stops with the unknown opcode of `/`, with the division by zero of `%`, or in a power
which `mpz_pow_ui` does not return. -/
theorem C20_stack_in_bounds (t : Tree) (hwf : t.wf = true) (e : Token) (he : e.type = END)
    (o : OpcodeList) (hparse : parse (t.tokens ++ [e]) = .ok o) :
    (∀ p b rest, o.code = p ++ .opcode b :: rest → b ≠ OP_PUSH_INTEGER →
      count_binary (p ++ [.opcode b]) + 1 ≤ count_push (p ++ [.opcode b]) ∧
      2 ≤ count_push p - count_binary p) ∧
    (∀ d ∈ stack_depths o.literals o.code [], d ≤ t.num_literals) ∧
    (t.num_literals ≤ MAX_STACK →
      (∀ d ∈ stack_depths o.literals o.code [], d ≤ MAX_STACK) ∧
      ((∃ v, interpret o [] = .ok (some v, [])) ∨
        interpret o [] = .error .InterpreterError ∨
        interpret o [] = .error .DivideByZero ∨
        interpret o [] = .error .Abort ∨
        interpret o [] = .error .Unspecified)) := by
  have ho := parse_tree_result t hwf e he o hparse
  subst ho
  have hdepth : ∀ d ∈ stack_depths t.pool (t.postorder 0) [], d ≤ t.num_literals := by
    have := stack_depths_tree t t.pool 0 [] [] t.num_literals (by simp)
      (by intro v d hd; simp [stack_depths] at hd)
    simpa using this
  refine ⟨?_, hdepth, ?_⟩
  · intro p b rest hcode hb
    have hws : well_stacked (p ++ .opcode b :: rest) 0 = true := by
      have := well_stacked_postorder t 0 0 []
      simp only [List.append_nil] at this
      have hc : t.postorder 0 = p ++ .opcode b :: rest := hcode
      rw [← hc, this]
      rfl
    have := well_stacked_prefix p 0 b rest hws hb
    have hb1 : count_binary [Opcode.opcode b] = 1 := by
      cases b <;> simp [count_binary, is_binary] at hb ⊢
    have hb2 : count_push [Opcode.opcode b] = 0 := by
      cases b <;> simp [count_push] at hb ⊢
    rw [(count_append _ _).1, (count_append _ _).2, hb1, hb2]
    omega
  · intro hlit
    refine ⟨fun d hd => Nat.le_trans (hdepth d hd) hlit, ?_⟩
    have hrun := interpret_tree t hwf [] [] [] [] (by simpa using hlit)
    simp only [List.nil_append, List.append_nil, List.length_nil] at hrun
    cases hx : t.exec with
    | ok v =>
      left
      rw [hx] at hrun
      exact ⟨v, by simp [interpret, hrun, interpret_loop]⟩
    | error err =>
      right
      rw [hx] at hrun
      rcases exec_error t err hx with h | h | h | h <;> subst h
      · left; simp [interpret, hrun]
      · right; left; simp [interpret, hrun]
      · right; right; left; simp [interpret, hrun]
      · right; right; right; simp [interpret, hrun]

/-- C20, at the tokens of `4 - (1 + 2) * 3`. -/
theorem C20_stack_in_bounds_witness :
    (∀ p b rest,
      [Opcode.opcode OP_PUSH_INTEGER, .literal 0, .opcode OP_PUSH_INTEGER, .literal 1,
        .opcode OP_PUSH_INTEGER, .literal 2, .opcode OP_ADD, .opcode OP_PUSH_INTEGER,
        .literal 3, .opcode OP_MUL, .opcode OP_SUB] = p ++ .opcode b :: rest →
      b ≠ OP_PUSH_INTEGER →
      count_binary (p ++ [.opcode b]) + 1 ≤ count_push (p ++ [.opcode b]) ∧
      2 ≤ count_push p - count_binary p) ∧
    (∀ d ∈ [1, 2, 3, 2, 3, 2, 1], d ≤ 4) ∧
    (4 ≤ MAX_STACK →
      (∀ d ∈ [1, 2, 3, 2, 3, 2, 1], d ≤ MAX_STACK) ∧
      ((∃ v, interpret ⟨[4, 1, 2, 3],
          [.opcode OP_PUSH_INTEGER, .literal 0, .opcode OP_PUSH_INTEGER, .literal 1,
           .opcode OP_PUSH_INTEGER, .literal 2, .opcode OP_ADD, .opcode OP_PUSH_INTEGER,
           .literal 3, .opcode OP_MUL, .opcode OP_SUB]⟩ [] = .ok (some v, [])) ∨
        interpret ⟨[4, 1, 2, 3],
          [.opcode OP_PUSH_INTEGER, .literal 0, .opcode OP_PUSH_INTEGER, .literal 1,
           .opcode OP_PUSH_INTEGER, .literal 2, .opcode OP_ADD, .opcode OP_PUSH_INTEGER,
           .literal 3, .opcode OP_MUL, .opcode OP_SUB]⟩ [] = .error .InterpreterError ∨
        interpret ⟨[4, 1, 2, 3],
          [.opcode OP_PUSH_INTEGER, .literal 0, .opcode OP_PUSH_INTEGER, .literal 1,
           .opcode OP_PUSH_INTEGER, .literal 2, .opcode OP_ADD, .opcode OP_PUSH_INTEGER,
           .literal 3, .opcode OP_MUL, .opcode OP_SUB]⟩ [] = .error .DivideByZero ∨
        interpret ⟨[4, 1, 2, 3],
          [.opcode OP_PUSH_INTEGER, .literal 0, .opcode OP_PUSH_INTEGER, .literal 1,
           .opcode OP_PUSH_INTEGER, .literal 2, .opcode OP_ADD, .opcode OP_PUSH_INTEGER,
           .literal 3, .opcode OP_MUL, .opcode OP_SUB]⟩ [] = .error .Abort ∨
        interpret ⟨[4, 1, 2, 3],
          [.opcode OP_PUSH_INTEGER, .literal 0, .opcode OP_PUSH_INTEGER, .literal 1,
           .opcode OP_PUSH_INTEGER, .literal 2, .opcode OP_ADD, .opcode OP_PUSH_INTEGER,
           .literal 3, .opcode OP_MUL, .opcode OP_SUB]⟩ [] = .error .Unspecified)) :=
  C20_stack_in_bounds
    (.bin (.lit (lit_token "4".toList [])) (op_token MINUS [])
      (.bin
        (.paren (op_token LPAREN [])
          (.bin (.lit (lit_token "1".toList [])) (op_token PLUS [])
            (.lit (lit_token "2".toList [])))
          (op_token RPAREN []))
        (op_token STAR []) (.lit (lit_token "3".toList []))))
    (by decide) end_token rfl
    ⟨[4, 1, 2, 3],
      [.opcode OP_PUSH_INTEGER, .literal 0, .opcode OP_PUSH_INTEGER, .literal 1,
       .opcode OP_PUSH_INTEGER, .literal 2, .opcode OP_ADD, .opcode OP_PUSH_INTEGER,
       .literal 3, .opcode OP_MUL, .opcode OP_SUB]⟩
    (by decide)

end Calculator
